import Mathlib

/-!
# Truth-table generator for gate netlists (`src/main.c`)

A shallow embedding of the evaluation core of `main.c` and theorems about it.

Modelling conventions

* The node array `nodes` is a `List Node`; a `Node*` is an index into that list.
  `inputNodes` and `outputNodes` are lists of such indices, so that a write through
  `inputNodes.arr[i]` is visible to `dfs`, as in the source.
* `int` values are `Int`; `&`, `|`, `^`, `~` act on the 32-bit pattern of their operands
  (`and32`, `or32`, `xor32`, `not32`), and `uint32_t` arithmetic is taken modulo `2^32`.
* `exit(1)` after an error message is an `Err` value. Recursion in `dfs` is bounded by a
  fuel argument; running out of fuel is the error `Err.outOfFuel`, which stands for a
  recursion deeper than the bound (an endless one on a cyclic netlist).
* Standard output is kept structured (`Run`) and turned into text by `render`.
* `parseFile` is modelled as the automaton over the two flags `insideOuterBlock` and
  `insideStanza`, run on the pieces `fgets` reads into its 256-character buffer; what a
  property line does to the current node is a parameter.
* `evalPure` is the evaluation without memo that `dfs` is compared with.
-/

namespace LogicSim

/-! ## Data model -/

/-- Node kinds, in the order of the source `enum`. -/
inductive NodeType where
  | AND
  | OR
  | NOT
  | XOR
  | INPUT
  | OUTPUT
deriving DecidableEq, Repr

/-- The `Node` struct. `inputs` and `outputs` are the used parts of the two `ArrayList`s. -/
structure Node where
  type : NodeType
  uniqueID : Nat
  inputs : List Int
  outputs : List Int
  value : Int
  hasCachedValue : Int
  cachedValue : Int
deriving DecidableEq, Repr

/-- Defaults set by `createNode`. -/
def createNode : Node :=
  { type := NodeType.INPUT, uniqueID := 0, inputs := [], outputs := [],
    value := 0, hasCachedValue := 0, cachedValue := 0 }

instance : Inhabited Node := ⟨createNode⟩

deriving instance DecidableEq for Except

/-- Every way the program leaves through `exit(1)`, plus the two model-only outcomes. -/
inductive Err where
  /-- Messages "Not enough inputs for AND/OR/XOR.", "NOT requires exactly one input." and
  "OUTPUT node has no inputs."; the kind tells which. -/
  | arity (t : NodeType)
  /-- Message "Node with UniqueID=%d not found." -/
  | nodeNotFound (id : Int)
  /-- Message "Index out of bounds in ArrayList." -/
  | indexOutOfBounds
  /-- Message "Null node encountered in DFS." -/
  | nullNode
  /-- Message "Unsupported gate type in DFS." -/
  | unsupportedGate
  /-- Model only: the recursion of `dfs` went deeper than the fuel. -/
  | outOfFuel
  /-- Model only: `(int)pow(2, numInputs)` with a value that does not fit `int`
  (undefined in C). -/
  | undefinedConversion
deriving DecidableEq, Repr

/-- Reinterpret a value below `2^32` as a signed 32-bit `int`. -/
def toInt32 (x : Nat) : Int :=
  if x % 2 ^ 32 < 2 ^ 31 then ((x % 2 ^ 32 : Nat) : Int) else ((x % 2 ^ 32 : Nat) : Int) - 2 ^ 32

/-- The cast `(uint32_t)ID` of an `int`. -/
def toUInt32 (x : Int) : Nat := (x % 2 ^ 32).toNat

/-- The operator `&` on `int`. -/
def and32 (a b : Int) : Int := toInt32 (toUInt32 a &&& toUInt32 b)

/-- The operator `|` on `int`. -/
def or32 (a b : Int) : Int := toInt32 (toUInt32 a ||| toUInt32 b)

/-- The operator `^` on `int`. -/
def xor32 (a b : Int) : Int := toInt32 (toUInt32 a ^^^ toUInt32 b)

/-- The operator `~` on `int`. -/
def not32 (a : Int) : Int := toInt32 (toUInt32 a ^^^ (2 ^ 32 - 1))

/-- `Node*` dereference; indices handed out by the model are always in range. -/
def deref (nodes : List Node) (p : Nat) : Node := nodes.getD p createNode

/-! ## Gate folds (`bitwiseAND`, `bitwiseOR`, `bitwiseNOT`, `bitwiseXOR`) -/

/-- The loop `for (i = 1; i < used; i++) output op= get(in, i)` over the remaining values. -/
def foldLoop (op : Int → Int → Int) (output : Int) : List Int → Int
  | [] => output
  | x :: rest => foldLoop op (op output x) rest

/-- `bitwiseAND`: at least two values, combined with `&` from the left. -/
def bitwiseAND (vals : List Int) : Except Err Int :=
  if vals.length < 2 then Except.error (Err.arity NodeType.AND)
  else
    match vals with
    | [] => Except.error Err.indexOutOfBounds
    | x :: rest => Except.ok (foldLoop and32 x rest)

/-- `bitwiseOR`: at least two values, combined with `|` from the left. -/
def bitwiseOR (vals : List Int) : Except Err Int :=
  if vals.length < 2 then Except.error (Err.arity NodeType.OR)
  else
    match vals with
    | [] => Except.error Err.indexOutOfBounds
    | x :: rest => Except.ok (foldLoop or32 x rest)

/-- `bitwiseNOT`: exactly one value; its complement masked to the low bit. -/
def bitwiseNOT (vals : List Int) : Except Err Int :=
  if vals.length ≠ 1 then Except.error (Err.arity NodeType.NOT)
  else
    match vals with
    | [] => Except.error Err.indexOutOfBounds
    | x :: _ => Except.ok (and32 (not32 x) 1)

/-- `bitwiseXOR`: at least two values, combined with `^` from the left. -/
def bitwiseXOR (vals : List Int) : Except Err Int :=
  if vals.length < 2 then Except.error (Err.arity NodeType.XOR)
  else
    match vals with
    | [] => Except.error Err.indexOutOfBounds
    | x :: rest => Except.ok (foldLoop xor32 x rest)

/-! ## Lookup and memoised evaluation (`findNodeByID`, `dfs`) -/

/-- Linear search; the result is the position of the first node whose id equals
`(uint32_t)ID`. -/
def findNodeByID : List Node → Int → Except Err Nat
  | [], ID => Except.error (Err.nodeNotFound ID)
  | n :: rest, ID =>
    if n.uniqueID = toUInt32 ID then Except.ok 0
    else
      match findNodeByID rest ID with
      | Except.ok i => Except.ok (i + 1)
      | Except.error e => Except.error e

/-- The two writes `cachedValue = v; hasCachedValue = 1` through the pointer `cur`. -/
def setCached (s : List Node) (cur : Nat) (v : Int) : List Node :=
  match s[cur]? with
  | some n => s.set cur { n with cachedValue := v, hasCachedValue := 1 }
  | none => s

/-- Step 4 of `dfs`: resolve and evaluate every input id in list order, collecting the
values; `ev` is the recursive call. -/
def gatherInputs (ev : List Node → Nat → Except Err (Int × List Node)) :
    List Node → List Int → Except Err (List Int × List Node)
  | s, [] => Except.ok ([], s)
  | s, inID :: rest =>
    match findNodeByID s inID with
    | Except.error e => Except.error e
    | Except.ok inNode =>
      match ev s inNode with
      | Except.error e => Except.error e
      | Except.ok (inVal, s1) =>
        match gatherInputs ev s1 rest with
        | Except.error e => Except.error e
        | Except.ok (vals, s2) => Except.ok (inVal :: vals, s2)

/-- Step 5 of `dfs`: the `switch` on the gate kind. -/
def applyGate (t : NodeType) (vals : List Int) : Except Err Int :=
  match t with
  | NodeType.AND => bitwiseAND vals
  | NodeType.OR => bitwiseOR vals
  | NodeType.NOT => bitwiseNOT vals
  | NodeType.XOR => bitwiseXOR vals
  | _ => Except.error Err.unsupportedGate

/-- `dfs(nodes, currentNode)`: the value returned and the node array afterwards. -/
def dfs : Nat → List Node → Nat → Except Err (Int × List Node)
  | 0, _, _ => Except.error Err.outOfFuel
  | fuel + 1, nodes, cur =>
    match nodes[cur]? with
    | none => Except.error Err.nullNode
    | some n =>
      if n.hasCachedValue ≠ 0 then Except.ok (n.cachedValue, nodes)
      else if n.type = NodeType.INPUT then Except.ok (n.value, setCached nodes cur n.value)
      else if n.type = NodeType.OUTPUT then
        match n.inputs with
        | [] => Except.error (Err.arity NodeType.OUTPUT)
        | inID :: _ =>
          match findNodeByID nodes inID with
          | Except.error e => Except.error e
          | Except.ok inNode =>
            match dfs fuel nodes inNode with
            | Except.error e => Except.error e
            | Except.ok (v, s) => Except.ok (v, setCached s cur v)
      else
        match gatherInputs (dfs fuel) nodes n.inputs with
        | Except.error e => Except.error e
        | Except.ok (vals, s) =>
          match applyGate n.type vals with
          | Except.error e => Except.error e
          | Except.ok outputValue => Except.ok (outputValue, setCached s cur outputValue)

/-! ## `main`: input/output lists, header, truth-table loop -/

/-- `compareNodePtrByID`: `(int)(n1->uniqueID - n2->uniqueID)`, the subtraction in
`uint32_t`. -/
def compareNodePtrByID (nodes : List Node) (a b : Nat) : Int :=
  toInt32 (((deref nodes a).uniqueID % 2 ^ 32 + 2 ^ 32 - (deref nodes b).uniqueID % 2 ^ 32)
    % 2 ^ 32)

/-- Insertion of one element before the first element it does not compare greater than. -/
def qsortInsert (cmp : Nat → Nat → Int) (a : Nat) : List Nat → List Nat
  | [] => [a]
  | b :: rest => if cmp a b ≤ 0 then a :: b :: rest else b :: qsortInsert cmp a rest

/-- `qsort` with comparator `cmp`, as an insertion sort. The C library leaves the order of
elements that compare equal open; the theorems below only rely on the result being an
ordered rearrangement. -/
def qsort (cmp : Nat → Nat → Int) : List Nat → List Nat
  | [] => []
  | a :: rest => qsortInsert cmp a (qsort cmp rest)

/-- The loop of step 2 for one kind: pointers to the nodes of kind `t`, in file order. -/
def collectType (t : NodeType) (nodes : List Node) : List Nat :=
  (List.range nodes.length).filter (fun i => decide ((deref nodes i).type = t))

/-- The array `inputNodes` after `qsort`. -/
def inputNodes (nodes : List Node) : List Nat :=
  qsort (compareNodePtrByID nodes) (collectType NodeType.INPUT nodes)

/-- The array `outputNodes` after `qsort`. -/
def outputNodes (nodes : List Node) : List Nat :=
  qsort (compareNodePtrByID nodes) (collectType NodeType.OUTPUT nodes)

/-- `(int)pow(2, numInputs)`: defined only when the power fits a 32-bit `int`. -/
def numCombinations (numInputs : Nat) : Option Nat :=
  if 2 ^ numInputs < 2 ^ 31 then some (2 ^ numInputs) else none

/-- The write `p->value = v`. -/
def setValue (s : List Node) (p : Nat) (v : Int) : List Node :=
  match s[p]? with
  | some n => s.set p { n with value := v }
  | none => s

/-- The loop `for i: inputNodes.arr[i]->value = (combination >> i) & 1`, from position `i`. -/
def assignInputs (combination : Nat) : List Nat → Nat → List Node → List Node
  | [], _, s => s
  | p :: rest, i, s =>
    assignInputs combination rest (i + 1) (setValue s p (((combination >>> i) &&& 1 : Nat) : Int))

/-- The loop clearing `hasCachedValue` on every node. -/
def resetMemo (s : List Node) : List Node :=
  s.map (fun n => { n with hasCachedValue := 0 })

/-- The values printed by the loop `printf("%d ", inputNodes.arr[i]->value)`. -/
def printInputs (s : List Node) (ins : List Nat) : List Int :=
  ins.map (fun p => (deref s p).value)

/-- The loop over the output nodes: the results printed so far, and either the node array
afterwards or the error that ended the program. -/
def evalOutputs (fuel : Nat) : List Nat → List Node → List Int × Except Err (List Node)
  | [], s => ([], Except.ok s)
  | p :: rest, s =>
    match dfs fuel s p with
    | Except.error e => ([], Except.error e)
    | Except.ok (result, s1) =>
      ((result :: (evalOutputs fuel rest s1).1), (evalOutputs fuel rest s1).2)

/-- One line of the table: the combination index, the input bits and the output bits
printed for it. -/
structure Row where
  combination : Nat
  inputBits : List Int
  outputBits : List Int
deriving DecidableEq, Repr

/-- The state in which the outputs of a combination are evaluated: bits assigned, memo
flags cleared. -/
def prepareRow (nodes : List Node) (ins : List Nat) (combination : Nat) : List Node :=
  resetMemo (assignInputs combination ins 0 nodes)

/-- The body of the combination loop, lines 465-491. -/
def evalRow (fuel : Nat) (ins outs : List Nat) (combination : Nat) (s : List Node) :
    Row × Except Err (List Node) :=
  let s1 := prepareRow s ins combination
  let r := evalOutputs fuel outs s1
  ({ combination := combination, inputBits := printInputs s1 ins, outputBits := r.1 }, r.2)

/-- What the program wrote and how it ended. `rows` are the lines printed in full;
`pending` is the line being printed when the program left through `exit(1)`;
`exit = none` is `return 0`. -/
structure Run where
  headerInputs : List Nat
  headerOutputs : List Nat
  rows : List Row
  pending : Option Row
  exit : Option Err
deriving DecidableEq, Repr

/-- The combination loop from index `c`, with `remaining` iterations to go:
the rows printed in full, the unfinished row if any, and the exit status. -/
def rowsLoop (fuel : Nat) (ins outs : List Nat) :
    Nat → Nat → List Node → List Row × Option Row × Option Err
  | 0, _, _ => ([], none, none)
  | remaining + 1, c, s =>
    match evalRow fuel ins outs c s with
    | (row, Except.error e) => ([], some row, some e)
    | (row, Except.ok s1) =>
      let r := rowsLoop fuel ins outs remaining (c + 1) s1
      (row :: r.1, r.2.1, r.2.2)

/-- Steps 2 to 6 of `main` on the parsed node array. When `(int)pow(2, numInputs)` is not
defined the model stops with `Err.undefinedConversion` and no output. -/
def main (fuel : Nat) (nodes : List Node) : Run :=
  let ins := inputNodes nodes
  let outs := outputNodes nodes
  match numCombinations ins.length with
  | none =>
    { headerInputs := [], headerOutputs := [], rows := [], pending := none,
      exit := some Err.undefinedConversion }
  | some n =>
    let r := rowsLoop fuel ins outs n 0 nodes
    { headerInputs := ins.map (fun p => (deref nodes p).uniqueID),
      headerOutputs := outs.map (fun p => (deref nodes p).uniqueID),
      rows := r.1, pending := r.2.1, exit := r.2.2 }

/-! ## Text written to standard output -/

/-- The conversion `%d` of `printf`. -/
def fmtD (x : Int) : String := toString x

/-- Items each followed by one blank, as printed by `printf("%d ", ...)` in a loop. -/
def fmtEach (xs : List Int) : String :=
  String.join (xs.map (fun x => fmtD x ++ " "))

/-- Items separated by one blank, the last one without: the loops over the output nodes. -/
def fmtSep (xs : List Int) : String :=
  String.intercalate " " (xs.map fmtD)

/-- The message printed before `exit(1)`. -/
def errMessage : Err → String
  | Err.arity NodeType.AND => "Error: Not enough inputs for AND.\n"
  | Err.arity NodeType.OR => "Error: Not enough inputs for OR.\n"
  | Err.arity NodeType.XOR => "Error: Not enough inputs for XOR.\n"
  | Err.arity NodeType.NOT => "Error: NOT requires exactly one input.\n"
  | Err.arity _ => "Error: OUTPUT node has no inputs.\n"
  | Err.nodeNotFound id => "Error: Node with UniqueID=" ++ fmtD id ++ " not found.\n"
  | Err.indexOutOfBounds => "Index out of bounds in ArrayList.\n"
  | Err.nullNode => "Error: Null node encountered in DFS.\n"
  | Err.unsupportedGate => "Error: Unsupported gate type in DFS.\n"
  | Err.outOfFuel => ""
  | Err.undefinedConversion => ""

/-- One table line printed in full (without the newline). -/
def renderRow (r : Row) : String :=
  fmtEach r.inputBits ++ "| " ++ fmtSep r.outputBits

/-- The header line, newline included. -/
def renderHeader (r : Run) : String :=
  fmtEach (r.headerInputs.map (fun i => toInt32 i)) ++ "| " ++
    fmtSep (r.headerOutputs.map (fun i => toInt32 i)) ++ "\n"

/-- Standard output of a run. A row is followed by a newline unless it is the last
combination; in a run that ends in `exit(1)` every row printed in full had a successor, the
unfinished row shows its input bits and the results printed before the failure (each followed
by a blank, none of them being the last), then the message. -/
def render (r : Run) : String :=
  match r.exit with
  | none => renderHeader r ++ String.intercalate "\n" (r.rows.map renderRow)
  | some Err.undefinedConversion => ""
  | some e =>
    renderHeader r ++ String.join (r.rows.map (fun x => renderRow x ++ "\n")) ++
      (match r.pending with
       | some x => fmtEach x.inputBits ++ "| " ++ fmtEach x.outputBits
       | none => "") ++ errMessage e

/-! ## The example netlist of the specification -/

/-- Nodes `INPUT 1`, `INPUT 2`, `AND 3 (Input=1,2)`, `OUTPUT 4 (Input=3)`, in file order. -/
def exampleNodes : List Node :=
  [ { createNode with type := NodeType.INPUT, uniqueID := 1 },
    { createNode with type := NodeType.INPUT, uniqueID := 2 },
    { createNode with type := NodeType.AND, uniqueID := 3, inputs := [1, 2] },
    { createNode with type := NodeType.OUTPUT, uniqueID := 4, inputs := [3] } ]


/-! ## Frame of `dfs`: only the memo fields change -/

/-- Two nodes agree on everything but the memo fields. -/
def Frame (a b : Node) : Prop :=
  a.type = b.type ∧ a.uniqueID = b.uniqueID ∧ a.inputs = b.inputs ∧ a.outputs = b.outputs ∧
    a.value = b.value

/-- Two node arrays of the same size whose nodes agree on everything but the memo fields. -/
def FrameL (s t : List Node) : Prop :=
  s.length = t.length ∧ ∀ i, Frame (deref s i) (deref t i)

/-! ## Reference folds and sample arrays used in the statements -/

/-- The fold a gate of kind `t` is meant to compute on the values of its inputs, written
with `List.foldl`: AND, OR, XOR combine all values from the left, NOT complements its value
and keeps the low bit. -/
def gateFold (t : NodeType) (vals : List Int) : Int :=
  match t, vals with
  | NodeType.AND, x :: rest => rest.foldl and32 x
  | NodeType.OR, x :: rest => rest.foldl or32 x
  | NodeType.XOR, x :: rest => rest.foldl xor32 x
  | NodeType.NOT, x :: _ => and32 (not32 x) 1
  | _, _ => 0

/-- The arity the gate folds reject: fewer than two inputs for AND, OR, XOR, a number of
inputs other than one for NOT. -/
def badArity (n : Node) : Prop :=
  (n.type ≠ NodeType.NOT ∧ n.inputs.length < 2) ∨ (n.type = NodeType.NOT ∧ n.inputs.length ≠ 1)

/-- An OUTPUT node with two input ids: `INPUT 1` (value 1), `INPUT 2` (value 0),
`OUTPUT 3 (Input=1,2)`. -/
def twoInputOutput : List Node :=
  [ { createNode with type := NodeType.INPUT, uniqueID := 1, value := 1 },
    { createNode with type := NodeType.INPUT, uniqueID := 2, value := 0 },
    { createNode with type := NodeType.OUTPUT, uniqueID := 3, inputs := [1, 2] } ]

/-- The bits `(c >> i) & 1` for `i < m`, lowest bit first. -/
def bitsOf (m c : Nat) : List Int :=
  (List.range m).map (fun i => (((c >>> i) &&& 1 : Nat) : Int))

/-! ## Two runs on arrays of the same shape -/

/-- Two nodes agree on kind, id, input ids and memo flag; `value` and `cachedValue` are
free. -/
def Shape (a b : Node) : Prop :=
  a.type = b.type ∧ a.uniqueID = b.uniqueID ∧ a.inputs = b.inputs ∧
    a.hasCachedValue = b.hasCachedValue

/-- Two node arrays of the same size whose nodes have the same shape. -/
def ShapeL (s t : List Node) : Prop :=
  s.length = t.length ∧ ∀ i, Shape (deref s i) (deref t i)

/-- Two results of `dfs` end the same way: the same error, or two values with arrays of the
same shape. -/
def ShapeRes : Except Err (Int × List Node) → Except Err (Int × List Node) → Prop
  | Except.ok (_, s), Except.ok (_, t) => ShapeL s t
  | Except.error e, Except.error e2 => e = e2
  | _, _ => False

/-- Two results of `gatherInputs` end the same way: the same error, or as many values with
arrays of the same shape. -/
def ShapeGather : Except Err (List Int × List Node) → Except Err (List Int × List Node) → Prop
  | Except.ok (v, s), Except.ok (w, t) => v.length = w.length ∧ ShapeL s t
  | Except.error e, Except.error e2 => e = e2
  | _, _ => False

/-- Two nodes agree on kind, id and input ids: the part fixed after parsing that
evaluation reads. -/
def Static (a b : Node) : Prop :=
  a.type = b.type ∧ a.uniqueID = b.uniqueID ∧ a.inputs = b.inputs

/-- Two node arrays of the same size whose nodes agree on kind, id and input ids. -/
def StaticL (s t : List Node) : Prop :=
  s.length = t.length ∧ ∀ i, Static (deref s i) (deref t i)

/-- The number a list of bits stands for, lowest bit first. -/
def fromBits : List Int → Nat
  | [] => 0
  | b :: rest => b.toNat + 2 * fromBits rest

/-- An OUTPUT node without input ids next to one INPUT node: `INPUT 1`, `OUTPUT 2`. -/
def outputWithoutInput : List Node :=
  [ { createNode with type := NodeType.INPUT, uniqueID := 1 },
    { createNode with type := NodeType.OUTPUT, uniqueID := 2 } ]

/-- Thirty-one INPUT nodes with ids 1 to 31 and one OUTPUT node reading the first. -/
def thirtyOneInputs : List Node :=
  (List.range 31).map (fun i => { createNode with type := NodeType.INPUT, uniqueID := i + 1 }) ++
    [ { createNode with type := NodeType.OUTPUT, uniqueID := 32, inputs := [1] } ]

/-- An OUTPUT node whose only input id belongs to no node: `INPUT 1`, `OUTPUT 2 (Input=7)`. -/
def danglingOutput : List Node :=
  [ { createNode with type := NodeType.INPUT, uniqueID := 1 },
    { createNode with type := NodeType.OUTPUT, uniqueID := 2, inputs := [7] } ]

/-- A gate that no OUTPUT node depends on and that names an id no node has:
`INPUT 1`, `AND 5 (Input=1,99)`, `OUTPUT 2 (Input=1)`. -/
def danglingUnreached : List Node :=
  [ { createNode with type := NodeType.INPUT, uniqueID := 1 },
    { createNode with type := NodeType.AND, uniqueID := 5, inputs := [1, 99] },
    { createNode with type := NodeType.OUTPUT, uniqueID := 2, inputs := [1] } ]

/-- The id `id` stands in the input list of some node of `s`, and no node of `s` has it. -/
def Dangling (s : List Node) (id : Int) : Prop :=
  (∃ i, i < s.length ∧ id ∈ (deref s i).inputs) ∧
    ∀ i, i < s.length → (deref s i).uniqueID ≠ toUInt32 id

/-- Every INPUT node holds a bit and every cached value marked valid is a bit. -/
def BitInv (s : List Node) : Prop :=
  ∀ i, ((deref s i).type = NodeType.INPUT → (deref s i).value = 0 ∨ (deref s i).value = 1) ∧
    ((deref s i).hasCachedValue ≠ 0 →
      (deref s i).cachedValue = 0 ∨ (deref s i).cachedValue = 1)

/-! ## Two runs that differ only in stale memo contents -/

/-- Two nodes agree on everything evaluation can read: kind, id, input ids, memo flag, the
value when the node is an INPUT node, and the cached value when the flag is set. -/
def Agree (a b : Node) : Prop :=
  a.type = b.type ∧ a.uniqueID = b.uniqueID ∧ a.inputs = b.inputs ∧
    a.hasCachedValue = b.hasCachedValue ∧ (a.type = NodeType.INPUT → a.value = b.value) ∧
    (a.hasCachedValue ≠ 0 → a.cachedValue = b.cachedValue)

/-- Two node arrays of the same size whose nodes agree on everything evaluation can read. -/
def AgreeL (s t : List Node) : Prop :=
  s.length = t.length ∧ ∀ i, Agree (deref s i) (deref t i)

/-- Two results of `dfs` are the same error, or the same value with agreeing arrays. -/
def AgreeRes : Except Err (Int × List Node) → Except Err (Int × List Node) → Prop
  | Except.ok (v, s), Except.ok (w, t) => v = w ∧ AgreeL s t
  | Except.error e, Except.error e2 => e = e2
  | _, _ => False

/-- Two results of `gatherInputs` are the same error, or the same values with agreeing
arrays. -/
def AgreeGather : Except Err (List Int × List Node) → Except Err (List Int × List Node) → Prop
  | Except.ok (v, s), Except.ok (w, t) => v = w ∧ AgreeL s t
  | Except.error e, Except.error e2 => e = e2
  | _, _ => False

/-- How the loop over the output nodes ended: `none` when every output was evaluated, the
error otherwise. -/
def exitOf : Except Err (List Node) → Option Err
  | Except.ok _ => none
  | Except.error e => some e

/-! ## Dependencies, cycles, graphs without arity or reference defects -/

/-- The input ids `dfs` follows from a node: none for an INPUT node, the first one for an
OUTPUT node, all of them for a gate. -/
def depIds (n : Node) : List Int :=
  if n.type = NodeType.INPUT then []
  else if n.type = NodeType.OUTPUT then n.inputs.take 1
  else n.inputs

/-- Node `a` reads node `b`: one of the input ids `dfs` follows from `a` resolves to `b`. -/
def Dep (s : List Node) (a b : Nat) : Prop :=
  ∃ id ∈ depIds (deref s a), findNodeByID s id = Except.ok b

/-- From node `x` the chain of input ids reaches a node that depends on itself. -/
def ReachesCycle (s : List Node) (x : Nat) : Prop :=
  ∃ c, Relation.ReflTransGen (Dep s) x c ∧ Relation.TransGen (Dep s) c c

/-- The id belongs to some node of the array. -/
def resolves (s : List Node) (id : Int) : Bool :=
  match findNodeByID s id with
  | Except.ok _ => true
  | Except.error _ => false

instance (n : Node) : Decidable (badArity n) := by
  unfold badArity
  infer_instance

/-- The node has no arity or reference defect `dfs` could stop at: an OUTPUT node has a
first input id and it resolves; a gate has a valid number of inputs and all resolve. -/
def nodeOK (s : List Node) (n : Node) : Bool :=
  if n.type = NodeType.INPUT then true
  else if n.type = NodeType.OUTPUT then
    match n.inputs with
    | [] => false
    | id :: _ => resolves s id
  else decide (¬ badArity n) && n.inputs.all (resolves s)

/-- No node of the array has an arity or reference defect. -/
def graphOK (s : List Node) : Bool := s.all (nodeOK s)

/-- A netlist with a cycle: `INPUT 1`, `AND 2 (Input=1,3)`, `NOT 3 (Input=2)`,
`OUTPUT 4 (Input=2)`; the AND gate reads the NOT gate, which reads the AND gate. -/
def cyclicNodes : List Node :=
  [ { createNode with type := NodeType.INPUT, uniqueID := 1 },
    { createNode with type := NodeType.AND, uniqueID := 2, inputs := [1, 3] },
    { createNode with type := NodeType.NOT, uniqueID := 3, inputs := [2] },
    { createNode with type := NodeType.OUTPUT, uniqueID := 4, inputs := [2] } ]

/-- The array has the kinds, ids and input lists of `s0`, and every node from which a
cycle can be reached has its memo flag cleared. -/
def CycInv (s0 s : List Node) : Prop :=
  StaticL s0 s ∧ ∀ i, ReachesCycle s0 i → (deref s i).hasCachedValue = 0

/-! ## `parseFile`: the block and stanza automaton -/

/-- The characters `isspace` accepts in the C locale. -/
def isspace (c : Char) : Bool :=
  c = ' ' || c = Char.ofNat 9 || c = Char.ofNat 10 || c = Char.ofNat 11 || c = Char.ofNat 12 ||
    c = Char.ofNat 13

/-- `trimWhitespace`: leading and trailing white space removed. -/
def trimWhitespace (str : List Char) : List Char :=
  ((str.dropWhile isspace).reverse.dropWhile isspace).reverse

/-- Ways `parseFile` leaves through `exit(1)` over the content of the file. -/
inductive ParseErr where
  /-- Message "Error: Unexpected content outside of a stanza: %s". -/
  | unexpectedContent (line : List Char)
  /-- Message "Error: Unclosed block or stanza detected." -/
  | unclosed
  /-- Any exit taken while a property line of a stanza is handled (unknown gate type,
  invalid or missing UniqueID, unrecognized line). -/
  | property (line : List Char)
deriving DecidableEq, Repr

/-- The local variables of `parseFile` together with the node array being filled. -/
structure ParseState where
  nodes : List Node
  currentNode : Node
  insideOuterBlock : Bool
  insideStanza : Bool
deriving DecidableEq, Repr

/-- The state before the first line. -/
def parseInit : ParseState :=
  { nodes := [], currentNode := createNode, insideOuterBlock := false, insideStanza := false }

/-- The C string a buffer holds: the characters before the first NUL. -/
def cstr (buf : List Char) : List Char :=
  buf.takeWhile (fun c => c ≠ Char.ofNat 0)

/-- One call `fgets(line, k + 1, file)` on a file that is not at its end: at most `k`
characters, stopping after a newline; the piece read and the rest of the file. -/
def readPiece : Nat → List Char → List Char × List Char
  | 0, rest => ([], rest)
  | _ + 1, [] => ([], [])
  | k + 1, c :: rest =>
    if c = Char.ofNat 10 then ([c], rest)
    else (c :: (readPiece k rest).1, (readPiece k rest).2)

/-- The pieces the successive calls `fgets(line, sizeof(line), file)` deliver, with
`char line[256]`, until the end of the file: a line of at most 254 characters comes whole
with its newline, a longer line comes in pieces of 255 characters. `fuel` bounds the number
of calls; the length of the file is enough, every call taking at least one character. -/
def fgetsPieces : Nat → List Char → List (List Char)
  | 0, _ => []
  | fuel + 1, file =>
    if file = [] then []
    else (readPiece 255 file).1 :: fgetsPieces fuel (readPiece 255 file).2

/-- The body of the `while (fgets ...)` loop for one piece read by `fgets`. `onProperty`
stands for lines 233 to 256, the handling of a property line inside a stanza: it updates
the current node or exits, and does not touch the two flags. After a stanza is closed the
source sets `currentNode` to NULL; here the node stays, and it is not read again before
`createNode` replaces it. -/
def parseStep (onProperty : List Char → Node → Except ParseErr Node) (st : ParseState)
    (line : List Char) : Except ParseErr ParseState :=
  let trimmedLine := trimWhitespace (cstr line)
  if trimmedLine = [] ∨ trimmedLine.head? = some '#' then Except.ok st
  else if trimmedLine = ['{'] then
    if ¬ st.insideOuterBlock then Except.ok { st with insideOuterBlock := true }
    else if ¬ st.insideStanza then
      Except.ok { st with insideStanza := true, currentNode := createNode }
    else Except.ok st
  else if trimmedLine = ['}'] then
    if st.insideStanza then
      Except.ok { st with nodes := st.nodes ++ [st.currentNode], insideStanza := false }
    else if st.insideOuterBlock then Except.ok { st with insideOuterBlock := false }
    else Except.ok st
  else if ¬ st.insideStanza then Except.error (ParseErr.unexpectedContent trimmedLine)
  else
    match onProperty trimmedLine st.currentNode with
    | Except.error e => Except.error e
    | Except.ok n => Except.ok { st with currentNode := n }

/-- The `while (fgets ...)` loop over the pieces read from the file. -/
def parseLines (onProperty : List Char → Node → Except ParseErr Node) :
    ParseState → List (List Char) → Except ParseErr ParseState
  | st, [] => Except.ok st
  | st, line :: rest =>
    match parseStep onProperty st line with
    | Except.error e => Except.error e
    | Except.ok st1 => parseLines onProperty st1 rest

/-- `parseFile` on the characters of an opened file: the nodes appended to the array, or
the exit taken. -/
def parseFile (onProperty : List Char → Node → Except ParseErr Node)
    (file : List Char) : Except ParseErr (List Node) :=
  match parseLines onProperty parseInit (fgetsPieces file.length file) with
  | Except.error e => Except.error e
  | Except.ok st =>
    if st.insideOuterBlock ∨ st.insideStanza then Except.error ParseErr.unclosed
    else Except.ok st.nodes

/-! ## The layout of the output described in words -/

/-- One line as the code prints it: every input item followed by a blank, then `| `, then
the output items separated by blanks. -/
def codeLine (xs ys : List Int) : String :=
  fmtEach xs ++ "| " ++ fmtSep ys

/-- One line as the specification words it: the input items separated by single blanks,
then ` | `, then the output items separated by single blanks. -/
def specLine (xs ys : List Int) : String :=
  String.intercalate " " (xs.map fmtD) ++ " | " ++ String.intercalate " " (ys.map fmtD)

/-- The whole text as the specification words it: the header line and one line per row,
separated by newlines, nothing after the last line. -/
def specText (r : Run) : String :=
  String.intercalate "\n"
    (specLine (r.headerInputs.map (fun i => toInt32 i)) (r.headerOutputs.map (fun i => toInt32 i))
      :: r.rows.map (fun row => specLine row.inputBits row.outputBits))

/-! ## Evaluation without memo -/

/-- The values of the nodes the ids resolve to, in list order; `ev` evaluates one node. -/
def gatherPure (ev : Nat → Except Err Int) (s : List Node) : List Int → Except Err (List Int)
  | [] => Except.ok []
  | inID :: rest =>
    match findNodeByID s inID with
    | Except.error e => Except.error e
    | Except.ok inNode =>
      match ev inNode with
      | Except.error e => Except.error e
      | Except.ok inVal =>
        match gatherPure ev s rest with
        | Except.error e => Except.error e
        | Except.ok vals => Except.ok (inVal :: vals)

/-- The un-memoized recursive evaluation of a node, as the claim words it: an INPUT node
gives its assigned value, an OUTPUT node the value of its first input, a gate the fold of
the values of its inputs in list order. Nothing is cached and the array is not changed. -/
def evalPure : Nat → List Node → Nat → Except Err Int
  | 0, _, _ => Except.error Err.outOfFuel
  | fuel + 1, s, cur =>
    match s[cur]? with
    | none => Except.error Err.nullNode
    | some n =>
      if n.type = NodeType.INPUT then Except.ok n.value
      else if n.type = NodeType.OUTPUT then
        match n.inputs with
        | [] => Except.error (Err.arity NodeType.OUTPUT)
        | inID :: _ =>
          match findNodeByID s inID with
          | Except.error e => Except.error e
          | Except.ok inNode => evalPure fuel s inNode
      else
        match gatherPure (evalPure fuel s) s n.inputs with
        | Except.error e => Except.error e
        | Except.ok vals => applyGate n.type vals

/-- The un-memoized evaluation of node `i` of `s0` returns `v`. -/
def PureVal (s0 : List Node) (i : Nat) (v : Int) : Prop :=
  ∃ fuel, evalPure fuel s0 i = Except.ok v

/-- The array differs from `s0` in memo fields only, and every cached value marked valid is
the un-memoized value of its node. -/
def MemoInv (s0 s : List Node) : Prop :=
  FrameL s0 s ∧ ∀ i, (deref s i).hasCachedValue ≠ 0 → PureVal s0 i (deref s i).cachedValue

/-- No node depends on itself through the input ids `dfs` follows. -/
def Acyclic (s : List Node) : Prop :=
  ∀ c, ¬ Relation.TransGen (Dep s) c c

/-- From some recursion bound on, `dfs` on node `x` returns, from every array with the
kinds, ids and input lists of `s0`. -/
def Terminates (s0 : List Node) (x : Nat) : Prop :=
  ∃ F, ∀ fuel, F ≤ fuel → ∀ s, StaticL s0 s → ∃ v t, dfs fuel s x = Except.ok (v, t)

/-- The number `rank` decreases along every input id `dfs` follows: a checkable certificate
that the array has no cycle. -/
def rankOK (rank : Nat → Nat) (s : List Node) : Bool :=
  (List.range s.length).all (fun a =>
    (depIds (deref s a)).all (fun id =>
      match findNodeByID s id with
      | Except.ok b => decide (rank b < rank a)
      | Except.error _ => true))

/-! ## Missing ids on the way from an output -/

/-- An OUTPUT node that reads a gate naming an id no node has:
`INPUT 1`, `AND 5 (Input=1,99)`, `OUTPUT 2 (Input=5)`. -/
def danglingThroughGate : List Node :=
  [ { createNode with type := NodeType.INPUT, uniqueID := 1 },
    { createNode with type := NodeType.AND, uniqueID := 5, inputs := [1, 99] },
    { createNode with type := NodeType.OUTPUT, uniqueID := 2, inputs := [5] } ]

/-- An OUTPUT node without input ids ahead of an OUTPUT node reading an id no node has:
`OUTPUT 2`, `OUTPUT 3 (Input=99)`. -/
def arityBeforeMissing : List Node :=
  [ { createNode with type := NodeType.OUTPUT, uniqueID := 2 },
    { createNode with type := NodeType.OUTPUT, uniqueID := 3, inputs := [99] } ]

/-- A cycle ahead of a missing id: `INPUT 1`, `AND 2 (Input=3,99)`, `NOT 3 (Input=2)`,
`OUTPUT 4 (Input=2)`; the AND gate reads the NOT gate, which reads the AND gate, before it
reads the id 99, which no node has. -/
def cycleBeforeMissing : List Node :=
  [ { createNode with type := NodeType.INPUT, uniqueID := 1 },
    { createNode with type := NodeType.AND, uniqueID := 2, inputs := [3, 99] },
    { createNode with type := NodeType.NOT, uniqueID := 3, inputs := [2] },
    { createNode with type := NodeType.OUTPUT, uniqueID := 4, inputs := [2] } ]

/-- The defect at which `dfs` stops with an arity message: an OUTPUT node without input
ids, or a gate with a number of inputs its fold rejects. -/
def arityDefect (n : Node) : Prop :=
  (n.type = NodeType.OUTPUT ∧ n.inputs = []) ∨
    (n.type ≠ NodeType.INPUT ∧ n.type ≠ NodeType.OUTPUT ∧ badArity n)

/-- From node `x` the input ids `dfs` follows lead to a node from which `dfs` follows an
id that no node has. -/
def ReachesMissing (s : List Node) (x : Nat) : Prop :=
  ∃ a, Relation.ReflTransGen (Dep s) x a ∧ ∃ id ∈ depIds (deref s a), resolves s id = false

/-- The array has the kinds, ids and input lists of `s0`, and every node from which a
missing id can be reached has its memo flag cleared. -/
def MissInv (s0 s : List Node) : Prop :=
  StaticL s0 s ∧ ∀ i, ReachesMissing s0 i → (deref s i).hasCachedValue = 0

/-- The errors an evaluation can end with: the recursion bound, an arity error for the
kind of some node with an arity defect, or a lookup that found no node. -/
def ErrKind (s0 : List Node) (e : Err) : Prop :=
  e = Err.outOfFuel ∨ (∃ n ∈ s0, arityDefect n ∧ e = Err.arity n.type) ∨
    ∃ id, e = Err.nodeNotFound id

/-- From some recursion bound on, `dfs` on node `x` does not exhaust it, from every array
with the kinds, ids and input lists of `s0`. -/
def Settles (s0 : List Node) (x : Nat) : Prop :=
  ∃ F, ∀ fuel, F ≤ fuel → ∀ s, StaticL s0 s → dfs fuel s x ≠ Except.error Err.outOfFuel

/-! # Theorems -/

theorem frame_refl (a : Node) : Frame a a := ⟨rfl, rfl, rfl, rfl, rfl⟩

theorem frame_trans {a b c : Node} (h1 : Frame a b) (h2 : Frame b c) : Frame a c :=
  ⟨h1.1.trans h2.1, h1.2.1.trans h2.2.1, h1.2.2.1.trans h2.2.2.1,
    h1.2.2.2.1.trans h2.2.2.2.1, h1.2.2.2.2.trans h2.2.2.2.2⟩

theorem frameL_refl (s : List Node) : FrameL s s := ⟨rfl, fun _ => frame_refl _⟩

theorem frameL_trans {s t u : List Node} (h1 : FrameL s t) (h2 : FrameL t u) : FrameL s u :=
  ⟨h1.1.trans h2.1, fun i => frame_trans (h1.2 i) (h2.2 i)⟩

theorem deref_of_getElem? {s : List Node} {i : Nat} {n : Node} (h : s[i]? = some n) :
    deref s i = n := by
  simp [deref, List.getD, h]

theorem deref_of_lt {s : List Node} {i : Nat} (h : i < s.length) : s[i]? = some (deref s i) := by
  simp [deref, List.getD, List.getElem?_eq_getElem h]

theorem deref_of_ge {s : List Node} {i : Nat} (h : s.length ≤ i) : deref s i = createNode := by
  simp [deref, List.getD, List.getElem?_eq_none h]

theorem setCached_length (s : List Node) (cur : Nat) (v : Int) :
    (setCached s cur v).length = s.length := by
  unfold setCached
  split <;> simp

theorem deref_setCached (s : List Node) (cur : Nat) (v : Int) (i : Nat) :
    deref (setCached s cur v) i =
      if i = cur ∧ cur < s.length then
        { deref s cur with cachedValue := v, hasCachedValue := 1 }
      else deref s i := by
  unfold setCached
  split
  · next n hn =>
    have hlt : cur < s.length := by
      by_contra hc
      rw [List.getElem?_eq_none (Nat.le_of_not_lt hc)] at hn
      exact Option.noConfusion hn
    by_cases hi : i = cur
    · subst hi
      simp [deref, List.getD, hlt, hn]
    · have hne : ¬ cur = i := fun h => hi h.symm
      simp [deref, List.getD, hi, List.getElem?_set, hne]
  · next hn =>
    have hge : ¬ cur < s.length := by
      intro hc
      rw [List.getElem?_eq_getElem hc] at hn
      exact Option.noConfusion hn
    simp [hge]

theorem setCached_frame (s : List Node) (cur : Nat) (v : Int) : FrameL s (setCached s cur v) := by
  refine ⟨(setCached_length s cur v).symm, fun i => ?_⟩
  rw [deref_setCached]
  split
  · next h => rw [h.1]; exact ⟨rfl, rfl, rfl, rfl, rfl⟩
  · exact frame_refl _

theorem gatherInputs_frame (ev : List Node → Nat → Except Err (Int × List Node))
    (hev : ∀ s j v t, ev s j = Except.ok (v, t) → FrameL s t) (ids : List Int) :
    ∀ s vals t, gatherInputs ev s ids = Except.ok (vals, t) → FrameL s t := by
  induction ids with
  | nil =>
    intro s vals t h
    simp only [gatherInputs, Except.ok.injEq, Prod.mk.injEq] at h
    rw [← h.2]
    exact frameL_refl s
  | cons inID rest ih =>
    intro s vals t h
    unfold gatherInputs at h
    split at h
    · exact Except.noConfusion h
    · next inNode _ =>
      split at h
      · exact Except.noConfusion h
      · next inVal s1 h1 =>
        split at h
        · exact Except.noConfusion h
        · next vals2 s2 h2 =>
          simp only [Except.ok.injEq, Prod.mk.injEq] at h
          rw [← h.2]
          exact frameL_trans (hev _ _ _ _ h1) (ih _ _ _ h2)

theorem dfs_frame : ∀ fuel s cur v t, dfs fuel s cur = Except.ok (v, t) → FrameL s t := by
  intro fuel
  induction fuel with
  | zero => intro s cur v t h; exact Except.noConfusion h
  | succ fuel ih =>
    intro s cur v t h
    unfold dfs at h
    split at h
    · exact Except.noConfusion h
    · next n hn =>
      split at h
      · simp only [Except.ok.injEq, Prod.mk.injEq] at h
        rw [← h.2]; exact frameL_refl s
      · split at h
        · simp only [Except.ok.injEq, Prod.mk.injEq] at h
          rw [← h.2]; exact setCached_frame _ _ _
        · split at h
          · split at h
            · exact Except.noConfusion h
            · split at h
              · exact Except.noConfusion h
              · split at h
                · exact Except.noConfusion h
                · next v1 s1 h1 =>
                  simp only [Except.ok.injEq, Prod.mk.injEq] at h
                  rw [← h.2]
                  exact frameL_trans (ih _ _ _ _ h1) (setCached_frame _ _ _)
          · split at h
            · exact Except.noConfusion h
            · next vals s1 h1 =>
              split at h
              · exact Except.noConfusion h
              · simp only [Except.ok.injEq, Prod.mk.injEq] at h
                rw [← h.2]
                exact frameL_trans (gatherInputs_frame (dfs fuel) ih _ _ _ _ h1) (setCached_frame _ _ _)

theorem dfs_length {fuel : Nat} {s : List Node} {cur : Nat} {v : Int} {t : List Node}
    (h : dfs fuel s cur = Except.ok (v, t)) : t.length = s.length :=
  (dfs_frame fuel s cur v t h).1.symm

/-! ## Gate folds on bits -/

theorem and32_bits : and32 0 0 = 0 ∧ and32 0 1 = 0 ∧ and32 1 0 = 0 ∧ and32 1 1 = 1 := by
  decide

theorem or32_bits : or32 0 0 = 0 ∧ or32 0 1 = 1 ∧ or32 1 0 = 1 ∧ or32 1 1 = 1 := by
  decide

theorem xor32_bits : xor32 0 0 = 0 ∧ xor32 0 1 = 1 ∧ xor32 1 0 = 1 ∧ xor32 1 1 = 0 := by
  decide

theorem foldLoop_land_bits (rest : List Int) :
    ∀ acc : Int, (acc = 0 ∨ acc = 1) → (∀ x ∈ rest, x = 0 ∨ x = 1) →
      foldLoop and32 acc rest = if acc = 1 ∧ ∀ x ∈ rest, x = 1 then 1 else 0 := by
  obtain ⟨h00, h01, h10, h11⟩ := and32_bits
  induction rest with
  | nil => intro acc ha _; rcases ha with rfl | rfl <;> simp [foldLoop]
  | cons y ys ih =>
    intro acc ha hb
    have hy := hb y (List.mem_cons_self y ys)
    have hys : ∀ x ∈ ys, x = 0 ∨ x = 1 := fun x hx => hb x (List.mem_cons_of_mem y hx)
    rcases ha with rfl | rfl <;> rcases hy with rfl | rfl <;>
      rw [foldLoop, ih _ (by simp [h00, h01, h10, h11]) hys] <;> simp [h00, h01, h10, h11]

theorem foldLoop_lor_bits (rest : List Int) :
    ∀ acc : Int, (acc = 0 ∨ acc = 1) → (∀ x ∈ rest, x = 0 ∨ x = 1) →
      foldLoop or32 acc rest = if acc = 1 ∨ ∃ x ∈ rest, x = 1 then 1 else 0 := by
  obtain ⟨h00, h01, h10, h11⟩ := or32_bits
  induction rest with
  | nil => intro acc ha _; rcases ha with rfl | rfl <;> simp [foldLoop]
  | cons y ys ih =>
    intro acc ha hb
    have hy := hb y (List.mem_cons_self y ys)
    have hys : ∀ x ∈ ys, x = 0 ∨ x = 1 := fun x hx => hb x (List.mem_cons_of_mem y hx)
    rcases ha with rfl | rfl <;> rcases hy with rfl | rfl <;>
      rw [foldLoop, ih _ (by simp [h00, h01, h10, h11]) hys] <;> simp [h00, h01, h10, h11]

theorem foldLoop_xor_bits (rest : List Int) :
    ∀ acc : Int, (acc = 0 ∨ acc = 1) → (∀ x ∈ rest, x = 0 ∨ x = 1) →
      foldLoop xor32 acc rest = if (acc.toNat + rest.count 1) % 2 = 1 then 1 else 0 := by
  obtain ⟨h00, h01, h10, h11⟩ := xor32_bits
  induction rest with
  | nil => intro acc ha _; rcases ha with rfl | rfl <;> simp [foldLoop]
  | cons y ys ih =>
    intro acc ha hb
    have hy := hb y (List.mem_cons_self y ys)
    have hys : ∀ x ∈ ys, x = 0 ∨ x = 1 := fun x hx => hb x (List.mem_cons_of_mem y hx)
    rcases ha with rfl | rfl <;> rcases hy with rfl | rfl <;>
      rw [foldLoop, ih _ (by simp [h00, h01, h10, h11]) hys] <;>
      simp [h00, h01, h10, h11, List.count_cons] <;> congr 1 <;> simp <;> omega

/-- C4. On a list of bits with at least two elements, `bitwiseAND` returns 1 exactly when
every element is 1, `bitwiseOR` returns 1 exactly when some element is 1, and `bitwiseXOR`
returns 1 exactly when the number of elements equal to 1 is odd; otherwise each returns 0. -/
theorem bitwise_folds_standard (vals : List Int) (hbits : ∀ x ∈ vals, x = 0 ∨ x = 1)
    (hlen : 2 ≤ vals.length) :
    bitwiseAND vals = Except.ok (if ∀ x ∈ vals, x = 1 then 1 else 0) ∧
    bitwiseOR vals = Except.ok (if ∃ x ∈ vals, x = 1 then 1 else 0) ∧
    bitwiseXOR vals = Except.ok (if vals.count 1 % 2 = 1 then 1 else 0) := by
  match vals, hbits, hlen with
  | x :: rest, hbits, hlen =>
    have hx := hbits x (List.mem_cons_self x rest)
    have hr : ∀ z ∈ rest, z = 0 ∨ z = 1 := fun z hz => hbits z (List.mem_cons_of_mem x hz)
    have hn : ¬ (x :: rest).length < 2 := by omega
    refine ⟨?_, ?_, ?_⟩
    · rw [bitwiseAND, if_neg hn]
      simp only [foldLoop_land_bits rest x hx hr, List.forall_mem_cons]
    · rw [bitwiseOR, if_neg hn]
      simp only [foldLoop_lor_bits rest x hx hr, List.exists_mem_cons_iff]
    · rw [bitwiseXOR, if_neg hn]
      simp only [foldLoop_xor_bits rest x hx hr]
      rcases hx with rfl | rfl
      · simp [List.count_cons]
      · simp only [List.count_cons, beq_self_eq_true, if_true, Int.toNat_one]
        simp only [Nat.add_comm 1]

theorem bitwise_folds_standard_witness :
    bitwiseAND [1, 0, 1] = Except.ok (if ∀ x ∈ ([1, 0, 1] : List Int), x = 1 then 1 else 0) ∧
    bitwiseOR [1, 0, 1] = Except.ok (if ∃ x ∈ ([1, 0, 1] : List Int), x = 1 then 1 else 0) ∧
    bitwiseXOR [1, 0, 1] = Except.ok (if ([1, 0, 1] : List Int).count 1 % 2 = 1 then 1 else 0) :=
  bitwise_folds_standard [1, 0, 1] (by decide) (by decide)

/-- C5. On a one-element list holding a bit `x`, `bitwiseNOT` returns `1 - x`. -/
theorem bitwiseNOT_bit (x : Int) (hx : x = 0 ∨ x = 1) :
    bitwiseNOT [x] = Except.ok (1 - x) := by
  rcases hx with rfl | rfl <;> decide

theorem bitwiseNOT_bit_witness : bitwiseNOT [1] = Except.ok (1 - 1) :=
  bitwiseNOT_bit 1 (Or.inr rfl)

/-! ## Evaluation of OUTPUT nodes and of gates -/

theorem deref_setCached_self {s : List Node} {cur : Nat} (v : Int) (h : cur < s.length) :
    (deref (setCached s cur v) cur).cachedValue = v ∧
      (deref (setCached s cur v) cur).hasCachedValue = 1 := by
  rw [deref_setCached]
  simp [h]

theorem lt_length_of_getElem? {s : List Node} {i : Nat} {n : Node} (h : s[i]? = some n) :
    i < s.length := by
  by_contra hc
  rw [List.getElem?_eq_none (Nat.le_of_not_lt hc)] at h
  exact Option.noConfusion h

/-- C6, as the code has it. For an OUTPUT node whose memo flag is cleared: with no input id
the evaluation fails with the arity error of OUTPUT; with at least one input id, once the
first id resolves and that node evaluates to `v`, `dfs` returns `v` and leaves `v` cached on
the OUTPUT node with the flag set. Further input ids are not looked at. -/
theorem dfs_output_first_input (fuel : Nat) (nodes : List Node) (cur : Nat) (n : Node)
    (hn : nodes[cur]? = some n) (ht : n.type = NodeType.OUTPUT) (hc : n.hasCachedValue = 0) :
    (n.inputs = [] → dfs (fuel + 1) nodes cur = Except.error (Err.arity NodeType.OUTPUT)) ∧
    (∀ inID rest inNode v s, n.inputs = inID :: rest →
      findNodeByID nodes inID = Except.ok inNode →
      dfs fuel nodes inNode = Except.ok (v, s) →
        dfs (fuel + 1) nodes cur = Except.ok (v, setCached s cur v) ∧
        (deref (setCached s cur v) cur).cachedValue = v ∧
        (deref (setCached s cur v) cur).hasCachedValue = 1) := by
  have hne : ¬ n.type = NodeType.INPUT := by rw [ht]; decide
  constructor
  · intro hin
    rw [dfs, hn]
    simp [hc, ht, hin]
  · intro inID rest inNode v s hin hf hd
    have hlen : cur < s.length := by
      rw [dfs_length hd]; exact lt_length_of_getElem? hn
    refine ⟨?_, deref_setCached_self v hlen⟩
    rw [dfs, hn]
    simp [hc, ht, hin, hf, hd]

theorem dfs_output_first_input_witness :
    dfs 2 exampleNodes 2 =
      Except.ok (0, setCached (setCached (setCached exampleNodes 0 0) 1 0) 2 0) ∧
    dfs 3 exampleNodes 3 =
      Except.ok (0, setCached (setCached (setCached (setCached exampleNodes 0 0) 1 0) 2 0) 3 0) :=
  ⟨by decide,
    ((dfs_output_first_input 2 exampleNodes 3 (deref exampleNodes 3) (by decide) (by decide)
      (by decide)).2 3 [] 2 0 (setCached (setCached (setCached exampleNodes 0 0) 1 0) 2 0)
      (by decide) (by decide) (by decide)).1⟩

/-- C6, counterexample. The OUTPUT node of `twoInputOutput` has two input ids and a cleared
memo flag, and `dfs` returns the value of its first input instead of failing. -/
theorem dfs_output_two_inputs_no_error :
    (deref twoInputOutput 2).type = NodeType.OUTPUT ∧
    (deref twoInputOutput 2).inputs.length = 2 ∧
    (deref twoInputOutput 2).hasCachedValue = 0 ∧
    dfs 2 twoInputOutput 2 =
      Except.ok (1, setCached (setCached twoInputOutput 0 1) 2 1) := by
  decide

theorem gatherInputs_length (ev : List Node → Nat → Except Err (Int × List Node))
    (ids : List Int) :
    ∀ s vals t, gatherInputs ev s ids = Except.ok (vals, t) → vals.length = ids.length := by
  induction ids with
  | nil =>
    intro s vals t h
    simp only [gatherInputs, Except.ok.injEq, Prod.mk.injEq] at h
    rw [← h.1]
  | cons inID rest ih =>
    intro s vals t h
    unfold gatherInputs at h
    split at h
    · exact Except.noConfusion h
    · split at h
      · exact Except.noConfusion h
      · split at h
        · exact Except.noConfusion h
        · next vals2 s2 h2 =>
          simp only [Except.ok.injEq, Prod.mk.injEq] at h
          rw [← h.1, List.length_cons, List.length_cons, ih _ _ _ h2]

theorem foldLoop_eq_foldl (op : Int → Int → Int) (rest : List Int) :
    ∀ x, foldLoop op x rest = rest.foldl op x := by
  induction rest with
  | nil => intro x; rfl
  | cons y ys ih => intro x; rw [foldLoop, List.foldl_cons, ih]

theorem applyGate_bad (n : Node) (vals : List Int) (hlen : vals.length = n.inputs.length)
    (hgate : n.type = NodeType.AND ∨ n.type = NodeType.OR ∨ n.type = NodeType.XOR ∨
      n.type = NodeType.NOT) (hbad : badArity n) :
    applyGate n.type vals = Except.error (Err.arity n.type) := by
  unfold badArity at hbad
  rw [← hlen] at hbad
  rcases hgate with h | h | h | h <;> rw [h] at hbad ⊢ <;>
    simp [applyGate, bitwiseAND, bitwiseOR, bitwiseXOR, bitwiseNOT] at hbad ⊢ <;>
    first | exact hbad | omega

theorem applyGate_good (n : Node) (vals : List Int) (hlen : vals.length = n.inputs.length)
    (hgate : n.type = NodeType.AND ∨ n.type = NodeType.OR ∨ n.type = NodeType.XOR ∨
      n.type = NodeType.NOT) (hgood : ¬ badArity n) :
    applyGate n.type vals = Except.ok (gateFold n.type vals) := by
  unfold badArity at hgood
  rw [← hlen] at hgood
  cases vals with
  | nil =>
    rcases hgate with h | h | h | h <;> rw [h] at hgood <;> simp at hgood
  | cons x rest =>
    rcases hgate with h | h | h | h <;> rw [h] at hgood ⊢ <;>
      simp [applyGate, bitwiseAND, bitwiseOR, bitwiseXOR, bitwiseNOT, gateFold,
        foldLoop_eq_foldl] at hgood ⊢
    all_goals exact hgood

/-- C7. For a gate node (AND, OR, XOR, NOT) whose memo flag is cleared and whose input ids
all resolve and evaluate (to the values `vals`, leaving the array `s`): the evaluation fails
with an arity error exactly when the node is AND, OR or XOR with fewer than two inputs or NOT
with a number of inputs other than one; otherwise it returns the fold of `vals` and caches
it. -/
theorem dfs_gate_arity (fuel : Nat) (nodes : List Node) (cur : Nat) (n : Node)
    (vals : List Int) (s : List Node) (hn : nodes[cur]? = some n)
    (hgate : n.type = NodeType.AND ∨ n.type = NodeType.OR ∨ n.type = NodeType.XOR ∨
      n.type = NodeType.NOT)
    (hc : n.hasCachedValue = 0)
    (hg : gatherInputs (dfs fuel) nodes n.inputs = Except.ok (vals, s)) :
    ((∃ t, dfs (fuel + 1) nodes cur = Except.error (Err.arity t)) ↔ badArity n) ∧
    (badArity n → dfs (fuel + 1) nodes cur = Except.error (Err.arity n.type)) ∧
    (¬ badArity n → dfs (fuel + 1) nodes cur =
      Except.ok (gateFold n.type vals, setCached s cur (gateFold n.type vals))) := by
  have hlen := gatherInputs_length (dfs fuel) n.inputs nodes vals s hg
  have h1 : ¬ n.type = NodeType.INPUT := by
    rcases hgate with h | h | h | h <;> rw [h] <;> decide
  have h2 : ¬ n.type = NodeType.OUTPUT := by
    rcases hgate with h | h | h | h <;> rw [h] <;> decide
  have hbad : badArity n → dfs (fuel + 1) nodes cur = Except.error (Err.arity n.type) := by
    intro hb
    rw [dfs, hn]
    simp [hc, h1, h2, hg, applyGate_bad n vals hlen hgate hb]
  have hgood : ¬ badArity n → dfs (fuel + 1) nodes cur =
      Except.ok (gateFold n.type vals, setCached s cur (gateFold n.type vals)) := by
    intro hb
    rw [dfs, hn]
    simp [hc, h1, h2, hg, applyGate_good n vals hlen hgate hb]
  refine ⟨⟨?_, fun hb => ⟨_, hbad hb⟩⟩, hbad, hgood⟩
  rintro ⟨t, ht⟩
  by_contra hb
  rw [hgood hb] at ht
  exact Except.noConfusion ht

theorem dfs_gate_arity_witness :
    ((∃ t, dfs 2 exampleNodes 2 = Except.error (Err.arity t)) ↔
      badArity (deref exampleNodes 2)) ∧
    (badArity (deref exampleNodes 2) →
      dfs 2 exampleNodes 2 = Except.error (Err.arity (deref exampleNodes 2).type)) ∧
    (¬ badArity (deref exampleNodes 2) → dfs 2 exampleNodes 2 =
      Except.ok (gateFold (deref exampleNodes 2).type [0, 0],
        setCached (setCached (setCached exampleNodes 0 0) 1 0) 2
          (gateFold (deref exampleNodes 2).type [0, 0]))) :=
  dfs_gate_arity 1 exampleNodes 2 (deref exampleNodes 2) [0, 0]
    (setCached (setCached exampleNodes 0 0) 1 0) (by decide) (by decide) (by decide) (by decide)

/-! ## The sorted input and output lists -/

theorem qsortInsert_perm (cmp : Nat → Nat → Int) (a : Nat) :
    ∀ l, (qsortInsert cmp a l).Perm (a :: l) := by
  intro l
  induction l with
  | nil => exact List.Perm.refl _
  | cons b rest ih =>
    unfold qsortInsert
    split
    · exact List.Perm.refl _
    · exact (List.Perm.cons b ih).trans (List.Perm.swap a b rest)

theorem qsort_perm (cmp : Nat → Nat → Int) : ∀ l, (qsort cmp l).Perm l := by
  intro l
  induction l with
  | nil => exact List.Perm.refl _
  | cons a rest ih =>
    unfold qsort
    exact (qsortInsert_perm cmp a _).trans (List.Perm.cons a ih)

theorem qsortInsert_sorted (cmp : Nat → Nat → Int) (key : Nat → Nat) (a : Nat) :
    ∀ l, (∀ b ∈ l, (cmp a b ≤ 0 ↔ key a ≤ key b)) →
      l.Pairwise (fun x y => key x ≤ key y) →
      (qsortInsert cmp a l).Pairwise (fun x y => key x ≤ key y) := by
  intro l
  induction l with
  | nil => intro _ _; simp [qsortInsert]
  | cons b rest ih =>
    intro hcmp hs
    have hs2 := List.pairwise_cons.mp hs
    unfold qsortInsert
    split
    · next hle =>
      have hab : key a ≤ key b := (hcmp b (List.mem_cons_self b rest)).mp hle
      refine List.pairwise_cons.mpr ⟨?_, hs⟩
      intro c hc
      rcases List.mem_cons.mp hc with rfl | hc
      · exact hab
      · exact Nat.le_trans hab (hs2.1 c hc)
    · next hle =>
      have hba : key b ≤ key a := by
        by_contra hc
        exact hle ((hcmp b (List.mem_cons_self b rest)).mpr (by omega))
      refine List.pairwise_cons.mpr ⟨?_, ih (fun c hc => hcmp c (List.mem_cons_of_mem b hc)) hs2.2⟩
      intro c hc
      rcases List.mem_cons.mp ((qsortInsert_perm cmp a rest).mem_iff.mp hc) with rfl | hc
      · exact hba
      · exact hs2.1 c hc

theorem qsort_sorted (cmp : Nat → Nat → Int) (key : Nat → Nat) :
    ∀ l, (∀ a ∈ l, ∀ b ∈ l, (cmp a b ≤ 0 ↔ key a ≤ key b)) →
      (qsort cmp l).Pairwise (fun x y => key x ≤ key y) := by
  intro l
  induction l with
  | nil => intro _; simp [qsort]
  | cons a rest ih =>
    intro hcmp
    unfold qsort
    refine qsortInsert_sorted cmp key a _ ?_ (ih ?_)
    · intro b hb
      exact hcmp a (List.mem_cons_self a rest) b
        (List.mem_cons_of_mem a ((qsort_perm cmp rest).mem_iff.mp hb))
    · intro x hx y hy
      exact hcmp x (List.mem_cons_of_mem a hx) y (List.mem_cons_of_mem a hy)

theorem toInt32_sub_nonpos (x y : Nat) (hx : x < 2 ^ 31) (hy : y < 2 ^ 31) :
    toInt32 ((x % 2 ^ 32 + 2 ^ 32 - y % 2 ^ 32) % 2 ^ 32) ≤ 0 ↔ x ≤ y := by
  unfold toInt32
  norm_num at hx hy ⊢
  split <;> omega

theorem mem_collectType {t : NodeType} {nodes : List Node} {p : Nat} :
    p ∈ collectType t nodes ↔ p < nodes.length ∧ (deref nodes p).type = t := by
  simp [collectType]

theorem map_deref_range (nodes : List Node) :
    (List.range nodes.length).map (deref nodes) = nodes := by
  apply List.ext_getElem?
  intro i
  rw [List.getElem?_map]
  by_cases h : i < nodes.length
  · rw [List.getElem?_range h, deref_of_lt h]; rfl
  · rw [List.getElem?_eq_none (by simpa using h), List.getElem?_eq_none (Nat.le_of_not_lt h)]
    rfl

theorem map_deref_collectType (t : NodeType) (nodes : List Node) :
    (collectType t nodes).map (deref nodes) = nodes.filter (fun n => decide (n.type = t)) := by
  unfold collectType
  have h := List.filter_map (p := fun n : Node => decide (n.type = t)) (deref nodes)
    (List.range nodes.length)
  rw [map_deref_range] at h
  rw [h]
  rfl

theorem sorted_collectType (t : NodeType) (nodes : List Node)
    (hids : ∀ n ∈ nodes, n.uniqueID < 2 ^ 31) :
    ((qsort (compareNodePtrByID nodes) (collectType t nodes)).map (deref nodes)).Pairwise
      (fun a b => a.uniqueID ≤ b.uniqueID) := by
  rw [List.pairwise_map]
  apply qsort_sorted (compareNodePtrByID nodes) (fun p => (deref nodes p).uniqueID)
  intro a ha b hb
  have hlt : ∀ p, p ∈ collectType t nodes → (deref nodes p).uniqueID < 2 ^ 31 := by
    intro p hp
    have hp1 := (mem_collectType.mp hp).1
    apply hids
    exact List.getElem?_mem (deref_of_lt hp1)
  exact toInt32_sub_nonpos _ _ (hlt a ha) (hlt b hb)

theorem perm_collectType (t : NodeType) (nodes : List Node) :
    ((qsort (compareNodePtrByID nodes) (collectType t nodes)).map (deref nodes)).Perm
      (nodes.filter (fun n => decide (n.type = t))) := by
  rw [← map_deref_collectType]
  exact (qsort_perm _ _).map _

theorem nodup_collectType (t : NodeType) (nodes : List Node) :
    (qsort (compareNodePtrByID nodes) (collectType t nodes)).Nodup := by
  rw [(qsort_perm _ _).nodup_iff]
  exact List.Nodup.filter _ (List.nodup_range _)

theorem order_independent (t : NodeType) (nodes nodes2 : List Node)
    (hids : ∀ n ∈ nodes, n.uniqueID < 2 ^ 31) (hperm : nodes2.Perm nodes)
    (hnodup : (nodes.map (fun n => n.uniqueID)).Nodup) :
    (qsort (compareNodePtrByID nodes2) (collectType t nodes2)).map (deref nodes2) =
      (qsort (compareNodePtrByID nodes) (collectType t nodes)).map (deref nodes) := by
  have hids2 : ∀ n ∈ nodes2, n.uniqueID < 2 ^ 31 := fun n hn => hids n (hperm.mem_iff.mp hn)
  have hp : ((qsort (compareNodePtrByID nodes2) (collectType t nodes2)).map (deref nodes2)).Perm
      ((qsort (compareNodePtrByID nodes) (collectType t nodes)).map (deref nodes)) :=
    ((perm_collectType t nodes2).trans (hperm.filter _)).trans (perm_collectType t nodes).symm
  refine List.Perm.eq_of_sorted ?_ (sorted_collectType t nodes2 hids2)
    (sorted_collectType t nodes hids) hp
  intro a b ha hb hab hba
  have ha1 : a ∈ nodes :=
    hperm.mem_iff.mp (List.mem_of_mem_filter ((perm_collectType t nodes2).mem_iff.mp ha))
  have hb1 : b ∈ nodes := List.mem_of_mem_filter ((perm_collectType t nodes).mem_iff.mp hb)
  exact List.inj_on_of_nodup_map hnodup ha1 hb1 (Nat.le_antisymm hab hba)

/-- C9. For a parsed node array (ids below `2^31`): the input list points to exactly the
nodes of kind INPUT, each once, in ascending id order, and the output list to exactly the
nodes of kind OUTPUT, each once, in ascending id order; when ids are unique, the nodes the
two lists point to are the same for any rearrangement of the node array. -/
theorem io_lists_sorted_by_id (nodes : List Node) (hids : ∀ n ∈ nodes, n.uniqueID < 2 ^ 31) :
    (((inputNodes nodes).map (deref nodes)).Perm
        (nodes.filter (fun n => decide (n.type = NodeType.INPUT))) ∧
      (inputNodes nodes).Nodup ∧
      ((inputNodes nodes).map (deref nodes)).Pairwise (fun a b => a.uniqueID ≤ b.uniqueID)) ∧
    (((outputNodes nodes).map (deref nodes)).Perm
        (nodes.filter (fun n => decide (n.type = NodeType.OUTPUT))) ∧
      (outputNodes nodes).Nodup ∧
      ((outputNodes nodes).map (deref nodes)).Pairwise (fun a b => a.uniqueID ≤ b.uniqueID)) ∧
    (∀ nodes2 : List Node, nodes2.Perm nodes → (nodes.map (fun n => n.uniqueID)).Nodup →
      (inputNodes nodes2).map (deref nodes2) = (inputNodes nodes).map (deref nodes) ∧
      (outputNodes nodes2).map (deref nodes2) = (outputNodes nodes).map (deref nodes)) :=
  ⟨⟨perm_collectType _ nodes, nodup_collectType _ nodes, sorted_collectType _ nodes hids⟩,
    ⟨perm_collectType _ nodes, nodup_collectType _ nodes, sorted_collectType _ nodes hids⟩,
    fun nodes2 hperm hnodup =>
      ⟨order_independent _ nodes nodes2 hids hperm hnodup,
        order_independent _ nodes nodes2 hids hperm hnodup⟩⟩

theorem io_lists_sorted_by_id_witness :
    (inputNodes exampleNodes.reverse).map (deref exampleNodes.reverse) =
      (inputNodes exampleNodes).map (deref exampleNodes) ∧
    (outputNodes exampleNodes.reverse).map (deref exampleNodes.reverse) =
      (outputNodes exampleNodes).map (deref exampleNodes) :=
  (io_lists_sorted_by_id exampleNodes (by decide)).2.2 exampleNodes.reverse
    (List.reverse_perm _) (by decide)

theorem mem_inputNodes_lt {nodes : List Node} {p : Nat} (h : p ∈ inputNodes nodes) :
    p < nodes.length :=
  (mem_collectType.mp ((qsort_perm _ _).mem_iff.mp h)).1

theorem mem_outputNodes_lt {nodes : List Node} {p : Nat} (h : p ∈ outputNodes nodes) :
    p < nodes.length :=
  (mem_collectType.mp ((qsort_perm _ _).mem_iff.mp h)).1

/-! ## Input bits of a row -/

theorem setValue_length (s : List Node) (p : Nat) (v : Int) :
    (setValue s p v).length = s.length := by
  unfold setValue
  split <;> simp

theorem deref_setValue (s : List Node) (p : Nat) (v : Int) (i : Nat) :
    deref (setValue s p v) i =
      if i = p ∧ p < s.length then { deref s p with value := v } else deref s i := by
  unfold setValue
  split
  · next n hn =>
    have hlt : p < s.length := lt_length_of_getElem? hn
    by_cases hi : i = p
    · subst hi
      simp [deref, List.getD, hlt, hn]
    · have hne : ¬ p = i := fun h => hi h.symm
      simp [deref, List.getD, hi, List.getElem?_set, hne]
  · next hn =>
    have hge : ¬ p < s.length := by
      intro hc
      rw [List.getElem?_eq_getElem hc] at hn
      exact Option.noConfusion hn
    simp [hge]

theorem assignInputs_length (c : Nat) (ins : List Nat) :
    ∀ k s, (assignInputs c ins k s).length = s.length := by
  induction ins with
  | nil => intro k s; rfl
  | cons p rest ih => intro k s; rw [assignInputs, ih, setValue_length]

theorem assignInputs_value_of_not_mem (c : Nat) (ins : List Nat) (q : Nat) (hq : q ∉ ins) :
    ∀ k s, (deref (assignInputs c ins k s) q).value = (deref s q).value := by
  induction ins with
  | nil => intro k s; rfl
  | cons p rest ih =>
    intro k s
    have hqp : ¬ q = p := fun h => hq (h ▸ List.mem_cons_self p rest)
    rw [assignInputs, ih (fun h => hq (List.mem_cons_of_mem p h)), deref_setValue]
    simp [hqp]

theorem bitsOf_succ (m c k : Nat) :
    (List.range (m + 1)).map (fun i => (((c >>> (k + i)) &&& 1 : Nat) : Int)) =
      (((c >>> k) &&& 1 : Nat) : Int) ::
        (List.range m).map (fun i => (((c >>> (k + 1 + i)) &&& 1 : Nat) : Int)) := by
  rw [List.range_succ_eq_map, List.map_cons, List.map_map]
  refine congrArg₂ _ rfl (List.map_congr_left ?_)
  intro i _
  simp only [Function.comp, Nat.succ_eq_add_one]
  rw [show k + (i + 1) = k + 1 + i by omega]

theorem printInputs_assignInputs (c : Nat) (ins : List Nat) :
    ∀ k s, ins.Nodup → (∀ p ∈ ins, p < s.length) →
      printInputs (assignInputs c ins k s) ins =
        (List.range ins.length).map (fun i => (((c >>> (k + i)) &&& 1 : Nat) : Int)) := by
  induction ins with
  | nil => intro k s _ _; rfl
  | cons p rest ih =>
    intro k s hnd hlt
    have hnd2 := List.nodup_cons.mp hnd
    have hp : p < s.length := hlt p (List.mem_cons_self p rest)
    have hrest : ∀ q ∈ rest, q < (setValue s p (((c >>> k) &&& 1 : Nat) : Int)).length := by
      intro q hq
      rw [setValue_length]
      exact hlt q (List.mem_cons_of_mem p hq)
    have ih2 := ih (k + 1) (setValue s p (((c >>> k) &&& 1 : Nat) : Int)) hnd2.2 hrest
    rw [List.length_cons, bitsOf_succ, ← ih2]
    unfold printInputs at ih2 ⊢
    rw [List.map_cons, assignInputs]
    refine congrArg₂ _ ?_ rfl
    rw [assignInputs_value_of_not_mem c rest p hnd2.1, deref_setValue]
    simp [hp]

theorem resetMemo_length (s : List Node) : (resetMemo s).length = s.length := by
  simp [resetMemo]

theorem deref_resetMemo (s : List Node) (i : Nat) :
    deref (resetMemo s) i = { deref s i with hasCachedValue := 0 } := by
  by_cases h : i < s.length
  · simp [deref, resetMemo, List.getD, List.getElem?_map, List.getElem?_eq_getElem h]
  · have h2 : s.length ≤ i := Nat.le_of_not_lt h
    rw [deref_of_ge h2, deref_of_ge (by rw [resetMemo_length]; exact h2)]
    rfl

theorem prepareRow_length (s : List Node) (ins : List Nat) (c : Nat) :
    (prepareRow s ins c).length = s.length := by
  rw [prepareRow, resetMemo_length, assignInputs_length]

theorem printInputs_prepareRow (s : List Node) (ins : List Nat) (c : Nat) (hnd : ins.Nodup)
    (hlt : ∀ p ∈ ins, p < s.length) :
    printInputs (prepareRow s ins c) ins = bitsOf ins.length c := by
  have h := printInputs_assignInputs c ins 0 s hnd hlt
  unfold printInputs at h ⊢
  unfold prepareRow bitsOf
  simp only [Nat.zero_add] at h
  rw [← h]
  apply List.map_congr_left
  intro p _
  rw [deref_resetMemo]

/-! ## Failure does not depend on the bits: runs on arrays of the same shape -/

theorem shapeL_refl (s : List Node) : ShapeL s s := ⟨rfl, fun _ => ⟨rfl, rfl, rfl, rfl⟩⟩

theorem shapeL_symm {s t : List Node} (h : ShapeL s t) : ShapeL t s :=
  ⟨h.1.symm, fun i => ⟨(h.2 i).1.symm, (h.2 i).2.1.symm, (h.2 i).2.2.1.symm, (h.2 i).2.2.2.symm⟩⟩

theorem shapeL_trans {s t u : List Node} (h1 : ShapeL s t) (h2 : ShapeL t u) : ShapeL s u :=
  ⟨h1.1.trans h2.1, fun i => ⟨(h1.2 i).1.trans (h2.2 i).1, (h1.2 i).2.1.trans (h2.2 i).2.1,
    (h1.2 i).2.2.1.trans (h2.2 i).2.2.1, (h1.2 i).2.2.2.trans (h2.2 i).2.2.2⟩⟩

theorem shapeL_tail {a b : Node} {s t : List Node} (h : ShapeL (a :: s) (b :: t)) :
    Shape a b ∧ ShapeL s t := by
  refine ⟨h.2 0, ?_, fun i => h.2 (i + 1)⟩
  have := h.1
  simpa using this

theorem findNodeByID_shape (ID : Int) :
    ∀ s t, ShapeL s t → findNodeByID s ID = findNodeByID t ID := by
  intro s
  induction s with
  | nil =>
    intro t h
    cases t with
    | nil => rfl
    | cons b t => exact absurd h.1 (by simp)
  | cons a s ih =>
    intro t h
    cases t with
    | nil => exact absurd h.1 (by simp)
    | cons b t =>
      have h2 := shapeL_tail h
      rw [findNodeByID, findNodeByID, h2.1.2.1, ih t h2.2]

theorem setCached_shape {s t : List Node} (h : ShapeL s t) (cur : Nat) (v w : Int) :
    ShapeL (setCached s cur v) (setCached t cur w) := by
  refine ⟨by rw [setCached_length, setCached_length]; exact h.1, fun i => ?_⟩
  rw [deref_setCached, deref_setCached, ← h.1]
  split
  · exact ⟨(h.2 cur).1, (h.2 cur).2.1, (h.2 cur).2.2.1, rfl⟩
  · exact h.2 i

theorem applyGate_shape (t : NodeType) (vals vals2 : List Int)
    (hlen : vals.length = vals2.length) :
    (∃ e, applyGate t vals = Except.error e ∧ applyGate t vals2 = Except.error e) ∨
    (∃ a b, applyGate t vals = Except.ok a ∧ applyGate t vals2 = Except.ok b) := by
  cases vals with
  | nil =>
    cases vals2 with
    | nil => left; cases t <;> exact ⟨_, rfl, rfl⟩
    | cons y ys => simp at hlen
  | cons x xs =>
    cases vals2 with
    | nil => simp at hlen
    | cons y ys =>
      have hl : xs.length = ys.length := by simpa using hlen
      cases t
      case AND =>
        simp only [applyGate, bitwiseAND, List.length_cons, hl]
        by_cases h : ys.length + 1 < 2 <;> simp [h]
      case OR =>
        simp only [applyGate, bitwiseOR, List.length_cons, hl]
        by_cases h : ys.length + 1 < 2 <;> simp [h]
      case XOR =>
        simp only [applyGate, bitwiseXOR, List.length_cons, hl]
        by_cases h : ys.length + 1 < 2 <;> simp [h]
      case NOT =>
        simp only [applyGate, bitwiseNOT, List.length_cons, hl]
        by_cases h : ys.length + 1 ≠ 1 <;> simp [h]
      case INPUT => left; exact ⟨_, rfl, rfl⟩
      case OUTPUT => left; exact ⟨_, rfl, rfl⟩

theorem shapeRes_cases {r1 r2 : Except Err (Int × List Node)} (h : ShapeRes r1 r2) :
    (∃ e, r1 = Except.error e ∧ r2 = Except.error e) ∨
    (∃ v s w t, r1 = Except.ok (v, s) ∧ r2 = Except.ok (w, t) ∧ ShapeL s t) := by
  match r1, r2, h with
  | Except.ok (v, s), Except.ok (w, t), h => exact Or.inr ⟨v, s, w, t, rfl, rfl, h⟩
  | Except.error e, Except.error e2, h =>
    have h2 : e = e2 := h
    subst h2
    exact Or.inl ⟨e, rfl, rfl⟩

theorem shapeGather_cases {r1 r2 : Except Err (List Int × List Node)} (h : ShapeGather r1 r2) :
    (∃ e, r1 = Except.error e ∧ r2 = Except.error e) ∨
    (∃ v s w t, r1 = Except.ok (v, s) ∧ r2 = Except.ok (w, t) ∧ v.length = w.length ∧
      ShapeL s t) := by
  match r1, r2, h with
  | Except.ok (v, s), Except.ok (w, t), h => exact Or.inr ⟨v, s, w, t, rfl, rfl, h.1, h.2⟩
  | Except.error e, Except.error e2, h =>
    have h2 : e = e2 := h
    subst h2
    exact Or.inl ⟨e, rfl, rfl⟩

theorem gatherInputs_shape (ev : List Node → Nat → Except Err (Int × List Node))
    (hev : ∀ s t j, ShapeL s t → ShapeRes (ev s j) (ev t j)) (ids : List Int) :
    ∀ s t, ShapeL s t → ShapeGather (gatherInputs ev s ids) (gatherInputs ev t ids) := by
  induction ids with
  | nil => intro s t hst; exact ⟨rfl, hst⟩
  | cons inID rest ih =>
    intro s t hst
    simp only [gatherInputs]
    rw [findNodeByID_shape inID s t hst]
    cases findNodeByID t inID with
    | error e => exact rfl
    | ok j =>
      rcases shapeRes_cases (hev s t j hst) with ⟨e, h1, h2⟩ | ⟨v, s1, w, t1, h1, h2, h3⟩
      · simp only [h1, h2]; exact rfl
      · simp only [h1, h2]
        rcases shapeGather_cases (ih s1 t1 h3) with ⟨e, g1, g2⟩ | ⟨vs, s2, ws, t2, g1, g2, g3, g4⟩
        · simp only [g1, g2]; exact rfl
        · simp only [g1, g2]
          exact ⟨by simp [g3], g4⟩

theorem dfs_shape : ∀ fuel s t cur, ShapeL s t → ShapeRes (dfs fuel s cur) (dfs fuel t cur) := by
  intro fuel
  induction fuel with
  | zero => intro s t cur _; exact rfl
  | succ fuel ih =>
    intro s t cur hst
    by_cases hcur : cur < s.length
    · have hs := deref_of_lt hcur
      have ht := deref_of_lt (hst.1 ▸ hcur)
      obtain ⟨k1, k2, k3, k4⟩ := hst.2 cur
      simp only [dfs, hs, ht]
      rw [← k1, ← k3, ← k4]
      by_cases hflag : (deref s cur).hasCachedValue ≠ 0
      · simp only [if_pos hflag]; exact hst
      · simp only [if_neg hflag]
        by_cases hin : (deref s cur).type = NodeType.INPUT
        · simp only [if_pos hin]; exact setCached_shape hst _ _ _
        · simp only [if_neg hin]
          by_cases hout : (deref s cur).type = NodeType.OUTPUT
          · simp only [if_pos hout]
            cases (deref s cur).inputs with
            | nil => exact rfl
            | cons inID rest =>
              simp only []
              rw [findNodeByID_shape inID s t hst]
              cases findNodeByID t inID with
              | error e => exact rfl
              | ok j =>
                rcases shapeRes_cases (ih s t j hst) with ⟨e, h1, h2⟩ | ⟨v, s1, w, t1, h1, h2, h3⟩
                · simp only [h1, h2]; exact rfl
                · simp only [h1, h2]; exact setCached_shape h3 _ _ _
          · simp only [if_neg hout]
            rcases shapeGather_cases (gatherInputs_shape (dfs fuel) ih (deref s cur).inputs s t hst) with
              ⟨e, g1, g2⟩ | ⟨vs, s2, ws, t2, g1, g2, g3, g4⟩
            · simp only [g1, g2]; exact rfl
            · simp only [g1, g2]
              rcases applyGate_shape (deref s cur).type vs ws g3 with
                ⟨e, a1, a2⟩ | ⟨a, b, a1, a2⟩
              · simp only [a1, a2]; exact rfl
              · simp only [a1, a2]; exact setCached_shape g4 _ _ _
    · have hs : s[cur]? = none := List.getElem?_eq_none (Nat.le_of_not_lt hcur)
      have ht : t[cur]? = none := List.getElem?_eq_none (hst.1 ▸ Nat.le_of_not_lt hcur)
      simp only [dfs, hs, ht]
      exact rfl

/-! ## The combination loop -/

theorem staticL_refl (s : List Node) : StaticL s s := ⟨rfl, fun _ => ⟨rfl, rfl, rfl⟩⟩

theorem staticL_symm {s t : List Node} (h : StaticL s t) : StaticL t s :=
  ⟨h.1.symm, fun i => ⟨(h.2 i).1.symm, (h.2 i).2.1.symm, (h.2 i).2.2.symm⟩⟩

theorem staticL_trans {s t u : List Node} (h1 : StaticL s t) (h2 : StaticL t u) : StaticL s u :=
  ⟨h1.1.trans h2.1, fun i => ⟨(h1.2 i).1.trans (h2.2 i).1, (h1.2 i).2.1.trans (h2.2 i).2.1,
    (h1.2 i).2.2.trans (h2.2 i).2.2⟩⟩

theorem frameL_static {s t : List Node} (h : FrameL s t) : StaticL s t :=
  ⟨h.1, fun i => ⟨(h.2 i).1, (h.2 i).2.1, (h.2 i).2.2.1⟩⟩

theorem setValue_static (s : List Node) (p : Nat) (v : Int) : StaticL s (setValue s p v) := by
  refine ⟨(setValue_length s p v).symm, fun i => ?_⟩
  rw [deref_setValue]
  split
  · next h => rw [h.1]; exact ⟨rfl, rfl, rfl⟩
  · exact ⟨rfl, rfl, rfl⟩

theorem assignInputs_static (c : Nat) (ins : List Nat) :
    ∀ k s, StaticL s (assignInputs c ins k s) := by
  induction ins with
  | nil => intro k s; exact staticL_refl s
  | cons p rest ih =>
    intro k s
    rw [assignInputs]
    exact staticL_trans (setValue_static s p _) (ih _ _)

theorem prepareRow_static (s : List Node) (ins : List Nat) (c : Nat) :
    StaticL s (prepareRow s ins c) := by
  refine staticL_trans (assignInputs_static c ins 0 s) ⟨(resetMemo_length _).symm, fun i => ?_⟩
  rw [prepareRow, deref_resetMemo]
  exact ⟨rfl, rfl, rfl⟩

theorem prepareRow_flag (s : List Node) (ins : List Nat) (c : Nat) (i : Nat) :
    (deref (prepareRow s ins c) i).hasCachedValue = 0 := by
  rw [prepareRow, deref_resetMemo]

theorem prepareRow_shape {s t : List Node} (h : StaticL s t) (ins : List Nat) (c d : Nat) :
    ShapeL (prepareRow s ins c) (prepareRow t ins d) := by
  have h2 : StaticL (prepareRow s ins c) (prepareRow t ins d) :=
    staticL_trans (staticL_trans (staticL_symm (prepareRow_static s ins c)) h) (prepareRow_static t ins d)
  refine ⟨h2.1, fun i => ⟨(h2.2 i).1, (h2.2 i).2.1, (h2.2 i).2.2, ?_⟩⟩
  rw [prepareRow_flag, prepareRow_flag]

theorem evalOutputs_frame (fuel : Nat) (outs : List Nat) :
    ∀ s t, (evalOutputs fuel outs s).2 = Except.ok t → FrameL s t := by
  induction outs with
  | nil =>
    intro s t h
    simp only [evalOutputs, Except.ok.injEq] at h
    rw [← h]; exact frameL_refl s
  | cons p rest ih =>
    intro s t h
    unfold evalOutputs at h
    split at h
    · exact Except.noConfusion h
    · next result s1 h1 =>
      exact frameL_trans (dfs_frame _ _ _ _ _ h1) (ih s1 t h)

theorem evalOutputs_shape (fuel : Nat) (outs : List Nat) :
    ∀ s t, ShapeL s t →
      (∃ e, (evalOutputs fuel outs s).2 = Except.error e ∧
        (evalOutputs fuel outs t).2 = Except.error e) ∨
      (∃ s2 t2, (evalOutputs fuel outs s).2 = Except.ok s2 ∧
        (evalOutputs fuel outs t).2 = Except.ok t2) := by
  induction outs with
  | nil => intro s t _; exact Or.inr ⟨s, t, rfl, rfl⟩
  | cons p rest ih =>
    intro s t hst
    simp only [evalOutputs]
    rcases shapeRes_cases (dfs_shape fuel s t p hst) with ⟨e, h1, h2⟩ | ⟨v, s1, w, t1, h1, h2, h3⟩
    · simp only [h1, h2]; exact Or.inl ⟨e, rfl, rfl⟩
    · simp only [h1, h2]; exact ih s1 t1 h3

theorem evalRow_static (fuel : Nat) (ins outs : List Nat) (c : Nat) (s t : List Node)
    (h : (evalRow fuel ins outs c s).2 = Except.ok t) : StaticL s t :=
  staticL_trans (prepareRow_static s ins c) (frameL_static (evalOutputs_frame fuel outs _ _ h))

theorem evalRow_shape (fuel : Nat) (ins outs : List Nat) (c d : Nat) {s t : List Node}
    (h : StaticL s t) :
    (∃ e, (evalRow fuel ins outs c s).2 = Except.error e ∧
      (evalRow fuel ins outs d t).2 = Except.error e) ∨
    (∃ s2 t2, (evalRow fuel ins outs c s).2 = Except.ok s2 ∧
      (evalRow fuel ins outs d t).2 = Except.ok t2) :=
  evalOutputs_shape fuel outs _ _ (prepareRow_shape h ins c d)

theorem rowsLoop_succ_error {fuel : Nat} {ins outs : List Nat} {c : Nat} {s : List Node}
    {e : Err} (rem : Nat) (h : (evalRow fuel ins outs c s).2 = Except.error e) :
    rowsLoop fuel ins outs (rem + 1) c s = ([], some (evalRow fuel ins outs c s).1, some e) := by
  rw [rowsLoop]
  cases hr : evalRow fuel ins outs c s with
  | mk row res =>
    rw [hr] at h
    simp only at h
    subst h
    rfl

theorem rowsLoop_succ_ok {fuel : Nat} {ins outs : List Nat} {c : Nat} {s t : List Node}
    (rem : Nat) (h : (evalRow fuel ins outs c s).2 = Except.ok t) :
    rowsLoop fuel ins outs (rem + 1) c s =
      ((evalRow fuel ins outs c s).1 :: (rowsLoop fuel ins outs rem (c + 1) t).1,
        (rowsLoop fuel ins outs rem (c + 1) t).2.1, (rowsLoop fuel ins outs rem (c + 1) t).2.2) := by
  rw [rowsLoop]
  cases hr : evalRow fuel ins outs c s with
  | mk row res =>
    rw [hr] at h
    simp only at h
    subst h
    rfl

theorem rowsLoop_complete (fuel : Nat) (ins outs : List Nat) (nodes : List Node) (c0 : Nat)
    (s0 : List Node) (hok : (evalRow fuel ins outs c0 nodes).2 = Except.ok s0) :
    ∀ rem c s, StaticL nodes s →
      (rowsLoop fuel ins outs rem c s).2 = (none, none) ∧
      (rowsLoop fuel ins outs rem c s).1.map (fun r => r.combination) = List.range' c rem := by
  intro rem
  induction rem with
  | zero => intro c s _; exact ⟨rfl, rfl⟩
  | succ rem ih =>
    intro c s hs
    rcases evalRow_shape fuel ins outs c0 c hs with ⟨e, h1, _⟩ | ⟨s2, t2, _, h2⟩
    · rw [hok] at h1; exact Except.noConfusion h1
    · have hst : StaticL nodes t2 := staticL_trans hs (evalRow_static fuel ins outs c s t2 h2)
      obtain ⟨i1, i2⟩ := ih (c + 1) t2 hst
      rw [rowsLoop_succ_ok rem h2]
      refine ⟨i1, ?_⟩
      simp only [List.map_cons, i2, List.range'_succ]
      rfl

theorem rowsLoop_fail (fuel : Nat) (ins outs : List Nat) (nodes : List Node) (c0 : Nat)
    (e : Err) (hfail : (evalRow fuel ins outs c0 nodes).2 = Except.error e)
    (rem c : Nat) (s : List Node) (hs : StaticL nodes s) :
    rowsLoop fuel ins outs (rem + 1) c s = ([], some (evalRow fuel ins outs c s).1, some e) := by
  rcases evalRow_shape fuel ins outs c0 c hs with ⟨e2, h1, h2⟩ | ⟨s2, t2, h1, _⟩
  · rw [hfail] at h1
    cases h1
    exact rowsLoop_succ_error rem h2
  · rw [hfail] at h1; exact Except.noConfusion h1

theorem rowsLoop_started (fuel : Nat) (ins outs : List Nat) (nodes : List Node)
    (hnd : ins.Nodup) (hlt : ∀ p ∈ ins, p < nodes.length) :
    ∀ rem c s, StaticL nodes s → ∀ j row,
      ((rowsLoop fuel ins outs rem c s).1 ++ (rowsLoop fuel ins outs rem c s).2.1.toList)[j]? =
        some row →
      row.combination = c + j ∧ row.inputBits = bitsOf ins.length (c + j) := by
  intro rem
  induction rem with
  | zero =>
    intro c s _ j row h
    simp [rowsLoop] at h
  | succ rem ih =>
    intro c s hs j row h
    have hlt2 : ∀ p ∈ ins, p < s.length := fun p hp => hs.1 ▸ hlt p hp
    have hrow : (evalRow fuel ins outs c s).1.combination = c ∧
        (evalRow fuel ins outs c s).1.inputBits = bitsOf ins.length c :=
      ⟨rfl, printInputs_prepareRow s ins c hnd hlt2⟩
    cases hres : (evalRow fuel ins outs c s).2 with
    | error e =>
      rw [rowsLoop_succ_error rem hres] at h
      cases j with
      | zero =>
        simp only [List.nil_append, Option.toList, List.getElem?_cons_zero,
          Option.some.injEq] at h
        rw [← h]; exact hrow
      | succ j => simp [Option.toList] at h
    | ok t =>
      rw [rowsLoop_succ_ok rem hres] at h
      have hst : StaticL nodes t := staticL_trans hs (evalRow_static fuel ins outs c s t hres)
      cases j with
      | zero =>
        simp only [List.cons_append, List.getElem?_cons_zero, Option.some.injEq] at h
        rw [← h]; exact hrow
      | succ j =>
        simp only [List.cons_append, List.getElem?_cons_succ] at h
        have := ih (c + 1) t hst j row h
        rw [show c + (j + 1) = c + 1 + j by omega]
        exact this

/-! ## The truth table -/

theorem numCombinations_of_lt {m : Nat} (h : m < 31) : numCombinations m = some (2 ^ m) := by
  unfold numCombinations
  rw [if_pos (Nat.pow_lt_pow_right (by decide) h)]

theorem main_of_none {fuel : Nat} {nodes : List Node}
    (h : numCombinations (inputNodes nodes).length = none) :
    main fuel nodes =
      { headerInputs := [], headerOutputs := [], rows := [], pending := none,
        exit := some Err.undefinedConversion } := by
  unfold main
  simp only [h]

theorem main_of_some {fuel : Nat} {nodes : List Node} {n : Nat}
    (h : numCombinations (inputNodes nodes).length = some n) :
    main fuel nodes =
      { headerInputs := (inputNodes nodes).map (fun p => (deref nodes p).uniqueID),
        headerOutputs := (outputNodes nodes).map (fun p => (deref nodes p).uniqueID),
        rows := (rowsLoop fuel (inputNodes nodes) (outputNodes nodes) n 0 nodes).1,
        pending := (rowsLoop fuel (inputNodes nodes) (outputNodes nodes) n 0 nodes).2.1,
        exit := (rowsLoop fuel (inputNodes nodes) (outputNodes nodes) n 0 nodes).2.2 } := by
  unfold main
  simp only [h]

theorem main_rows_started (fuel : Nat) (nodes : List Node) (j : Nat) (row : Row)
    (h : ((main fuel nodes).rows ++ (main fuel nodes).pending.toList)[j]? = some row) :
    row.combination = j ∧ row.inputBits = bitsOf (inputNodes nodes).length j := by
  cases hn : numCombinations (inputNodes nodes).length with
  | none => rw [main_of_none hn] at h; simp at h
  | some n =>
    rw [main_of_some hn] at h
    have := rowsLoop_started fuel (inputNodes nodes) (outputNodes nodes) nodes
      (nodup_collectType _ nodes) (fun p hp => mem_inputNodes_lt hp) n 0 nodes
      (staticL_refl nodes) j row h
    simpa using this

theorem main_complete (fuel : Nat) (nodes : List Node) (c0 : Nat) (s0 : List Node)
    (hm : (inputNodes nodes).length < 31)
    (hok : (evalRow fuel (inputNodes nodes) (outputNodes nodes) c0 nodes).2 = Except.ok s0) :
    (main fuel nodes).exit = none ∧ (main fuel nodes).pending = none ∧
      (main fuel nodes).rows.map (fun r => r.combination) =
        List.range (2 ^ (inputNodes nodes).length) := by
  obtain ⟨h1, h2⟩ := rowsLoop_complete fuel (inputNodes nodes) (outputNodes nodes) nodes c0 s0 hok
    (2 ^ (inputNodes nodes).length) 0 nodes (staticL_refl nodes)
  rw [main_of_some (numCombinations_of_lt hm)]
  rw [Prod.ext_iff] at h1
  refine ⟨h1.2, h1.1, ?_⟩
  rw [h2, List.range_eq_range']

/-- C1, as the code has it. For a node array with `m < 31` INPUT nodes whose output nodes
evaluate without error (for one combination `c0`, from the parsed array), the run ends
normally and the loop has printed exactly `2^m` rows, the combinations `0 .. 2^m - 1` each
once in ascending order. -/
theorem rows_enumerate_combinations (fuel : Nat) (nodes : List Node) (c0 : Nat)
    (s0 : List Node) (hm : (inputNodes nodes).length < 31)
    (hok : (evalRow fuel (inputNodes nodes) (outputNodes nodes) c0 nodes).2 = Except.ok s0) :
    (main fuel nodes).exit = none ∧
      (main fuel nodes).rows.length = 2 ^ (inputNodes nodes).length ∧
      (main fuel nodes).rows.map (fun r => r.combination) =
        List.range (2 ^ (inputNodes nodes).length) := by
  obtain ⟨h1, _, h3⟩ := main_complete fuel nodes c0 s0 hm hok
  refine ⟨h1, ?_, h3⟩
  have := congrArg List.length h3
  simpa using this

theorem rows_enumerate_combinations_witness :
    (main 3 exampleNodes).exit = none ∧
      (main 3 exampleNodes).rows.length = 2 ^ (inputNodes exampleNodes).length ∧
      (main 3 exampleNodes).rows.map (fun r => r.combination) =
        List.range (2 ^ (inputNodes exampleNodes).length) :=
  rows_enumerate_combinations 3 exampleNodes 0
    ((evalRow 3 (inputNodes exampleNodes) (outputNodes exampleNodes) 0
      exampleNodes).2.toOption.getD [])
    (by decide) (by decide)

/-- C1, counterexample. With 31 INPUT nodes `(int)pow(2, 31)` is not defined and the run
prints no row at all, not `2^31`; with one INPUT node and an OUTPUT node without input the
run ends in the arity error of OUTPUT during the first row, having printed none of the 2
rows in full. -/
theorem rows_not_always_enumerated :
    ((inputNodes thirtyOneInputs).length = 31 ∧
      (main 5 thirtyOneInputs).rows.length ≠ 2 ^ 31) ∧
    ((inputNodes outputWithoutInput).length = 1 ∧
      (main 5 outputWithoutInput).exit = some (Err.arity NodeType.OUTPUT) ∧
      (main 5 outputWithoutInput).rows.length ≠ 2 ^ 1) := by
  decide

theorem bitsOf_succ_div (m c : Nat) :
    bitsOf (m + 1) c = ((c % 2 : Nat) : Int) :: bitsOf m (c / 2) := by
  have h := bitsOf_succ m c 0
  simp only [Nat.zero_add] at h
  unfold bitsOf
  rw [h]
  refine congrArg₂ _ ?_ (List.map_congr_left ?_)
  · simp [Nat.and_one_is_mod]
  · intro i _
    simp only [Nat.and_one_is_mod, Nat.shiftRight_eq_div_pow]
    rw [Nat.add_comm 1 i, Nat.pow_succ, Nat.mul_comm, Nat.div_div_eq_div_mul]

theorem fromBits_lt (v : List Int) (hbits : ∀ x ∈ v, x = 0 ∨ x = 1) :
    fromBits v < 2 ^ v.length := by
  induction v with
  | nil => simp [fromBits]
  | cons b rest ih =>
    have hr := ih (fun x hx => hbits x (List.mem_cons_of_mem b hx))
    have hb := hbits b (List.mem_cons_self b rest)
    rw [fromBits, List.length_cons, Nat.pow_succ]
    rcases hb with rfl | rfl <;> simp <;> omega

theorem bitsOf_eq_iff (v : List Int) (hbits : ∀ x ∈ v, x = 0 ∨ x = 1) :
    ∀ c, c < 2 ^ v.length → (bitsOf v.length c = v ↔ c = fromBits v) := by
  induction v with
  | nil =>
    intro c hc
    simp only [List.length_nil, Nat.pow_zero] at hc
    simp [bitsOf, fromBits]
    omega
  | cons b rest ih =>
    intro c hc
    have hb := hbits b (List.mem_cons_self b rest)
    rw [List.length_cons, Nat.pow_succ] at hc
    have ih2 := ih (fun x hx => hbits x (List.mem_cons_of_mem b hx)) (c / 2) (by omega)
    rw [List.length_cons, bitsOf_succ_div, List.cons.injEq, ih2, fromBits]
    rcases hb with rfl | rfl <;> simp <;> omega

theorem main_rows_inputBits (fuel : Nat) (nodes : List Node) (c0 : Nat) (s0 : List Node)
    (hm : (inputNodes nodes).length < 31)
    (hok : (evalRow fuel (inputNodes nodes) (outputNodes nodes) c0 nodes).2 = Except.ok s0)
    (r : Nat) (v : List Int) :
    ((main fuel nodes).rows.map (fun row => row.inputBits))[r]? = some v ↔
      r < 2 ^ (inputNodes nodes).length ∧ bitsOf (inputNodes nodes).length r = v := by
  obtain ⟨_, h2, h3⟩ := main_complete fuel nodes c0 s0 hm hok
  have hlen : (main fuel nodes).rows.length = 2 ^ (inputNodes nodes).length := by
    have := congrArg List.length h3
    simpa using this
  have hst := main_rows_started fuel nodes r
  rw [h2] at hst
  simp only [Option.toList, List.append_nil] at hst
  rw [List.getElem?_map]
  by_cases hr : r < (main fuel nodes).rows.length
  · have hget : (main fuel nodes).rows[r]? = some ((main fuel nodes).rows[r]) :=
      List.getElem?_eq_getElem hr
    rw [hget, Option.map_some', Option.some.injEq, (hst _ hget).2]
    exact ⟨fun h => ⟨hlen ▸ hr, h⟩, fun h => h.2⟩
  · rw [List.getElem?_eq_none (Nat.le_of_not_lt hr)]
    refine ⟨fun h => Option.noConfusion h, fun h => absurd (hlen ▸ h.1) hr⟩

/-- C3, as the code has it. For a node array with `m < 31` INPUT nodes whose output nodes
evaluate without error, and for every assignment `v` of bits to the `m` INPUT nodes, exactly
one printed row has `v` as its input bits. -/
theorem table_complete (fuel : Nat) (nodes : List Node) (c0 : Nat) (s0 : List Node)
    (hm : (inputNodes nodes).length < 31)
    (hok : (evalRow fuel (inputNodes nodes) (outputNodes nodes) c0 nodes).2 = Except.ok s0)
    (v : List Int) (hlen : v.length = (inputNodes nodes).length)
    (hbits : ∀ x ∈ v, x = 0 ∨ x = 1) :
    ∃! r : Nat, ((main fuel nodes).rows.map (fun row => row.inputBits))[r]? = some v := by
  refine ⟨fromBits v, ?_, ?_⟩
  · show ((main fuel nodes).rows.map (fun row => row.inputBits))[fromBits v]? = some v
    rw [main_rows_inputBits fuel nodes c0 s0 hm hok, ← hlen]
    exact ⟨fromBits_lt v hbits, (bitsOf_eq_iff v hbits _ (fromBits_lt v hbits)).mpr rfl⟩
  · intro r hr
    have hr2 : ((main fuel nodes).rows.map (fun row => row.inputBits))[r]? = some v := hr
    rw [main_rows_inputBits fuel nodes c0 s0 hm hok, ← hlen] at hr2
    exact (bitsOf_eq_iff v hbits r hr2.1).mp hr2.2

theorem table_complete_witness :
    ∃! r : Nat, ((main 3 exampleNodes).rows.map (fun row => row.inputBits))[r]? = some [0, 1] :=
  table_complete 3 exampleNodes 0
    ((evalRow 3 (inputNodes exampleNodes) (outputNodes exampleNodes) 0
      exampleNodes).2.toOption.getD [])
    (by decide) (by decide) [0, 1] (by decide) (by decide)

/-- C3, counterexample. `danglingOutput` has one INPUT node, and the run ends in the
node-not-found error during the first row: no printed row carries the assignment `[0]`, nor
the assignment `[1]`. -/
theorem table_incomplete_on_error :
    (inputNodes danglingOutput).length = 1 ∧
    (main 5 danglingOutput).exit = some (Err.nodeNotFound 7) ∧
    (∀ row ∈ (main 5 danglingOutput).rows, row.inputBits ≠ [0]) ∧
    (∀ row ∈ (main 5 danglingOutput).rows, row.inputBits ≠ [1]) := by
  decide

/-! ## Missing ids -/

theorem dangling_static {s t : List Node} (h : StaticL s t) (id : Int) (hd : Dangling t id) :
    Dangling s id := by
  obtain ⟨⟨i, hi, hmem⟩, hno⟩ := hd
  refine ⟨⟨i, h.1 ▸ hi, ?_⟩, fun j hj => ?_⟩
  · rw [(h.2 i).2.2]; exact hmem
  · rw [(h.2 j).2.1]; exact hno j (h.1 ▸ hj)

theorem findNodeByID_error (x : Int) :
    ∀ s e, findNodeByID s x = Except.error e →
      e = Err.nodeNotFound x ∧ ∀ i, i < s.length → (deref s i).uniqueID ≠ toUInt32 x := by
  intro s
  induction s with
  | nil =>
    intro e h
    simp only [findNodeByID, Except.error.injEq] at h
    exact ⟨h.symm, fun i hi => absurd hi (Nat.not_lt_zero i)⟩
  | cons a s ih =>
    intro e h
    unfold findNodeByID at h
    split at h
    · exact Except.noConfusion h
    · next hne =>
      split at h
      · exact Except.noConfusion h
      · next e2 h2 =>
        simp only [Except.error.injEq] at h
        obtain ⟨i1, i2⟩ := ih e2 h2
        refine ⟨h ▸ i1, fun i hi => ?_⟩
        cases i with
        | zero => exact hne
        | succ i => exact i2 i (by simpa using hi)

theorem applyGate_not_nodeNotFound (t : NodeType) (vals : List Int) (id : Int) :
    applyGate t vals ≠ Except.error (Err.nodeNotFound id) := by
  cases t <;> cases vals <;>
    simp [applyGate, bitwiseAND, bitwiseOR, bitwiseXOR, bitwiseNOT] <;>
    split <;> simp

theorem gatherInputs_notFound (ev : List Node → Nat → Except Err (Int × List Node))
    (hev : ∀ s j id, ev s j = Except.error (Err.nodeNotFound id) → Dangling s id)
    (hfr : ∀ s j v t, ev s j = Except.ok (v, t) → FrameL s t) (ids : List Int) :
    ∀ s id, (∀ x ∈ ids, ∃ i, i < s.length ∧ x ∈ (deref s i).inputs) →
      gatherInputs ev s ids = Except.error (Err.nodeNotFound id) → Dangling s id := by
  induction ids with
  | nil => intro s id _ h; exact Except.noConfusion h
  | cons inID rest ih =>
    intro s id hsub h
    unfold gatherInputs at h
    split at h
    · next e hf =>
      obtain ⟨h1, h2⟩ := findNodeByID_error inID s e hf
      simp only [Except.error.injEq] at h
      rw [h1] at h
      cases h
      exact ⟨hsub inID (List.mem_cons_self inID rest), h2⟩
    · split at h
      · next e he =>
        simp only [Except.error.injEq] at h
        rw [h] at he
        exact hev _ _ _ he
      · next inVal s1 h1 =>
        have hst : StaticL s s1 := frameL_static (hfr _ _ _ _ h1)
        split at h
        · next e he =>
          simp only [Except.error.injEq] at h
          rw [h] at he
          refine dangling_static hst id (ih s1 id ?_ he)
          intro x hx
          obtain ⟨i, hi, hmem⟩ := hsub x (List.mem_cons_of_mem inID hx)
          exact ⟨i, hst.1 ▸ hi, by rw [← (hst.2 i).2.2]; exact hmem⟩
        · exact Except.noConfusion h

theorem dfs_notFound : ∀ fuel s cur id,
    dfs fuel s cur = Except.error (Err.nodeNotFound id) → Dangling s id := by
  intro fuel
  induction fuel with
  | zero => intro s cur id h; simp [dfs] at h
  | succ fuel ih =>
    intro s cur id h
    unfold dfs at h
    split at h
    · simp at h
    · next n hn =>
      have hcur : cur < s.length := lt_length_of_getElem? hn
      have hder : deref s cur = n := deref_of_getElem? hn
      split at h
      · exact Except.noConfusion h
      · split at h
        · exact Except.noConfusion h
        · split at h
          · split at h
            · simp at h
            · next inID tl hin =>
              split at h
              · next e hf =>
                obtain ⟨h1, h2⟩ := findNodeByID_error inID s e hf
                simp only [Except.error.injEq] at h
                rw [h1] at h
                cases h
                exact ⟨⟨cur, hcur, by rw [hder, hin]; exact List.mem_cons_self _ _⟩, h2⟩
              · split at h
                · next e he =>
                  simp only [Except.error.injEq] at h
                  rw [h] at he
                  exact ih _ _ _ he
                · exact Except.noConfusion h
          · split at h
            · next e he =>
              simp only [Except.error.injEq] at h
              rw [h] at he
              refine gatherInputs_notFound (dfs fuel) ih (dfs_frame fuel) n.inputs s id ?_ he
              intro x hx
              exact ⟨cur, hcur, by rw [hder]; exact hx⟩
            · split at h
              · next vals s1 _ e he =>
                simp only [Except.error.injEq] at h
                rw [h] at he
                exact absurd he (applyGate_not_nodeNotFound _ _ _)
              · exact Except.noConfusion h

theorem evalOutputs_notFound (fuel : Nat) (outs : List Nat) :
    ∀ s id, (evalOutputs fuel outs s).2 = Except.error (Err.nodeNotFound id) →
      Dangling s id := by
  induction outs with
  | nil => intro s id h; exact Except.noConfusion h
  | cons p rest ih =>
    intro s id h
    unfold evalOutputs at h
    split at h
    · next e he =>
      simp only [Except.error.injEq] at h
      rw [h] at he
      exact dfs_notFound _ _ _ _ he
    · next result s1 h1 =>
      exact dangling_static (frameL_static (dfs_frame _ _ _ _ _ h1)) id (ih s1 id h)

theorem dangling_mem {s : List Node} {id : Int} (h : Dangling s id) :
    (∃ n ∈ s, id ∈ n.inputs) ∧ ∀ n ∈ s, n.uniqueID ≠ toUInt32 id := by
  obtain ⟨⟨i, hi, hmem⟩, hno⟩ := h
  refine ⟨⟨deref s i, List.getElem?_mem (deref_of_lt hi), hmem⟩, fun n hn => ?_⟩
  obtain ⟨j, hj⟩ := List.mem_iff_getElem?.mp hn
  rw [← deref_of_getElem? hj]
  exact hno j (lt_length_of_getElem? hj)

/-! ## The example of the specification -/

/-- C10, as the code has it. On the example netlist the program prints the header
`1 2 | 4` (the ids of the INPUT nodes, then the id of the OUTPUT node) and the rows
`0 0 | 0`, `1 0 | 0`, `0 1 | 0`, `1 1 | 1` in this order (the first column, node 1, takes the
lowest bit of the combination), whatever the recursion bound from 3 on. -/
theorem example_output (k : Nat) :
    render (main (k + 3) exampleNodes) = "1 2 | 4\n0 0 | 0\n1 0 | 0\n0 1 | 0\n1 1 | 1" := by
  rfl

/-- C10, counterexample. The text printed for the example netlist is not the header
`1 2 | 3` followed by the rows `0 0 | 0`, `0 1 | 0`, `1 0 | 0`, `1 1 | 1`. -/
theorem example_output_differs :
    render (main 3 exampleNodes) ≠ "1 2 | 3\n0 0 | 0\n0 1 | 0\n1 0 | 0\n1 1 | 1" := by
  decide

/-! ## The comparator, the frame of `dfs`, the lookup -/

/-- C20. For two nodes whose ids are in the range the parser accepts (below `2^31`),
`compareNodePtrByID` is negative exactly when the first id is smaller, zero exactly when the
ids are equal, positive exactly when the first id is larger. -/
theorem compareNodePtrByID_sign (nodes : List Node) (a b : Nat)
    (ha : (deref nodes a).uniqueID < 2 ^ 31) (hb : (deref nodes b).uniqueID < 2 ^ 31) :
    (compareNodePtrByID nodes a b < 0 ↔ (deref nodes a).uniqueID < (deref nodes b).uniqueID) ∧
    (compareNodePtrByID nodes a b = 0 ↔ (deref nodes a).uniqueID = (deref nodes b).uniqueID) ∧
    (0 < compareNodePtrByID nodes a b ↔
      (deref nodes b).uniqueID < (deref nodes a).uniqueID) := by
  unfold compareNodePtrByID toInt32
  norm_num at ha hb ⊢
  split <;> omega

theorem compareNodePtrByID_sign_witness :
    (compareNodePtrByID exampleNodes 0 3 < 0 ↔
      (deref exampleNodes 0).uniqueID < (deref exampleNodes 3).uniqueID) ∧
    (compareNodePtrByID exampleNodes 0 3 = 0 ↔
      (deref exampleNodes 0).uniqueID = (deref exampleNodes 3).uniqueID) ∧
    (0 < compareNodePtrByID exampleNodes 0 3 ↔
      (deref exampleNodes 3).uniqueID < (deref exampleNodes 0).uniqueID) :=
  compareNodePtrByID_sign exampleNodes 0 3 (by decide) (by decide)

/-- C18. A call of `dfs` that returns leaves the node array at its size and, on every node,
leaves `type`, `uniqueID`, `inputs`, `outputs` and `value` as they were; only
`hasCachedValue` and `cachedValue` can differ. -/
theorem dfs_changes_only_memo (fuel : Nat) (s : List Node) (cur : Nat) (v : Int)
    (t : List Node) (h : dfs fuel s cur = Except.ok (v, t)) :
    t.length = s.length ∧
    ∀ (i : Nat) (n : Node), s[i]? = some n → ∃ m : Node, t[i]? = some m ∧ m.type = n.type ∧
      m.uniqueID = n.uniqueID ∧ m.inputs = n.inputs ∧ m.outputs = n.outputs ∧
      m.value = n.value := by
  have hf := dfs_frame fuel s cur v t h
  refine ⟨hf.1.symm, fun i n hn => ?_⟩
  have hi : i < t.length := hf.1 ▸ lt_length_of_getElem? hn
  have h2 := hf.2 i
  rw [deref_of_getElem? hn] at h2
  exact ⟨deref t i, deref_of_lt hi, h2.1.symm, h2.2.1.symm, h2.2.2.1.symm, h2.2.2.2.1.symm,
    h2.2.2.2.2.symm⟩

theorem dfs_changes_only_memo_witness :
    (setCached (setCached (setCached exampleNodes 0 0) 1 0) 2 0).length = exampleNodes.length ∧
    ∀ (i : Nat) (n : Node), exampleNodes[i]? = some n →
      ∃ m : Node, (setCached (setCached (setCached exampleNodes 0 0) 1 0) 2 0)[i]? = some m ∧
        m.type = n.type ∧ m.uniqueID = n.uniqueID ∧ m.inputs = n.inputs ∧
        m.outputs = n.outputs ∧ m.value = n.value :=
  dfs_changes_only_memo 2 exampleNodes 2 0 _ (by decide)

theorem findNodeByID_ok (x : Int) :
    ∀ s i, findNodeByID s x = Except.ok i →
      i < s.length ∧ (deref s i).uniqueID = toUInt32 x ∧
        ∀ j, j < i → (deref s j).uniqueID ≠ toUInt32 x := by
  intro s
  induction s with
  | nil => intro i h; exact Except.noConfusion h
  | cons a s ih =>
    intro i h
    unfold findNodeByID at h
    split at h
    · next heq =>
      simp only [Except.ok.injEq] at h
      subst h
      exact ⟨by simp, heq, fun j hj => absurd hj (Nat.not_lt_zero j)⟩
    · next hne =>
      split at h
      · next k hk =>
        simp only [Except.ok.injEq] at h
        subst h
        obtain ⟨i1, i2, i3⟩ := ih k hk
        refine ⟨by simpa using i1, i2, fun j hj => ?_⟩
        cases j with
        | zero => exact hne
        | succ j => exact i3 j (by omega)
      · exact Except.noConfusion h

/-- C14. `findNodeByID` returns the position `i` exactly when node `i` is the first node of
the list whose `uniqueID` equals the id (as converted by `(uint32_t)ID`), so it returns such a
node whenever the list has one; it fails exactly when no node of the list has that id, and
then with the node-not-found error for that id. -/
theorem findNodeByID_spec (nodes : List Node) (ID : Int) :
    (∀ i, findNodeByID nodes ID = Except.ok i ↔
      (i < nodes.length ∧ (deref nodes i).uniqueID = toUInt32 ID ∧
        ∀ j, j < i → (deref nodes j).uniqueID ≠ toUInt32 ID)) ∧
    ((∃ n ∈ nodes, n.uniqueID = toUInt32 ID) ↔ ∃ i, findNodeByID nodes ID = Except.ok i) ∧
    (findNodeByID nodes ID = Except.error (Err.nodeNotFound ID) ↔
      ∀ n ∈ nodes, n.uniqueID ≠ toUInt32 ID) ∧
    (∀ e, findNodeByID nodes ID = Except.error e → e = Err.nodeNotFound ID) := by
  have hno : findNodeByID nodes ID = Except.error (Err.nodeNotFound ID) ↔
      ∀ n ∈ nodes, n.uniqueID ≠ toUInt32 ID := by
    constructor
    · intro h n hn
      obtain ⟨j, hj⟩ := List.mem_iff_getElem?.mp hn
      rw [← deref_of_getElem? hj]
      exact (findNodeByID_error ID nodes _ h).2 j (lt_length_of_getElem? hj)
    · intro h
      cases hr : findNodeByID nodes ID with
      | error e => rw [(findNodeByID_error ID nodes e hr).1]
      | ok i =>
        obtain ⟨i1, i2, _⟩ := findNodeByID_ok ID nodes i hr
        exact absurd i2 (h _ (List.getElem?_mem (deref_of_lt i1)))
  have hfirst : ∀ i, findNodeByID nodes ID = Except.ok i ↔
      (i < nodes.length ∧ (deref nodes i).uniqueID = toUInt32 ID ∧
        ∀ j, j < i → (deref nodes j).uniqueID ≠ toUInt32 ID) := by
    intro i
    constructor
    · exact findNodeByID_ok ID nodes i
    · rintro ⟨h1, h2, h3⟩
      cases hr : findNodeByID nodes ID with
      | error e =>
        exact absurd h2 ((findNodeByID_error ID nodes e hr).2 i h1)
      | ok k =>
        obtain ⟨k1, k2, k3⟩ := findNodeByID_ok ID nodes k hr
        have : k = i := by
          rcases Nat.lt_trichotomy k i with hlt | heq | hgt
          · exact absurd k2 (h3 k hlt)
          · exact heq
          · exact absurd h2 (k3 i hgt)
        rw [this]
  refine ⟨hfirst, ?_, hno, fun e he => (findNodeByID_error ID nodes e he).1⟩
  constructor
  · rintro ⟨n, hn, heq⟩
    cases hr : findNodeByID nodes ID with
    | ok i => exact ⟨i, rfl⟩
    | error e =>
      rw [(findNodeByID_error ID nodes e hr).1] at hr
      exact absurd heq (hno.mp hr n hn)
  · rintro ⟨i, hi⟩
    obtain ⟨i1, i2, _⟩ := findNodeByID_ok ID nodes i hi
    exact ⟨deref nodes i, List.getElem?_mem (deref_of_lt i1), i2⟩

/-! ## The folds do not depend on the order of the values -/

theorem toUInt32_lt (a : Int) : toUInt32 a < 2 ^ 32 := by
  unfold toUInt32
  have h1 : 0 ≤ a % 2 ^ 32 := Int.emod_nonneg a (by norm_num)
  have h2 : a % 2 ^ 32 < 2 ^ 32 := Int.emod_lt_of_pos a (by norm_num)
  omega

theorem toUInt32_toInt32 (x : Nat) (hx : x < 2 ^ 32) : toUInt32 (toInt32 x) = x := by
  unfold toUInt32 toInt32
  norm_num at hx ⊢
  split <;> omega

theorem and32_comm (a b : Int) : and32 a b = and32 b a := by
  unfold and32
  rw [Nat.and_comm]

theorem or32_comm (a b : Int) : or32 a b = or32 b a := by
  unfold or32
  rw [Nat.or_comm]

theorem xor32_comm (a b : Int) : xor32 a b = xor32 b a := by
  unfold xor32
  rw [Nat.xor_comm]

theorem and32_assoc (a b c : Int) : and32 (and32 a b) c = and32 a (and32 b c) := by
  unfold and32
  rw [toUInt32_toInt32 _ (Nat.and_lt_two_pow _ (toUInt32_lt b)),
    toUInt32_toInt32 _ (Nat.and_lt_two_pow _ (toUInt32_lt c)), Nat.and_assoc]

theorem or32_assoc (a b c : Int) : or32 (or32 a b) c = or32 a (or32 b c) := by
  unfold or32
  rw [toUInt32_toInt32 _ (Nat.or_lt_two_pow (toUInt32_lt a) (toUInt32_lt b)),
    toUInt32_toInt32 _ (Nat.or_lt_two_pow (toUInt32_lt b) (toUInt32_lt c)), Nat.or_assoc]

theorem xor32_assoc (a b c : Int) : xor32 (xor32 a b) c = xor32 a (xor32 b c) := by
  unfold xor32
  rw [toUInt32_toInt32 _ (Nat.xor_lt_two_pow (toUInt32_lt a) (toUInt32_lt b)),
    toUInt32_toInt32 _ (Nat.xor_lt_two_pow (toUInt32_lt b) (toUInt32_lt c)), Nat.xor_assoc]

theorem foldLoop_perm (op : Int → Int → Int) (hc : ∀ a b, op a b = op b a)
    (ha : ∀ a b c, op (op a b) c = op a (op b c)) (x y : Int) (r1 r2 : List Int)
    (hp : (x :: r1).Perm (y :: r2)) : foldLoop op x r1 = foldLoop op y r2 := by
  have hrc : ∀ (l : List Int), ∀ u ∈ l, ∀ v ∈ l, ∀ z, op (op z u) v = op (op z v) u := by
    intro l u _ v _ z
    rw [ha, hc u v, ← ha]
  rw [foldLoop_eq_foldl, foldLoop_eq_foldl]
  by_cases hxy : x = y
  · subst hxy
    exact List.Perm.foldl_eq' (List.Perm.cons_inv hp) (hrc r1) x
  · have hy : y ∈ r1 := by
      have : y ∈ x :: r1 := hp.mem_iff.mpr (List.mem_cons_self y r2)
      rcases List.mem_cons.mp this with h | h
      · exact absurd h.symm hxy
      · exact h
    have h1 : r1.Perm (y :: r1.erase y) := List.perm_cons_erase hy
    have h2 : (x :: r1.erase y).Perm r2 := by
      have h3 : (y :: x :: r1.erase y).Perm (y :: r2) :=
        ((List.Perm.swap x y _).trans (List.Perm.cons x h1.symm)).trans hp
      exact List.Perm.cons_inv h3
    rw [List.Perm.foldl_eq' h1 (hrc r1) x, ← List.Perm.foldl_eq' h2 (hrc _) y,
      List.foldl_cons, List.foldl_cons, hc x y]

/-- C12. For two lists of values of length at least 2 that are rearrangements of each
other, `bitwiseAND` returns the same value on both, and so do `bitwiseOR` and
`bitwiseXOR`. -/
theorem bitwise_folds_order_independent (l1 l2 : List Int) (hperm : l1.Perm l2)
    (hlen : 2 ≤ l1.length) :
    (∃ v, bitwiseAND l1 = Except.ok v ∧ bitwiseAND l2 = Except.ok v) ∧
    (∃ v, bitwiseOR l1 = Except.ok v ∧ bitwiseOR l2 = Except.ok v) ∧
    (∃ v, bitwiseXOR l1 = Except.ok v ∧ bitwiseXOR l2 = Except.ok v) := by
  have hlen2 : 2 ≤ l2.length := hperm.length_eq ▸ hlen
  match l1, l2, hperm, hlen, hlen2 with
  | x :: r1, y :: r2, hperm, hlen, hlen2 =>
    have hn1 : ¬ (x :: r1).length < 2 := by omega
    have hn2 : ¬ (y :: r2).length < 2 := by omega
    refine ⟨⟨foldLoop and32 x r1, ?_, ?_⟩, ⟨foldLoop or32 x r1, ?_, ?_⟩,
      ⟨foldLoop xor32 x r1, ?_, ?_⟩⟩
    · rw [bitwiseAND, if_neg hn1]
    · rw [bitwiseAND, if_neg hn2, foldLoop_perm and32 and32_comm and32_assoc x y r1 r2 hperm]
    · rw [bitwiseOR, if_neg hn1]
    · rw [bitwiseOR, if_neg hn2, foldLoop_perm or32 or32_comm or32_assoc x y r1 r2 hperm]
    · rw [bitwiseXOR, if_neg hn1]
    · rw [bitwiseXOR, if_neg hn2, foldLoop_perm xor32 xor32_comm xor32_assoc x y r1 r2 hperm]

theorem bitwise_folds_order_independent_witness :
    (∃ v, bitwiseAND [6, 3, -1] = Except.ok v ∧ bitwiseAND [-1, 6, 3] = Except.ok v) ∧
    (∃ v, bitwiseOR [6, 3, -1] = Except.ok v ∧ bitwiseOR [-1, 6, 3] = Except.ok v) ∧
    (∃ v, bitwiseXOR [6, 3, -1] = Except.ok v ∧ bitwiseXOR [-1, 6, 3] = Except.ok v) :=
  bitwise_folds_order_independent [6, 3, -1] [-1, 6, 3] (by decide) (by decide)

/-! ## Values are bits -/

theorem setCached_bitInv {s : List Node} (h : BitInv s) (cur : Nat) {v : Int}
    (hv : v = 0 ∨ v = 1) : BitInv (setCached s cur v) := by
  intro i
  rw [deref_setCached]
  split
  · next hi => exact ⟨(h cur).1, fun _ => hv⟩
  · exact h i

theorem applyGate_bit (t : NodeType) (vals : List Int) (v : Int)
    (hb : ∀ x ∈ vals, x = 0 ∨ x = 1) (h : applyGate t vals = Except.ok v) :
    v = 0 ∨ v = 1 := by
  cases vals with
  | nil => cases t <;> simp [applyGate, bitwiseAND, bitwiseOR, bitwiseXOR, bitwiseNOT] at h
  | cons x rest =>
    have hx := hb x (List.mem_cons_self x rest)
    have hr : ∀ z ∈ rest, z = 0 ∨ z = 1 := fun z hz => hb z (List.mem_cons_of_mem x hz)
    cases t
    case AND =>
      simp only [applyGate, bitwiseAND] at h
      split at h
      · exact Except.noConfusion h
      · simp only [Except.ok.injEq] at h
        rw [← h, foldLoop_land_bits rest x hx hr]
        split <;> simp
    case OR =>
      simp only [applyGate, bitwiseOR] at h
      split at h
      · exact Except.noConfusion h
      · simp only [Except.ok.injEq] at h
        rw [← h, foldLoop_lor_bits rest x hx hr]
        split <;> simp
    case XOR =>
      simp only [applyGate, bitwiseXOR] at h
      split at h
      · exact Except.noConfusion h
      · simp only [Except.ok.injEq] at h
        rw [← h, foldLoop_xor_bits rest x hx hr]
        split <;> simp
    case NOT =>
      simp only [applyGate, bitwiseNOT] at h
      split at h
      · exact Except.noConfusion h
      · simp only [Except.ok.injEq] at h
        rw [← h]
        rcases hx with rfl | rfl <;> decide
    case INPUT => exact Except.noConfusion h
    case OUTPUT => exact Except.noConfusion h

theorem gatherInputs_bit (ev : List Node → Nat → Except Err (Int × List Node))
    (hev : ∀ s j v t, BitInv s → ev s j = Except.ok (v, t) → (v = 0 ∨ v = 1) ∧ BitInv t)
    (ids : List Int) :
    ∀ s vals t, BitInv s → gatherInputs ev s ids = Except.ok (vals, t) →
      (∀ x ∈ vals, x = 0 ∨ x = 1) ∧ BitInv t := by
  induction ids with
  | nil =>
    intro s vals t hs h
    simp only [gatherInputs, Except.ok.injEq, Prod.mk.injEq] at h
    rw [← h.1, ← h.2]
    exact ⟨fun x hx => absurd hx (List.not_mem_nil x), hs⟩
  | cons inID rest ih =>
    intro s vals t hs h
    unfold gatherInputs at h
    split at h
    · exact Except.noConfusion h
    · split at h
      · exact Except.noConfusion h
      · next inVal s1 h1 =>
        obtain ⟨b1, i1⟩ := hev _ _ _ _ hs h1
        split at h
        · exact Except.noConfusion h
        · next vals2 s2 h2 =>
          obtain ⟨b2, i2⟩ := ih _ _ _ i1 h2
          simp only [Except.ok.injEq, Prod.mk.injEq] at h
          rw [← h.1, ← h.2]
          refine ⟨fun x hx => ?_, i2⟩
          rcases List.mem_cons.mp hx with rfl | hx
          · exact b1
          · exact b2 x hx

theorem dfs_bit : ∀ fuel s cur v t, BitInv s → dfs fuel s cur = Except.ok (v, t) →
    (v = 0 ∨ v = 1) ∧ BitInv t := by
  intro fuel
  induction fuel with
  | zero => intro s cur v t _ h; exact Except.noConfusion h
  | succ fuel ih =>
    intro s cur v t hs h
    unfold dfs at h
    split at h
    · exact Except.noConfusion h
    · next n hn =>
      have hder : deref s cur = n := deref_of_getElem? hn
      have hcur := hs cur
      rw [hder] at hcur
      split at h
      · next hflag =>
        simp only [Except.ok.injEq, Prod.mk.injEq] at h
        rw [← h.1, ← h.2]
        exact ⟨hcur.2 hflag, hs⟩
      · split at h
        · next hin =>
          simp only [Except.ok.injEq, Prod.mk.injEq] at h
          rw [← h.1, ← h.2]
          exact ⟨hcur.1 hin, setCached_bitInv hs cur (hcur.1 hin)⟩
        · split at h
          · split at h
            · exact Except.noConfusion h
            · split at h
              · exact Except.noConfusion h
              · split at h
                · exact Except.noConfusion h
                · next v1 s1 h1 =>
                  obtain ⟨b1, i1⟩ := ih _ _ _ _ hs h1
                  simp only [Except.ok.injEq, Prod.mk.injEq] at h
                  rw [← h.1, ← h.2]
                  exact ⟨b1, setCached_bitInv i1 cur b1⟩
          · split at h
            · exact Except.noConfusion h
            · next vals s1 h1 =>
              obtain ⟨b1, i1⟩ := gatherInputs_bit (dfs fuel) ih n.inputs _ _ _ hs h1
              split at h
              · exact Except.noConfusion h
              · next outputValue h2 =>
                have b2 := applyGate_bit _ _ _ b1 h2
                simp only [Except.ok.injEq, Prod.mk.injEq] at h
                rw [← h.1, ← h.2]
                exact ⟨b2, setCached_bitInv i1 cur b2⟩

theorem mem_of_deref_lt {s : List Node} {i : Nat} (h : i < s.length) : deref s i ∈ s :=
  List.getElem?_mem (deref_of_lt h)

/-- C13. On a node array whose INPUT nodes all hold 0 or 1 and whose memo flags are all
cleared, every call of `dfs` that returns, on any node, returns 0 or 1, and afterwards every
`cachedValue` marked valid is 0 or 1. -/
theorem dfs_returns_bit (fuel : Nat) (s : List Node) (cur : Nat) (v : Int) (t : List Node)
    (hin : ∀ n ∈ s, n.type = NodeType.INPUT → n.value = 0 ∨ n.value = 1)
    (hfl : ∀ n ∈ s, n.hasCachedValue = 0)
    (h : dfs fuel s cur = Except.ok (v, t)) :
    (v = 0 ∨ v = 1) ∧
    ∀ n ∈ t, n.hasCachedValue ≠ 0 → n.cachedValue = 0 ∨ n.cachedValue = 1 := by
  have hs : BitInv s := by
    intro i
    by_cases hi : i < s.length
    · exact ⟨hin _ (mem_of_deref_lt hi), fun hne => absurd (hfl _ (mem_of_deref_lt hi)) hne⟩
    · rw [deref_of_ge (Nat.le_of_not_lt hi)]
      exact ⟨fun _ => Or.inl rfl, fun hne => absurd rfl hne⟩
  obtain ⟨b, ht⟩ := dfs_bit fuel s cur v t hs h
  refine ⟨b, fun n hn => ?_⟩
  obtain ⟨j, hj⟩ := List.mem_iff_getElem?.mp hn
  rw [← deref_of_getElem? hj]
  exact (ht j).2

theorem dfs_returns_bit_witness :
    ((0 : Int) = 0 ∨ (0 : Int) = 1) ∧
    ∀ n ∈ setCached (setCached (setCached (setCached exampleNodes 0 0) 1 0) 2 0) 3 0,
      n.hasCachedValue ≠ 0 → n.cachedValue = 0 ∨ n.cachedValue = 1 :=
  dfs_returns_bit 3 exampleNodes 3 0 _ (by decide) (by decide) (by decide)

/-! ## A row does not depend on what earlier rows left behind -/

theorem agreeL_tail {a b : Node} {s t : List Node} (h : AgreeL (a :: s) (b :: t)) :
    Agree a b ∧ AgreeL s t := by
  refine ⟨h.2 0, ?_, fun i => h.2 (i + 1)⟩
  have := h.1
  simpa using this

theorem agreeL_shape {s t : List Node} (h : AgreeL s t) : ShapeL s t :=
  ⟨h.1, fun i => ⟨(h.2 i).1, (h.2 i).2.1, (h.2 i).2.2.1, (h.2 i).2.2.2.1⟩⟩

theorem setCached_agree {s t : List Node} (h : AgreeL s t) (cur : Nat) (v : Int) :
    AgreeL (setCached s cur v) (setCached t cur v) := by
  refine ⟨by rw [setCached_length, setCached_length]; exact h.1, fun i => ?_⟩
  rw [deref_setCached, deref_setCached, ← h.1]
  split
  · exact ⟨(h.2 cur).1, (h.2 cur).2.1, (h.2 cur).2.2.1, rfl, (h.2 cur).2.2.2.2.1, fun _ => rfl⟩
  · exact h.2 i

theorem agreeRes_cases {r1 r2 : Except Err (Int × List Node)} (h : AgreeRes r1 r2) :
    (∃ e, r1 = Except.error e ∧ r2 = Except.error e) ∨
    (∃ v s t, r1 = Except.ok (v, s) ∧ r2 = Except.ok (v, t) ∧ AgreeL s t) := by
  match r1, r2, h with
  | Except.ok (v, s), Except.ok (w, t), h =>
    have h1 : v = w := h.1
    subst h1
    exact Or.inr ⟨v, s, t, rfl, rfl, h.2⟩
  | Except.error e, Except.error e2, h =>
    have h2 : e = e2 := h
    subst h2
    exact Or.inl ⟨e, rfl, rfl⟩

theorem agreeGather_cases {r1 r2 : Except Err (List Int × List Node)}
    (h : AgreeGather r1 r2) :
    (∃ e, r1 = Except.error e ∧ r2 = Except.error e) ∨
    (∃ v s t, r1 = Except.ok (v, s) ∧ r2 = Except.ok (v, t) ∧ AgreeL s t) := by
  match r1, r2, h with
  | Except.ok (v, s), Except.ok (w, t), h =>
    have h1 : v = w := h.1
    subst h1
    exact Or.inr ⟨v, s, t, rfl, rfl, h.2⟩
  | Except.error e, Except.error e2, h =>
    have h2 : e = e2 := h
    subst h2
    exact Or.inl ⟨e, rfl, rfl⟩

theorem gatherInputs_agree (ev : List Node → Nat → Except Err (Int × List Node))
    (hev : ∀ s t j, AgreeL s t → AgreeRes (ev s j) (ev t j)) (ids : List Int) :
    ∀ s t, AgreeL s t → AgreeGather (gatherInputs ev s ids) (gatherInputs ev t ids) := by
  induction ids with
  | nil => intro s t hst; exact ⟨rfl, hst⟩
  | cons inID rest ih =>
    intro s t hst
    simp only [gatherInputs]
    rw [findNodeByID_shape inID s t (agreeL_shape hst)]
    cases findNodeByID t inID with
    | error e => exact rfl
    | ok j =>
      rcases agreeRes_cases (hev s t j hst) with ⟨e, h1, h2⟩ | ⟨v, s1, t1, h1, h2, h3⟩
      · simp only [h1, h2]; exact rfl
      · simp only [h1, h2]
        rcases agreeGather_cases (ih s1 t1 h3) with ⟨e, g1, g2⟩ | ⟨vs, s2, t2, g1, g2, g3⟩
        · simp only [g1, g2]; exact rfl
        · simp only [g1, g2]
          exact ⟨rfl, g3⟩

theorem dfs_agree : ∀ fuel s t cur, AgreeL s t → AgreeRes (dfs fuel s cur) (dfs fuel t cur) := by
  intro fuel
  induction fuel with
  | zero => intro s t cur _; exact rfl
  | succ fuel ih =>
    intro s t cur hst
    by_cases hcur : cur < s.length
    · have hs := deref_of_lt hcur
      have ht := deref_of_lt (hst.1 ▸ hcur)
      obtain ⟨k1, k2, k3, k4, k5, k6⟩ := hst.2 cur
      simp only [dfs, hs, ht]
      rw [← k1, ← k3, ← k4]
      by_cases hflag : (deref s cur).hasCachedValue ≠ 0
      · simp only [if_pos hflag]
        rw [← k6 hflag]
        exact ⟨rfl, hst⟩
      · simp only [if_neg hflag]
        by_cases hin : (deref s cur).type = NodeType.INPUT
        · simp only [if_pos hin]
          rw [← k5 hin]
          exact ⟨rfl, setCached_agree hst _ _⟩
        · simp only [if_neg hin]
          by_cases hout : (deref s cur).type = NodeType.OUTPUT
          · simp only [if_pos hout]
            cases (deref s cur).inputs with
            | nil => exact rfl
            | cons inID rest =>
              simp only []
              rw [findNodeByID_shape inID s t (agreeL_shape hst)]
              cases findNodeByID t inID with
              | error e => exact rfl
              | ok j =>
                rcases agreeRes_cases (ih s t j hst) with ⟨e, h1, h2⟩ | ⟨v, s1, t1, h1, h2, h3⟩
                · simp only [h1, h2]; exact rfl
                · simp only [h1, h2]; exact ⟨rfl, setCached_agree h3 _ _⟩
          · simp only [if_neg hout]
            rcases agreeGather_cases
              (gatherInputs_agree (dfs fuel) ih (deref s cur).inputs s t hst) with
              ⟨e, g1, g2⟩ | ⟨vs, s2, t2, g1, g2, g3⟩
            · simp only [g1, g2]; exact rfl
            · simp only [g1, g2]
              cases applyGate (deref s cur).type vs with
              | error e => exact rfl
              | ok a => exact ⟨rfl, setCached_agree g3 _ _⟩
    · have hs : s[cur]? = none := List.getElem?_eq_none (Nat.le_of_not_lt hcur)
      have ht : t[cur]? = none := List.getElem?_eq_none (hst.1 ▸ Nat.le_of_not_lt hcur)
      simp only [dfs, hs, ht]
      exact rfl

theorem evalOutputs_agree (fuel : Nat) (outs : List Nat) :
    ∀ s t, AgreeL s t →
      (evalOutputs fuel outs s).1 = (evalOutputs fuel outs t).1 ∧
      exitOf (evalOutputs fuel outs s).2 = exitOf (evalOutputs fuel outs t).2 := by
  induction outs with
  | nil => intro s t _; exact ⟨rfl, rfl⟩
  | cons p rest ih =>
    intro s t hst
    simp only [evalOutputs]
    rcases agreeRes_cases (dfs_agree fuel s t p hst) with ⟨e, h1, h2⟩ | ⟨v, s1, t1, h1, h2, h3⟩
    · rw [h1, h2]; exact ⟨rfl, rfl⟩
    · rw [h1, h2]
      obtain ⟨i1, i2⟩ := ih s1 t1 h3
      exact ⟨congrArg (List.cons v) i1, i2⟩

theorem assignInputs_value_mem (c : Nat) (ins : List Nat) (p : Nat) :
    ∀ k s t, s.length = t.length → p ∈ ins → p < s.length →
      (deref (assignInputs c ins k s) p).value = (deref (assignInputs c ins k t) p).value := by
  induction ins with
  | nil => intro k s t _ hp _; exact absurd hp (List.not_mem_nil p)
  | cons q rest ih =>
    intro k s t hlen hp hlt
    rw [assignInputs, assignInputs]
    by_cases hpr : p ∈ rest
    · exact ih _ _ _ (by rw [setValue_length, setValue_length]; exact hlen) hpr
        (by rw [setValue_length]; exact hlt)
    · have hpq : p = q := by
        rcases List.mem_cons.mp hp with h | h
        · exact h
        · exact absurd h hpr
      subst hpq
      rw [assignInputs_value_of_not_mem c rest p hpr, assignInputs_value_of_not_mem c rest p hpr,
        deref_setValue, deref_setValue]
      simp [hlt, hlen ▸ hlt]

theorem prepareRow_agree {s t : List Node} (h : StaticL s t) (ins : List Nat) (c : Nat)
    (hall : ∀ i, i < s.length → (deref s i).type = NodeType.INPUT → i ∈ ins) :
    AgreeL (prepareRow s ins c) (prepareRow t ins c) := by
  have h2 := prepareRow_shape h ins c c
  refine ⟨h2.1, fun i => ⟨(h2.2 i).1, (h2.2 i).2.1, (h2.2 i).2.2.1, (h2.2 i).2.2.2, ?_, ?_⟩⟩
  · intro hty
    by_cases hi : i < s.length
    · have hty2 : (deref s i).type = NodeType.INPUT := by
        rw [((prepareRow_static s ins c).2 i).1]; exact hty
      have := assignInputs_value_mem c ins i 0 s t h.1 (hall i hi hty2) hi
      rw [prepareRow, prepareRow, deref_resetMemo, deref_resetMemo]
      exact this
    · have hge : s.length ≤ i := Nat.le_of_not_lt hi
      rw [deref_of_ge (by rw [prepareRow_length]; exact hge),
        deref_of_ge (by rw [prepareRow_length, ← h.1]; exact hge)]
  · intro hfl
    exact absurd (prepareRow_flag s ins c i) hfl

theorem mem_inputNodes_of_type {nodes : List Node} {i : Nat} (hi : i < nodes.length)
    (hty : (deref nodes i).type = NodeType.INPUT) : i ∈ inputNodes nodes :=
  (qsort_perm _ _).mem_iff.mpr (mem_collectType.mpr ⟨hi, hty⟩)

/-- C11. Let `s` be any node array with the kinds, ids and input lists of the parsed array
`nodes`, whatever its `value`, `cachedValue` and `hasCachedValue` fields hold (the parsed
array itself, or the array left behind by any earlier rows). Computing the row of a
combination `c` from `s` prints the same input bits and output bits, and ends the same way,
as computing it from the parsed array; and the array a computed row leaves behind is again
such an array. -/
theorem row_independent_of_history (fuel : Nat) (nodes s : List Node) (c : Nat)
    (hs : StaticL nodes s) :
    (evalRow fuel (inputNodes nodes) (outputNodes nodes) c s).1 =
      (evalRow fuel (inputNodes nodes) (outputNodes nodes) c nodes).1 ∧
    exitOf (evalRow fuel (inputNodes nodes) (outputNodes nodes) c s).2 =
      exitOf (evalRow fuel (inputNodes nodes) (outputNodes nodes) c nodes).2 ∧
    (∀ s2, (evalRow fuel (inputNodes nodes) (outputNodes nodes) c s).2 = Except.ok s2 →
      StaticL nodes s2) := by
  have hag : AgreeL (prepareRow s (inputNodes nodes) c) (prepareRow nodes (inputNodes nodes) c) :=
    prepareRow_agree (staticL_symm hs) (inputNodes nodes) c (fun i hi hty =>
      mem_inputNodes_of_type (hs.1 ▸ hi) (by rw [(hs.2 i).1]; exact hty))
  obtain ⟨h1, h2⟩ := evalOutputs_agree fuel (outputNodes nodes) _ _ hag
  refine ⟨?_, h2, fun s2 h3 => staticL_trans hs (evalRow_static _ _ _ _ _ _ h3)⟩
  have hin : printInputs (prepareRow s (inputNodes nodes) c) (inputNodes nodes) =
      printInputs (prepareRow nodes (inputNodes nodes) c) (inputNodes nodes) := by
    have hnd : (inputNodes nodes).Nodup := nodup_collectType _ nodes
    rw [printInputs_prepareRow s (inputNodes nodes) c hnd
        (fun p hp => hs.1 ▸ mem_inputNodes_lt hp),
      printInputs_prepareRow nodes (inputNodes nodes) c hnd
        (fun p hp => mem_inputNodes_lt hp)]
  simp only [evalRow]
  rw [hin, h1]

theorem row_independent_of_history_witness :
    (evalRow 3 (inputNodes exampleNodes) (outputNodes exampleNodes) 2
        ((evalRow 3 (inputNodes exampleNodes) (outputNodes exampleNodes) 3
          exampleNodes).2.toOption.getD [])).1 =
      (evalRow 3 (inputNodes exampleNodes) (outputNodes exampleNodes) 2 exampleNodes).1 ∧
    exitOf (evalRow 3 (inputNodes exampleNodes) (outputNodes exampleNodes) 2
        ((evalRow 3 (inputNodes exampleNodes) (outputNodes exampleNodes) 3
          exampleNodes).2.toOption.getD [])).2 =
      exitOf (evalRow 3 (inputNodes exampleNodes) (outputNodes exampleNodes) 2 exampleNodes).2 :=
  ⟨(row_independent_of_history 3 exampleNodes _ 2
      (evalRow_static 3 (inputNodes exampleNodes) (outputNodes exampleNodes) 3 exampleNodes
        ((evalRow 3 (inputNodes exampleNodes) (outputNodes exampleNodes) 3
          exampleNodes).2.toOption.getD []) (by decide))).1,
    (row_independent_of_history 3 exampleNodes _ 2
      (evalRow_static 3 (inputNodes exampleNodes) (outputNodes exampleNodes) 3 exampleNodes
        ((evalRow 3 (inputNodes exampleNodes) (outputNodes exampleNodes) 3
          exampleNodes).2.toOption.getD []) (by decide))).2.1⟩

/-! ## Cycles: the recursion does not end -/

theorem staticL_tail {a b : Node} {s t : List Node} (h : StaticL (a :: s) (b :: t)) :
    Static a b ∧ StaticL s t := by
  refine ⟨h.2 0, ?_, fun i => h.2 (i + 1)⟩
  have := h.1
  simpa using this

theorem findNodeByID_static (ID : Int) :
    ∀ s t, StaticL s t → findNodeByID s ID = findNodeByID t ID := by
  intro s
  induction s with
  | nil =>
    intro t h
    cases t with
    | nil => rfl
    | cons b t => exact absurd h.1 (by simp)
  | cons a s ih =>
    intro t h
    cases t with
    | nil => exact absurd h.1 (by simp)
    | cons b t =>
      have h2 := staticL_tail h
      rw [findNodeByID, findNodeByID, h2.1.2.1, ih t h2.2]

theorem reachesCycle_step {s : List Node} {x : Nat} (h : ReachesCycle s x) :
    ∃ y, Dep s x y ∧ ReachesCycle s y := by
  obtain ⟨c, hxc, hcc⟩ := h
  rcases Relation.ReflTransGen.cases_head hxc with heq | ⟨y, hxy, hyc⟩
  · subst heq
    obtain ⟨y, hxy, hyx⟩ := Relation.TransGen.head'_iff.mp hcc
    exact ⟨y, hxy, x, hyx, hcc⟩
  · exact ⟨y, hxy, c, hyc, hcc⟩

theorem setCached_cycInv {s0 s : List Node} (h : CycInv s0 s) (cur : Nat) (v : Int)
    (hcur : ¬ ReachesCycle s0 cur) : CycInv s0 (setCached s cur v) := by
  refine ⟨staticL_trans h.1 (frameL_static (setCached_frame s cur v)), fun i hi => ?_⟩
  rw [deref_setCached]
  have hne : ¬ (i = cur ∧ cur < s.length) := fun hc => hcur (hc.1 ▸ hi)
  rw [if_neg hne]
  exact h.2 i hi

theorem gatherInputs_cycle (s0 : List Node)
    (ev : List Node → Nat → Except Err (Int × List Node))
    (hev : ∀ s j v t, CycInv s0 s → ev s j = Except.ok (v, t) →
      ¬ ReachesCycle s0 j ∧ CycInv s0 t) (ids : List Int) :
    ∀ s vals t, CycInv s0 s → gatherInputs ev s ids = Except.ok (vals, t) →
      (∀ id ∈ ids, ∀ j, findNodeByID s0 id = Except.ok j → ¬ ReachesCycle s0 j) ∧
        CycInv s0 t := by
  induction ids with
  | nil =>
    intro s vals t hs h
    simp only [gatherInputs, Except.ok.injEq, Prod.mk.injEq] at h
    rw [← h.2]
    exact ⟨fun id hid => absurd hid (List.not_mem_nil id), hs⟩
  | cons inID rest ih =>
    intro s vals t hs h
    unfold gatherInputs at h
    split at h
    · exact Except.noConfusion h
    · next inNode hf =>
      split at h
      · exact Except.noConfusion h
      · next inVal s1 h1 =>
        obtain ⟨b1, i1⟩ := hev _ _ _ _ hs h1
        split at h
        · exact Except.noConfusion h
        · next vals2 s2 h2 =>
          obtain ⟨b2, i2⟩ := ih _ _ _ i1 h2
          simp only [Except.ok.injEq, Prod.mk.injEq] at h
          rw [← h.2]
          refine ⟨fun id hid j hj => ?_, i2⟩
          rcases List.mem_cons.mp hid with rfl | hid
          · rw [findNodeByID_static id s0 s hs.1, hf] at hj
            simp only [Except.ok.injEq] at hj
            rw [← hj]; exact b1
          · exact b2 id hid j hj

theorem dfs_cycle (s0 : List Node) : ∀ fuel s x v t, CycInv s0 s →
    dfs fuel s x = Except.ok (v, t) → ¬ ReachesCycle s0 x ∧ CycInv s0 t := by
  intro fuel
  induction fuel with
  | zero => intro s x v t _ h; exact Except.noConfusion h
  | succ fuel ih =>
    intro s x v t hs h
    unfold dfs at h
    split at h
    · exact Except.noConfusion h
    · next n hn =>
      have hder : deref s x = n := deref_of_getElem? hn
      have hst := hs.1.2 x
      rw [hder] at hst
      split at h
      · next hflag =>
        simp only [Except.ok.injEq, Prod.mk.injEq] at h
        rw [← h.2]
        refine ⟨fun hbad => hflag ?_, hs⟩
        have := hs.2 x hbad
        rw [hder] at this
        exact this
      · split at h
        · next hin =>
          simp only [Except.ok.injEq, Prod.mk.injEq] at h
          rw [← h.2]
          have hnb : ¬ ReachesCycle s0 x := by
            intro hbad
            obtain ⟨y, ⟨id, hid, _⟩, _⟩ := reachesCycle_step hbad
            rw [depIds, if_pos (hst.1.trans hin)] at hid
            exact absurd hid (List.not_mem_nil id)
          exact ⟨hnb, setCached_cycInv hs x _ hnb⟩
        · next hin =>
          split at h
          · next hout =>
            split at h
            · exact Except.noConfusion h
            · next inID tl hinp =>
              split at h
              · exact Except.noConfusion h
              · next inNode hf =>
                split at h
                · exact Except.noConfusion h
                · next v1 s1 h1 =>
                  obtain ⟨b1, i1⟩ := ih _ _ _ _ hs h1
                  simp only [Except.ok.injEq, Prod.mk.injEq] at h
                  rw [← h.2]
                  have hnb : ¬ ReachesCycle s0 x := by
                    intro hbad
                    obtain ⟨y, ⟨id, hid, hfy⟩, hy⟩ := reachesCycle_step hbad
                    rw [depIds, if_neg (fun hc => hin (hst.1 ▸ hc)), if_pos (hst.1.trans hout),
                      hst.2.2, hinp] at hid
                    simp only [List.take_succ_cons, List.take_zero, List.mem_singleton] at hid
                    rw [hid, findNodeByID_static inID s0 s hs.1, hf] at hfy
                    simp only [Except.ok.injEq] at hfy
                    exact b1 (hfy ▸ hy)
                  exact ⟨hnb, setCached_cycInv i1 x _ hnb⟩
          · next hout =>
            split at h
            · exact Except.noConfusion h
            · next vals s1 h1 =>
              obtain ⟨b1, i1⟩ := gatherInputs_cycle s0 (dfs fuel) ih n.inputs _ _ _ hs h1
              split at h
              · exact Except.noConfusion h
              · simp only [Except.ok.injEq, Prod.mk.injEq] at h
                rw [← h.2]
                have hnb : ¬ ReachesCycle s0 x := by
                  intro hbad
                  obtain ⟨y, ⟨id, hid, hfy⟩, hy⟩ := reachesCycle_step hbad
                  rw [depIds, if_neg (fun hc => hin (hst.1 ▸ hc)),
                    if_neg (fun hc => hout (hst.1 ▸ hc)), hst.2.2] at hid
                  exact b1 id hid y hfy hy
                exact ⟨hnb, setCached_cycInv i1 x _ hnb⟩

theorem resolves_ok {s : List Node} {id : Int} (h : resolves s id = true) :
    ∃ j, findNodeByID s id = Except.ok j := by
  unfold resolves at h
  split at h
  · next j hj => exact ⟨j, hj⟩
  · exact absurd h (by simp)

theorem nodeOK_congr (s0 : List Node) (a b : Node) (ht : a.type = b.type)
    (hi : a.inputs = b.inputs) : nodeOK s0 a = nodeOK s0 b := by
  unfold nodeOK badArity
  simp only [ht, hi]

theorem nodeOK_of_static {s0 s : List Node} (hok : graphOK s0 = true) (hs : StaticL s0 s)
    {x : Nat} {n : Node} (hn : s[x]? = some n) : nodeOK s0 n = true := by
  have hx : x < s0.length := hs.1 ▸ lt_length_of_getElem? hn
  have h0 : nodeOK s0 (deref s0 x) = true :=
    List.all_eq_true.mp hok _ (mem_of_deref_lt hx)
  have hst := hs.2 x
  rw [deref_of_getElem? hn] at hst
  rw [← nodeOK_congr s0 _ _ hst.1 hst.2.2]
  exact h0

theorem gate_of_not_terminal {n : Node} (h1 : ¬ n.type = NodeType.INPUT)
    (h2 : ¬ n.type = NodeType.OUTPUT) :
    n.type = NodeType.AND ∨ n.type = NodeType.OR ∨ n.type = NodeType.XOR ∨
      n.type = NodeType.NOT := by
  cases h : n.type <;> simp_all

theorem gatherInputs_only_outOfFuel (s0 : List Node)
    (ev : List Node → Nat → Except Err (Int × List Node))
    (hev : ∀ s j e, StaticL s0 s → j < s.length → ev s j = Except.error e → e = Err.outOfFuel)
    (hfr : ∀ s j v t, ev s j = Except.ok (v, t) → FrameL s t) (ids : List Int) :
    ∀ s e, StaticL s0 s → (∀ id ∈ ids, resolves s0 id = true) →
      gatherInputs ev s ids = Except.error e → e = Err.outOfFuel := by
  induction ids with
  | nil => intro s e _ _ h; exact Except.noConfusion h
  | cons inID rest ih =>
    intro s e hs hres h
    unfold gatherInputs at h
    split at h
    · next e2 hf =>
      obtain ⟨j, hj⟩ := resolves_ok (hres inID (List.mem_cons_self inID rest))
      rw [findNodeByID_static inID s0 s hs, hf] at hj
      exact Except.noConfusion hj
    · next inNode hf =>
      split at h
      · next e2 he =>
        simp only [Except.error.injEq] at h
        rw [← h]
        exact hev _ _ _ hs (findNodeByID_ok inID s inNode hf).1 he
      · next inVal s1 h1 =>
        split at h
        · next e2 he =>
          simp only [Except.error.injEq] at h
          rw [← h]
          exact ih s1 e2 (staticL_trans hs (frameL_static (hfr _ _ _ _ h1)))
            (fun id hid => hres id (List.mem_cons_of_mem inID hid)) he
        · exact Except.noConfusion h

theorem dfs_only_outOfFuel (s0 : List Node) (hok : graphOK s0 = true) :
    ∀ fuel s x e, StaticL s0 s → x < s.length → dfs fuel s x = Except.error e →
      e = Err.outOfFuel := by
  intro fuel
  induction fuel with
  | zero =>
    intro s x e _ _ h
    simp only [dfs, Except.error.injEq] at h
    exact h.symm
  | succ fuel ih =>
    intro s x e hs hx h
    unfold dfs at h
    split at h
    · next hn =>
      rw [deref_of_lt hx] at hn
      exact Option.noConfusion hn
    · next n hn =>
      have hnok := nodeOK_of_static hok hs hn
      split at h
      · exact Except.noConfusion h
      · split at h
        · exact Except.noConfusion h
        · next hin =>
          split at h
          · next hout =>
            rw [nodeOK, if_neg hin, if_pos hout] at hnok
            split at h
            · next hinp =>
              rw [hinp] at hnok
              exact absurd hnok (by simp)
            · next inID tl hinp =>
              rw [hinp] at hnok
              obtain ⟨j, hj⟩ := resolves_ok hnok
              rw [findNodeByID_static inID s0 s hs] at hj
              split at h
              · next e2 hf => rw [hf] at hj; exact Except.noConfusion hj
              · next inNode hf =>
                split at h
                · next e2 he =>
                  simp only [Except.error.injEq] at h
                  rw [← h]
                  exact ih _ _ _ hs (findNodeByID_ok inID s inNode hf).1 he
                · exact Except.noConfusion h
          · next hout =>
            rw [nodeOK, if_neg hin, if_neg hout, Bool.and_eq_true, decide_eq_true_eq,
              List.all_eq_true] at hnok
            split at h
            · next e2 he =>
              simp only [Except.error.injEq] at h
              rw [← h]
              exact gatherInputs_only_outOfFuel s0 (dfs fuel) ih (dfs_frame fuel) n.inputs s e2
                hs hnok.2 he
            · next vals s1 h1 =>
              have hlen := gatherInputs_length (dfs fuel) n.inputs s vals s1 h1
              rw [applyGate_good n vals hlen (gate_of_not_terminal hin hout) hnok.1] at h
              exact Except.noConfusion h

theorem evalOutputs_cycle (s0 : List Node) (hok : graphOK s0 = true) (fuel : Nat) (x : Nat)
    (hbad : ReachesCycle s0 x) :
    ∀ outs s, CycInv s0 s → (∀ p ∈ outs, p < s.length) → x ∈ outs →
      (evalOutputs fuel outs s).2 = Except.error Err.outOfFuel := by
  intro outs
  induction outs with
  | nil => intro s _ _ hx; exact absurd hx (List.not_mem_nil x)
  | cons p rest ih =>
    intro s hs hlt hx
    unfold evalOutputs
    split
    · next e he =>
      rw [dfs_only_outOfFuel s0 hok fuel s p e hs.1 (hlt p (List.mem_cons_self p rest)) he]
    · next result s1 h1 =>
      obtain ⟨b1, i1⟩ := dfs_cycle s0 fuel s p result s1 hs h1
      have hxr : x ∈ rest := by
        rcases List.mem_cons.mp hx with h | h
        · exact absurd (h ▸ hbad) b1
        · exact h
      exact ih s1 i1 (fun q hq => by
        rw [dfs_length h1]; exact hlt q (List.mem_cons_of_mem p hq)) hxr

theorem main_cycle (nodes : List Node) (x : Nat) (fuel : Nat) (hok : graphOK nodes = true)
    (hm : (inputNodes nodes).length < 31) (hx : x ∈ outputNodes nodes)
    (hcyc : ReachesCycle nodes x) :
    (main fuel nodes).exit = some Err.outOfFuel ∧ (main fuel nodes).rows = [] := by
  have hinv : CycInv nodes (prepareRow nodes (inputNodes nodes) 0) :=
    ⟨prepareRow_static nodes _ 0, fun i _ => prepareRow_flag nodes _ 0 i⟩
  have hev : (evalRow fuel (inputNodes nodes) (outputNodes nodes) 0 nodes).2 =
      Except.error Err.outOfFuel :=
    evalOutputs_cycle nodes hok fuel x hcyc (outputNodes nodes) _ hinv
      (fun p hp => by rw [prepareRow_length]; exact mem_outputNodes_lt hp) hx
  have hpos : 2 ^ (inputNodes nodes).length = (2 ^ (inputNodes nodes).length - 1) + 1 := by
    have : 0 < 2 ^ (inputNodes nodes).length := Nat.pow_pos (by decide)
    omega
  have h := rowsLoop_succ_error (2 ^ (inputNodes nodes).length - 1) hev
  rw [← hpos] at h
  rw [main_of_some (numCombinations_of_lt hm), h]
  exact ⟨rfl, rfl⟩

theorem cyclicNodes_reachesCycle : ReachesCycle cyclicNodes 3 :=
  ⟨1, Relation.ReflTransGen.single (⟨2, by decide, by decide⟩ : Dep cyclicNodes 3 1),
    Relation.TransGen.head (⟨3, by decide, by decide⟩ : Dep cyclicNodes 1 2)
      (Relation.TransGen.single (⟨2, by decide, by decide⟩ : Dep cyclicNodes 2 1))⟩

/-- C16, as the code has it. In a node array with fewer than 31 INPUT nodes and no arity or
reference defect, in which an OUTPUT node reaches a cycle through the input ids `dfs`
follows, the cycle is not detected: whatever the recursion bound, the evaluation of the
first row exhausts it (the recursion of `dfs` does not end), no error of the program is
reported and no row is printed in full. -/
theorem cycle_not_detected (nodes : List Node) (x : Nat) (hok : graphOK nodes = true)
    (hm : (inputNodes nodes).length < 31) (hx : x ∈ outputNodes nodes)
    (hcyc : ReachesCycle nodes x) :
    ∀ fuel, (main fuel nodes).exit = some Err.outOfFuel ∧ (main fuel nodes).rows = [] :=
  fun fuel => main_cycle nodes x fuel hok hm hx hcyc

theorem cycle_not_detected_witness :
    (main 50 cyclicNodes).exit = some Err.outOfFuel ∧ (main 50 cyclicNodes).rows = [] :=
  cycle_not_detected cyclicNodes 3 (by decide) (by decide) (by decide)
    cyclicNodes_reachesCycle 50

/-- C16, counterexample. In `cyclicNodes` the OUTPUT node reads the AND gate, which reads
the NOT gate, which reads the AND gate again. No cycle error is reported: for every
recursion bound the run exhausts it during the first row, and that outcome carries no
message of the program. -/
theorem cyclic_graph_recurses :
    ReachesCycle cyclicNodes 3 ∧ (3 ∈ outputNodes cyclicNodes) ∧
    (∀ fuel, (main fuel cyclicNodes).exit = some Err.outOfFuel) ∧
    errMessage Err.outOfFuel = "" :=
  ⟨cyclicNodes_reachesCycle, by decide,
    fun fuel => (main_cycle cyclicNodes 3 fuel (by decide) (by decide) (by decide)
      cyclicNodes_reachesCycle).1, rfl⟩

/-! ## `parseFile`: content outside a stanza, unclosed blocks -/

theorem foldl_append_string (l : List String) :
    ∀ acc : String, List.foldl (fun r s => r ++ s) acc l =
      acc ++ List.foldl (fun r s => r ++ s) "" l := by
  induction l with
  | nil => intro acc; simp
  | cons a l ih =>
    intro acc
    rw [List.foldl_cons, List.foldl_cons, ih (acc ++ a), ih ("" ++ a), String.empty_append,
      String.append_assoc]

theorem join_cons (a : String) (l : List String) :
    String.join (a :: l) = a ++ String.join l := by
  unfold String.join
  rw [List.foldl_cons, foldl_append_string l ("" ++ a), String.empty_append]

theorem intercalate_go (s : String) (l : List String) :
    ∀ acc, String.intercalate.go acc s l = acc ++ String.join (l.map (fun a => s ++ a)) := by
  induction l with
  | nil => intro acc; simp [String.intercalate.go, String.join]
  | cons a l ih =>
    intro acc
    rw [String.intercalate.go, ih, List.map_cons, join_cons, String.append_assoc,
      String.append_assoc, String.append_assoc]

theorem intercalate_cons (s a : String) (l : List String) :
    String.intercalate s (a :: l) = a ++ String.join (l.map (fun b => s ++ b)) := by
  rw [String.intercalate, intercalate_go]

theorem intercalate_cons_cons (s a b : String) (l : List String) :
    String.intercalate s (a :: b :: l) = a ++ s ++ String.intercalate s (b :: l) := by
  rw [intercalate_cons, intercalate_cons, List.map_cons, join_cons, String.append_assoc,
    String.append_assoc]

theorem fmtEach_bar (xs : List Int) (h : xs ≠ []) :
    fmtEach xs ++ "| " = fmtSep xs ++ " | " := by
  induction xs with
  | nil => exact absurd rfl h
  | cons a l ih =>
    cases l with
    | nil =>
      simp only [fmtEach, fmtSep, List.map_cons, List.map_nil, join_cons, intercalate_cons]
      simp only [String.join, List.foldl_nil, String.append_empty, String.append_assoc]
      rfl
    | cons b l =>
      have ih2 := ih (List.cons_ne_nil b l)
      simp only [fmtEach, fmtSep, List.map_cons, join_cons, intercalate_cons_cons,
        String.append_assoc] at ih2 ⊢
      rw [ih2]

theorem codeLine_eq_specLine (xs ys : List Int) (h : xs ≠ []) :
    codeLine xs ys = specLine xs ys := by
  unfold codeLine specLine
  rw [fmtEach_bar xs h]
  rfl

theorem render_of_exit_none (r : Run) (h : r.exit = none) (r0 : Row) (rest : List Row)
    (hrows : r.rows = r0 :: rest) :
    render r = String.intercalate "\n"
      (codeLine (r.headerInputs.map (fun i => toInt32 i))
        (r.headerOutputs.map (fun i => toInt32 i)) ::
        r.rows.map (fun row => codeLine row.inputBits row.outputBits)) := by
  unfold render
  rw [h, hrows]
  simp only [List.map_cons, intercalate_cons_cons]
  rfl

/-- C15, as the code has it. For a node array with `m < 31` INPUT nodes whose output nodes
evaluate without error, the text written is the header line and one line per combination,
in ascending combination order, separated by newlines with nothing after the last line;
every line is made of its input items each followed by a blank, then `| `, then its output
items separated by single blanks (ids in the header, bits in the rows). With at least one
INPUT node this is the layout of the specification: input items separated by single blanks,
then ` | `, then the output items. -/
theorem output_layout (fuel : Nat) (nodes : List Node) (c0 : Nat) (s0 : List Node)
    (hm : (inputNodes nodes).length < 31)
    (hok : (evalRow fuel (inputNodes nodes) (outputNodes nodes) c0 nodes).2 = Except.ok s0) :
    render (main fuel nodes) = String.intercalate "\n"
      (codeLine ((main fuel nodes).headerInputs.map (fun i => toInt32 i))
        ((main fuel nodes).headerOutputs.map (fun i => toInt32 i)) ::
        (main fuel nodes).rows.map (fun row => codeLine row.inputBits row.outputBits)) ∧
    (main fuel nodes).rows.map (fun row => row.combination) =
      List.range (2 ^ (inputNodes nodes).length) ∧
    (main fuel nodes).headerInputs = (inputNodes nodes).map (fun p => (deref nodes p).uniqueID) ∧
    (main fuel nodes).headerOutputs =
      (outputNodes nodes).map (fun p => (deref nodes p).uniqueID) ∧
    (1 ≤ (inputNodes nodes).length → render (main fuel nodes) = specText (main fuel nodes)) := by
  obtain ⟨h1, h2, h3⟩ := main_complete fuel nodes c0 s0 hm hok
  have hlen : (main fuel nodes).rows.length = 2 ^ (inputNodes nodes).length := by
    have := congrArg List.length h3
    simpa using this
  have hpos : 0 < 2 ^ (inputNodes nodes).length := Nat.pow_pos (by decide)
  have hhead : (main fuel nodes).headerInputs =
      (inputNodes nodes).map (fun p => (deref nodes p).uniqueID) := by
    rw [main_of_some (numCombinations_of_lt hm)]
  have hheadO : (main fuel nodes).headerOutputs =
      (outputNodes nodes).map (fun p => (deref nodes p).uniqueID) := by
    rw [main_of_some (numCombinations_of_lt hm)]
  cases hrows : (main fuel nodes).rows with
  | nil => rw [hrows] at hlen; simp at hlen; omega
  | cons r0 rest =>
    have hr := render_of_exit_none (main fuel nodes) h1 r0 rest hrows
    rw [hrows] at hr
    refine ⟨hr, ?_, hhead, hheadO, ?_⟩
    · rw [← hrows]; exact h3
    · intro hm1
      rw [hr, specText, hrows]
      have hne : (main fuel nodes).headerInputs.map (fun i => toInt32 i) ≠ [] := by
        rw [hhead]
        apply List.ne_nil_of_length_pos
        rw [List.length_map, List.length_map]
        omega
      rw [codeLine_eq_specLine _ _ hne]
      have hrowsEq : ∀ row ∈ r0 :: rest,
          codeLine row.inputBits row.outputBits = specLine row.inputBits row.outputBits := by
        intro row hrow
        apply codeLine_eq_specLine
        obtain ⟨j, hj⟩ := List.mem_iff_getElem?.mp hrow
        have hst := main_rows_started fuel nodes j row
          (by rw [h2, hrows]; simpa [Option.toList] using hj)
        rw [hst.2]
        apply List.ne_nil_of_length_pos
        unfold bitsOf
        rw [List.length_map, List.length_range]
        omega
      rw [List.map_congr_left hrowsEq]

theorem output_layout_witness :
    render (main 3 exampleNodes) = specText (main 3 exampleNodes) :=
  (output_layout 3 exampleNodes 0
    ((evalRow 3 (inputNodes exampleNodes) (outputNodes exampleNodes) 0
      exampleNodes).2.toOption.getD [])
    (by decide) (by decide)).2.2.2.2 (by decide)

/-- C15, counterexample. A file holding only the outer block parses to the empty node
array; it is evaluated without error, and the text written is `| ` on both lines, not
` | `: without INPUT nodes no blank precedes the bar. -/
theorem output_layout_without_inputs :
    parseFile (fun _ n => Except.ok n) "\x7b\n\x7d\n".data = Except.ok [] ∧
    (main 1 []).exit = none ∧ render (main 1 []) = "| \n| " ∧
    specText (main 1 []) = " | \n | " ∧ render (main 1 []) ≠ specText (main 1 []) := by
  decide

/-! ## Memoization does not change results -/

theorem gatherPure_mono (ev ev2 : Nat → Except Err Int) (s : List Node)
    (h : ∀ j v, ev j = Except.ok v → ev2 j = Except.ok v) (ids : List Int) :
    ∀ vals, gatherPure ev s ids = Except.ok vals → gatherPure ev2 s ids = Except.ok vals := by
  induction ids with
  | nil => intro vals hv; exact hv
  | cons inID rest ih =>
    intro vals
    simp only [gatherPure]
    cases findNodeByID s inID with
    | error e => intro hv; exact Except.noConfusion hv
    | ok inNode =>
      simp only
      cases he : ev inNode with
      | error e => intro hv; exact Except.noConfusion hv
      | ok inVal =>
        rw [h _ _ he]
        simp only
        cases hg : gatherPure ev s rest with
        | error e => intro hv; exact Except.noConfusion hv
        | ok vals2 =>
          rw [ih _ hg]
          exact id

theorem evalPure_succ : ∀ fuel s x v, evalPure fuel s x = Except.ok v →
    evalPure (fuel + 1) s x = Except.ok v := by
  intro fuel
  induction fuel with
  | zero => intro s x v h; exact Except.noConfusion h
  | succ fuel ih =>
    intro s x v
    rw [evalPure, evalPure]
    cases s[x]? with
    | none => intro h; exact Except.noConfusion h
    | some n =>
      simp only
      by_cases hin : n.type = NodeType.INPUT
      · rw [if_pos hin, if_pos hin]; exact id
      · rw [if_neg hin, if_neg hin]
        by_cases hout : n.type = NodeType.OUTPUT
        · rw [if_pos hout, if_pos hout]
          cases n.inputs with
          | nil => intro h; exact Except.noConfusion h
          | cons inID tl =>
            simp only
            cases findNodeByID s inID with
            | error e => intro h; exact Except.noConfusion h
            | ok inNode => exact ih _ _ _
        · rw [if_neg hout, if_neg hout]
          cases hg : gatherPure (evalPure fuel s) s n.inputs with
          | error e => intro h; exact Except.noConfusion h
          | ok vals =>
            rw [gatherPure_mono _ _ s (fun j w hw => ih s j w hw) _ _ hg]
            exact id

theorem evalPure_mono {fuel fuel2 : Nat} {s : List Node} {x : Nat} {v : Int}
    (h : evalPure fuel s x = Except.ok v) (hle : fuel ≤ fuel2) :
    evalPure fuel2 s x = Except.ok v := by
  induction hle with
  | refl => exact h
  | step _ ih => exact evalPure_succ _ _ _ _ ih

theorem pureVal_unique {s0 : List Node} {i : Nat} {v w : Int} (h1 : PureVal s0 i v)
    (h2 : PureVal s0 i w) : v = w := by
  obtain ⟨f1, e1⟩ := h1
  obtain ⟨f2, e2⟩ := h2
  have a := evalPure_mono e1 (Nat.le_max_left f1 f2)
  have b := evalPure_mono e2 (Nat.le_max_right f1 f2)
  rw [a] at b
  simpa using b

theorem setCached_memoInv {s0 s : List Node} (h : MemoInv s0 s) (cur : Nat) {v : Int}
    (hv : PureVal s0 cur v) : MemoInv s0 (setCached s cur v) := by
  refine ⟨frameL_trans h.1 (setCached_frame s cur v), fun i => ?_⟩
  rw [deref_setCached]
  split
  · next hi => intro _; rw [hi.1]; exact hv
  · exact h.2 i

theorem gatherInputs_pure (s0 : List Node)
    (ev : List Node → Nat → Except Err (Int × List Node))
    (hev : ∀ s j v t, MemoInv s0 s → ev s j = Except.ok (v, t) →
      PureVal s0 j v ∧ MemoInv s0 t) (ids : List Int) :
    ∀ s vals t, MemoInv s0 s → gatherInputs ev s ids = Except.ok (vals, t) →
      (∃ F, gatherPure (evalPure F s0) s0 ids = Except.ok vals) ∧ MemoInv s0 t := by
  induction ids with
  | nil =>
    intro s vals t hs h
    simp only [gatherInputs, Except.ok.injEq, Prod.mk.injEq] at h
    rw [← h.1, ← h.2]
    exact ⟨⟨0, rfl⟩, hs⟩
  | cons inID rest ih =>
    intro s vals t hs h
    unfold gatherInputs at h
    split at h
    · exact Except.noConfusion h
    · next inNode hf =>
      split at h
      · exact Except.noConfusion h
      · next inVal s1 h1 =>
        obtain ⟨⟨f1, e1⟩, i1⟩ := hev _ _ _ _ hs h1
        split at h
        · exact Except.noConfusion h
        · next vals2 s2 h2 =>
          obtain ⟨⟨F2, e2⟩, i2⟩ := ih _ _ _ i1 h2
          simp only [Except.ok.injEq, Prod.mk.injEq] at h
          rw [← h.1, ← h.2]
          refine ⟨⟨max f1 F2, ?_⟩, i2⟩
          have hf0 : findNodeByID s0 inID = Except.ok inNode := by
            rw [findNodeByID_static inID s0 s (frameL_static hs.1)]; exact hf
          have e1m := evalPure_mono e1 (Nat.le_max_left f1 F2)
          have e2m := gatherPure_mono (evalPure F2 s0) (evalPure (max f1 F2) s0) s0
            (fun j w hw => evalPure_mono hw (Nat.le_max_right f1 F2)) rest vals2 e2
          simp only [gatherPure, hf0, e1m, e2m]

theorem dfs_pure (s0 : List Node) : ∀ fuel s x v t, MemoInv s0 s →
    dfs fuel s x = Except.ok (v, t) → PureVal s0 x v ∧ MemoInv s0 t := by
  intro fuel
  induction fuel with
  | zero => intro s x v t _ h; exact Except.noConfusion h
  | succ fuel ih =>
    intro s x v t hs h
    unfold dfs at h
    split at h
    · exact Except.noConfusion h
    · next n hn =>
      have hder : deref s x = n := deref_of_getElem? hn
      have hx0 : x < s0.length := hs.1.1 ▸ lt_length_of_getElem? hn
      have h0 := deref_of_lt hx0
      have hfr := hs.1.2 x
      rw [hder] at hfr
      split at h
      · next hflag =>
        simp only [Except.ok.injEq, Prod.mk.injEq] at h
        rw [← h.1, ← h.2]
        have := hs.2 x (by rw [hder]; exact hflag)
        rw [hder] at this
        exact ⟨this, hs⟩
      · split at h
        · next hin =>
          simp only [Except.ok.injEq, Prod.mk.injEq] at h
          rw [← h.1, ← h.2]
          have hp : PureVal s0 x n.value := by
            refine ⟨1, ?_⟩
            rw [evalPure, h0]
            simp only
            rw [if_pos (hfr.1.trans hin), hfr.2.2.2.2]
          exact ⟨hp, setCached_memoInv hs x hp⟩
        · next hin =>
          have hin0 : ¬ (deref s0 x).type = NodeType.INPUT := fun hc => hin (hfr.1 ▸ hc)
          split at h
          · next hout =>
            split at h
            · exact Except.noConfusion h
            · next inID tl hinp =>
              split at h
              · exact Except.noConfusion h
              · next inNode hf =>
                split at h
                · exact Except.noConfusion h
                · next v1 s1 h1 =>
                  obtain ⟨⟨f1, e1⟩, i1⟩ := ih _ _ _ _ hs h1
                  simp only [Except.ok.injEq, Prod.mk.injEq] at h
                  rw [← h.1, ← h.2]
                  have hp : PureVal s0 x v1 := by
                    refine ⟨f1 + 1, ?_⟩
                    rw [evalPure, h0]
                    simp only
                    rw [if_neg hin0, if_pos (hfr.1.trans hout), hfr.2.2.1, hinp]
                    simp only
                    rw [findNodeByID_static inID s0 s (frameL_static hs.1), hf]
                    exact e1
                  exact ⟨hp, setCached_memoInv i1 x hp⟩
          · next hout =>
            have hout0 : ¬ (deref s0 x).type = NodeType.OUTPUT := fun hc => hout (hfr.1 ▸ hc)
            split at h
            · exact Except.noConfusion h
            · next vals s1 h1 =>
              obtain ⟨⟨F, e1⟩, i1⟩ := gatherInputs_pure s0 (dfs fuel) ih n.inputs _ _ _ hs h1
              split at h
              · exact Except.noConfusion h
              · next outputValue h2 =>
                simp only [Except.ok.injEq, Prod.mk.injEq] at h
                rw [← h.1, ← h.2]
                have hp : PureVal s0 x outputValue := by
                  refine ⟨F + 1, ?_⟩
                  rw [evalPure, h0]
                  simp only
                  rw [if_neg hin0, if_neg hout0, hfr.2.2.1, e1, hfr.1]
                  exact h2
                exact ⟨hp, setCached_memoInv i1 x hp⟩

theorem dep_lt_length {s : List Node} {a b : Nat} (h : Dep s a b) :
    a < s.length ∧ b < s.length := by
  obtain ⟨id, hid, hf⟩ := h
  refine ⟨?_, (findNodeByID_ok id s b hf).1⟩
  by_contra hc
  rw [deref_of_ge (Nat.le_of_not_lt hc)] at hid
  exact absurd hid (by simp [depIds, createNode])

theorem acyclic_of_rankOK (rank : Nat → Nat) (s : List Node) (h : rankOK rank s = true) :
    Acyclic s := by
  have hstep : ∀ a b, Dep s a b → rank b < rank a := by
    intro a b hd
    have ha := (dep_lt_length hd).1
    obtain ⟨id, hid, hf⟩ := hd
    have h1 := List.all_eq_true.mp h a (List.mem_range.mpr ha)
    have h2 := List.all_eq_true.mp h1 id hid
    rw [hf] at h2
    simpa using h2
  have htrans : ∀ a b, Relation.TransGen (Dep s) a b → rank b < rank a := by
    intro a b hab
    induction hab with
    | single h1 => exact hstep _ _ h1
    | tail _ h2 ih => exact Nat.lt_trans (hstep _ _ h2) ih
  intro c hc
  exact Nat.lt_irrefl _ (htrans c c hc)

theorem dep_wf (s0 : List Node) (hac : Acyclic s0) :
    WellFounded (fun (y x : Fin s0.length) => Relation.TransGen (Dep s0) x.val y.val) := by
  haveI : IsTrans (Fin s0.length)
      (fun (y x : Fin s0.length) => Relation.TransGen (Dep s0) x.val y.val) :=
    ⟨fun a b c hab hbc => Relation.TransGen.trans hbc hab⟩
  haveI : IsIrrefl (Fin s0.length)
      (fun (y x : Fin s0.length) => Relation.TransGen (Dep s0) x.val y.val) :=
    ⟨fun a ha => hac a.val ha⟩
  exact Finite.wellFounded_of_trans_of_irrefl _

theorem terminates_bound (s0 : List Node) (ids : List Int) :
    (∀ id ∈ ids, ∀ j, findNodeByID s0 id = Except.ok j → Terminates s0 j) →
    ∃ F, ∀ id ∈ ids, ∀ j, findNodeByID s0 id = Except.ok j →
      ∀ fuel, F ≤ fuel → ∀ s, StaticL s0 s → ∃ v t, dfs fuel s j = Except.ok (v, t) := by
  induction ids with
  | nil => intro _; exact ⟨0, fun id hid => absurd hid (List.not_mem_nil id)⟩
  | cons a rest ih =>
    intro h
    obtain ⟨F2, hF2⟩ := ih (fun id hid => h id (List.mem_cons_of_mem a hid))
    cases hf : findNodeByID s0 a with
    | error e =>
      refine ⟨F2, fun id hid j hj => ?_⟩
      rcases List.mem_cons.mp hid with rfl | hid
      · rw [hf] at hj; exact Except.noConfusion hj
      · exact hF2 id hid j hj
    | ok k =>
      obtain ⟨F1, hF1⟩ := h a (List.mem_cons_self a rest) k hf
      refine ⟨max F1 F2, fun id hid j hj fuel hfuel => ?_⟩
      rcases List.mem_cons.mp hid with rfl | hid
      · rw [hf] at hj
        simp only [Except.ok.injEq] at hj
        rw [← hj]
        exact hF1 fuel (Nat.le_trans (Nat.le_max_left F1 F2) hfuel)
      · exact hF2 id hid j hj fuel (Nat.le_trans (Nat.le_max_right F1 F2) hfuel)

theorem gatherInputs_total (s0 : List Node)
    (ev : List Node → Nat → Except Err (Int × List Node))
    (hfr : ∀ s j v t, ev s j = Except.ok (v, t) → FrameL s t) (ids : List Int) :
    (∀ id ∈ ids, resolves s0 id = true) →
    (∀ id ∈ ids, ∀ j, findNodeByID s0 id = Except.ok j →
      ∀ s, StaticL s0 s → ∃ v t, ev s j = Except.ok (v, t)) →
    ∀ s, StaticL s0 s → ∃ vals t, gatherInputs ev s ids = Except.ok (vals, t) := by
  induction ids with
  | nil => intro _ _ s _; exact ⟨[], s, rfl⟩
  | cons a rest ih =>
    intro hres hev s hs
    obtain ⟨j, hj⟩ := resolves_ok (hres a (List.mem_cons_self a rest))
    obtain ⟨v, s1, h1⟩ := hev a (List.mem_cons_self a rest) j hj s hs
    have hs1 : StaticL s0 s1 := staticL_trans hs (frameL_static (hfr _ _ _ _ h1))
    obtain ⟨vals, t, h2⟩ := ih (fun id hid => hres id (List.mem_cons_of_mem a hid))
      (fun id hid => hev id (List.mem_cons_of_mem a hid)) s1 hs1
    refine ⟨v :: vals, t, ?_⟩
    rw [gatherInputs, ← findNodeByID_static a s0 s hs, hj]
    simp only [h1, h2]

theorem dfs_terminates (s0 : List Node) (hok : graphOK s0 = true) (hac : Acyclic s0) :
    ∀ x : Fin s0.length, Terminates s0 x.val := by
  intro x
  refine WellFounded.induction (C := fun y : Fin s0.length => Terminates s0 y.val)
    (dep_wf s0 hac) x ?_
  intro x ih
  have hx0 : x.val < s0.length := x.isLt
  have hnok0 : nodeOK s0 (deref s0 x.val) = true :=
    List.all_eq_true.mp hok _ (mem_of_deref_lt hx0)
  have hdep : ∀ id ∈ depIds (deref s0 x.val), ∀ j, findNodeByID s0 id = Except.ok j →
      Terminates s0 j := by
    intro id hid j hj
    have hdj : Dep s0 x.val j := ⟨id, hid, hj⟩
    exact ih ⟨j, (dep_lt_length hdj).2⟩ (Relation.TransGen.single hdj)
  obtain ⟨F, hF⟩ := terminates_bound s0 _ hdep
  refine ⟨F + 1, fun fuel hfuel s hs => ?_⟩
  obtain ⟨k, rfl⟩ : ∃ k, fuel = k + 1 := ⟨fuel - 1, by omega⟩
  have hk : F ≤ k := by omega
  have hxs : x.val < s.length := hs.1 ▸ hx0
  have hst := hs.2 x.val
  rw [dfs, deref_of_lt hxs]
  simp only
  by_cases hflag : (deref s x.val).hasCachedValue ≠ 0
  · rw [if_pos hflag]; exact ⟨_, _, rfl⟩
  · rw [if_neg hflag]
    by_cases hin : (deref s x.val).type = NodeType.INPUT
    · rw [if_pos hin]; exact ⟨_, _, rfl⟩
    · rw [if_neg hin]
      have hin0 : ¬ (deref s0 x.val).type = NodeType.INPUT := fun hc => hin (hst.1 ▸ hc)
      by_cases hout : (deref s x.val).type = NodeType.OUTPUT
      · rw [if_pos hout]
        have hout0 : (deref s0 x.val).type = NodeType.OUTPUT := hst.1.trans hout
        rw [nodeOK, if_neg hin0, if_pos hout0] at hnok0
        rw [← hst.2.2]
        cases hinp : (deref s0 x.val).inputs with
        | nil => rw [hinp] at hnok0; exact absurd hnok0 (by simp)
        | cons inID tl =>
          rw [hinp] at hnok0
          obtain ⟨j, hj⟩ := resolves_ok hnok0
          simp only
          rw [← findNodeByID_static inID s0 s hs, hj]
          simp only
          have hmem : inID ∈ depIds (deref s0 x.val) := by
            rw [depIds, if_neg hin0, if_pos hout0, hinp]
            simp
          obtain ⟨v, t, h1⟩ := hF inID hmem j hj k hk s hs
          rw [h1]
          exact ⟨_, _, rfl⟩
      · rw [if_neg hout]
        have hout0 : ¬ (deref s0 x.val).type = NodeType.OUTPUT := fun hc => hout (hst.1 ▸ hc)
        rw [nodeOK, if_neg hin0, if_neg hout0, Bool.and_eq_true, decide_eq_true_eq,
          List.all_eq_true] at hnok0
        have hdeps : depIds (deref s0 x.val) = (deref s0 x.val).inputs := by
          rw [depIds, if_neg hin0, if_neg hout0]
        rw [hdeps] at hF
        obtain ⟨vals, s1, h1⟩ := gatherInputs_total s0 (dfs k) (dfs_frame k)
          (deref s0 x.val).inputs hnok0.2 (fun id hid j hj s2 hs2 => hF id hid j hj k hk s2 hs2)
          s hs
        rw [← hst.2.2, h1]
        simp only
        have hlen := gatherInputs_length (dfs k) _ s vals s1 h1
        rw [← hst.1, applyGate_good (deref s0 x.val) vals hlen
          (gate_of_not_terminal hin0 hout0) hnok0.1]
        exact ⟨_, _, rfl⟩

theorem memoInv_refl (s : List Node) (hfl : ∀ n ∈ s, n.hasCachedValue = 0) : MemoInv s s := by
  refine ⟨frameL_refl s, fun i hne => ?_⟩
  by_cases hi : i < s.length
  · exact absurd (hfl _ (mem_of_deref_lt hi)) hne
  · rw [deref_of_ge (Nat.le_of_not_lt hi)] at hne
    exact absurd rfl hne

theorem dfs_refines_at (s0 : List Node) (hok : graphOK s0 = true) (hac : Acyclic s0)
    (hfl : ∀ n ∈ s0, n.hasCachedValue = 0) (x : Nat) (hx : x < s0.length) :
    ∃ F v, ∀ fuel, F ≤ fuel →
      evalPure fuel s0 x = Except.ok v ∧
      ∀ s, MemoInv s0 s → ∃ t, dfs fuel s x = Except.ok (v, t) ∧ MemoInv s0 t := by
  obtain ⟨F1, hF1⟩ := dfs_terminates s0 hok hac ⟨x, hx⟩
  obtain ⟨v0, t0, h0⟩ := hF1 F1 (Nat.le_refl F1) s0 (staticL_refl s0)
  obtain ⟨⟨f0, e0⟩, _⟩ := dfs_pure s0 F1 s0 x v0 t0 (memoInv_refl s0 hfl) h0
  refine ⟨max F1 f0, v0, fun fuel hfuel => ⟨evalPure_mono e0
    (Nat.le_trans (Nat.le_max_right F1 f0) hfuel), fun s hs => ?_⟩⟩
  obtain ⟨v, t, h1⟩ := hF1 fuel (Nat.le_trans (Nat.le_max_left F1 f0) hfuel) s
    (frameL_static hs.1)
  obtain ⟨hp, ht⟩ := dfs_pure s0 fuel s x v t hs h1
  have hv : v = v0 := pureVal_unique hp ⟨f0, e0⟩
  subst hv
  exact ⟨t, h1, ht⟩

theorem evalOutputs_refines (s0 : List Node) (hok : graphOK s0 = true) (hac : Acyclic s0)
    (hfl : ∀ n ∈ s0, n.hasCachedValue = 0) (outs : List Nat) :
    (∀ p ∈ outs, p < s0.length) →
    ∃ F, ∀ fuel, F ≤ fuel → ∀ s, MemoInv s0 s →
      (∃ t, (evalOutputs fuel outs s).2 = Except.ok t) ∧
      (evalOutputs fuel outs s).1.map Except.ok = outs.map (evalPure fuel s0) := by
  induction outs with
  | nil => intro _; exact ⟨0, fun fuel _ s _ => ⟨⟨s, rfl⟩, rfl⟩⟩
  | cons p rest ih =>
    intro hlt
    obtain ⟨F1, v, h1⟩ := dfs_refines_at s0 hok hac hfl p (hlt p (List.mem_cons_self p rest))
    obtain ⟨F2, h2⟩ := ih (fun q hq => hlt q (List.mem_cons_of_mem p hq))
    refine ⟨max F1 F2, fun fuel hfuel s hs => ?_⟩
    obtain ⟨e1, d1⟩ := h1 fuel (Nat.le_trans (Nat.le_max_left F1 F2) hfuel)
    obtain ⟨t, ht, hinv⟩ := d1 s hs
    obtain ⟨⟨t2, ht2⟩, hvals⟩ := h2 fuel (Nat.le_trans (Nat.le_max_right F1 F2) hfuel) t hinv
    rw [evalOutputs, ht]
    refine ⟨⟨t2, ht2⟩, ?_⟩
    rw [List.map_cons, List.map_cons, hvals, e1]

/-- C19. In a node array without arity or reference defect and without cycle, with all memo
flags cleared: for every node there is a recursion bound from which on `dfs` returns a value
and the un-memoized evaluation `evalPure` returns the same value; the same holds for a whole
list of nodes evaluated one after the other with the cached values carried over (the loop
over the output nodes of a row); and after any call of `dfs` that returns, every cached
value marked valid is the un-memoized value of its node. -/
theorem memoization_preserves_values (s : List Node) (hok : graphOK s = true)
    (hac : Acyclic s) (hfl : ∀ n ∈ s, n.hasCachedValue = 0) :
    (∀ x, x < s.length → ∃ F v, ∀ fuel, F ≤ fuel →
      (∃ t, dfs fuel s x = Except.ok (v, t)) ∧ evalPure fuel s x = Except.ok v) ∧
    (∀ outs : List Nat, (∀ p ∈ outs, p < s.length) → ∃ F, ∀ fuel, F ≤ fuel →
      (∃ t, (evalOutputs fuel outs s).2 = Except.ok t) ∧
      (evalOutputs fuel outs s).1.map Except.ok = outs.map (evalPure fuel s)) ∧
    (∀ fuel x v t, dfs fuel s x = Except.ok (v, t) →
      ∀ i, (deref t i).hasCachedValue ≠ 0 →
        ∃ fuel2, evalPure fuel2 s i = Except.ok (deref t i).cachedValue) := by
  refine ⟨fun x hx => ?_, fun outs hlt => ?_, fun fuel x v t h i hi => ?_⟩
  · obtain ⟨F, v, h⟩ := dfs_refines_at s hok hac hfl x hx
    refine ⟨F, v, fun fuel hfuel => ?_⟩
    obtain ⟨e1, d1⟩ := h fuel hfuel
    obtain ⟨t, ht, _⟩ := d1 s (memoInv_refl s hfl)
    exact ⟨⟨t, ht⟩, e1⟩
  · obtain ⟨F, h⟩ := evalOutputs_refines s hok hac hfl outs hlt
    exact ⟨F, fun fuel hfuel => h fuel hfuel s (memoInv_refl s hfl)⟩
  · exact (dfs_pure s fuel s x v t (memoInv_refl s hfl) h).2.2 i hi

theorem memoization_preserves_values_witness :
    ∃ F v, ∀ fuel, F ≤ fuel →
      (∃ t, dfs fuel (prepareRow exampleNodes (inputNodes exampleNodes) 3) 3 =
        Except.ok (v, t)) ∧
      evalPure fuel (prepareRow exampleNodes (inputNodes exampleNodes) 3) 3 = Except.ok v :=
  (memoization_preserves_values (prepareRow exampleNodes (inputNodes exampleNodes) 3)
    (by decide) (acyclic_of_rankOK (fun i => i) _ (by decide)) (by decide)).1 3 (by decide)

/-! ## Missing ids on the way from an output -/

theorem resolves_of_no_id {s : List Node} {id : Int}
    (h : ∀ n ∈ s, n.uniqueID ≠ toUInt32 id) : resolves s id = false := by
  have key : ∀ s : List Node, (∀ n ∈ s, n.uniqueID ≠ toUInt32 id) →
      findNodeByID s id = Except.error (Err.nodeNotFound id) := by
    intro s
    induction s with
    | nil => intro _; rfl
    | cons a s ih =>
      intro h
      rw [findNodeByID, if_neg (h a (List.mem_cons_self a s)),
        ih (fun n hn => h n (List.mem_cons_of_mem a hn))]
  unfold resolves
  rw [key s h]

theorem resolves_false {s : List Node} {id : Int} {j : Nat} (h : resolves s id = false)
    (hj : findNodeByID s id = Except.ok j) : False := by
  simp [resolves, hj] at h

theorem reachesMissing_step {s : List Node} {x : Nat} (h : ReachesMissing s x) :
    (∃ id ∈ depIds (deref s x), resolves s id = false) ∨
      ∃ y, Dep s x y ∧ ReachesMissing s y := by
  obtain ⟨a, hxa, hid⟩ := h
  rcases Relation.ReflTransGen.cases_head hxa with heq | ⟨y, hxy, hya⟩
  · subst heq; exact Or.inl hid
  · exact Or.inr ⟨y, hxy, a, hya, hid⟩

theorem setCached_missInv {s0 s : List Node} (h : MissInv s0 s) (cur : Nat) (v : Int)
    (hcur : ¬ ReachesMissing s0 cur) : MissInv s0 (setCached s cur v) := by
  refine ⟨staticL_trans h.1 (frameL_static (setCached_frame s cur v)), fun i hi => ?_⟩
  rw [deref_setCached]
  have hne : ¬ (i = cur ∧ cur < s.length) := fun hc => hcur (hc.1 ▸ hi)
  rw [if_neg hne]
  exact h.2 i hi

theorem gatherInputs_missing (s0 : List Node)
    (ev : List Node → Nat → Except Err (Int × List Node))
    (hev : ∀ s j v t, MissInv s0 s → ev s j = Except.ok (v, t) →
      ¬ ReachesMissing s0 j ∧ MissInv s0 t) (ids : List Int) :
    ∀ s vals t, MissInv s0 s → gatherInputs ev s ids = Except.ok (vals, t) →
      (∀ id ∈ ids, ∃ j, findNodeByID s0 id = Except.ok j ∧ ¬ ReachesMissing s0 j) ∧
        MissInv s0 t := by
  induction ids with
  | nil =>
    intro s vals t hs h
    simp only [gatherInputs, Except.ok.injEq, Prod.mk.injEq] at h
    rw [← h.2]
    exact ⟨fun id hid => absurd hid (List.not_mem_nil id), hs⟩
  | cons inID rest ih =>
    intro s vals t hs h
    unfold gatherInputs at h
    split at h
    · exact Except.noConfusion h
    · next inNode hf =>
      split at h
      · exact Except.noConfusion h
      · next inVal s1 h1 =>
        obtain ⟨b1, i1⟩ := hev _ _ _ _ hs h1
        split at h
        · exact Except.noConfusion h
        · next vals2 s2 h2 =>
          obtain ⟨b2, i2⟩ := ih _ _ _ i1 h2
          simp only [Except.ok.injEq, Prod.mk.injEq] at h
          rw [← h.2]
          refine ⟨fun id hid => ?_, i2⟩
          rcases List.mem_cons.mp hid with rfl | hid
          · exact ⟨inNode, by rw [findNodeByID_static id s0 s hs.1, hf], b1⟩
          · exact b2 id hid

theorem dfs_missing (s0 : List Node) : ∀ fuel s x v t, MissInv s0 s →
    dfs fuel s x = Except.ok (v, t) → ¬ ReachesMissing s0 x ∧ MissInv s0 t := by
  intro fuel
  induction fuel with
  | zero => intro s x v t _ h; exact Except.noConfusion h
  | succ fuel ih =>
    intro s x v t hs h
    unfold dfs at h
    split at h
    · exact Except.noConfusion h
    · next n hn =>
      have hder : deref s x = n := deref_of_getElem? hn
      have hst := hs.1.2 x
      rw [hder] at hst
      split at h
      · next hflag =>
        simp only [Except.ok.injEq, Prod.mk.injEq] at h
        rw [← h.2]
        refine ⟨fun hbad => hflag ?_, hs⟩
        have := hs.2 x hbad
        rw [hder] at this
        exact this
      · split at h
        · next hin =>
          simp only [Except.ok.injEq, Prod.mk.injEq] at h
          rw [← h.2]
          have hnb : ¬ ReachesMissing s0 x := by
            intro hbad
            rcases reachesMissing_step hbad with ⟨id, hid, _⟩ | ⟨y, ⟨id, hid, _⟩, _⟩ <;>
            · rw [depIds, if_pos (hst.1.trans hin)] at hid
              exact absurd hid (List.not_mem_nil id)
          exact ⟨hnb, setCached_missInv hs x _ hnb⟩
        · next hin =>
          split at h
          · next hout =>
            split at h
            · exact Except.noConfusion h
            · next inID tl hinp =>
              split at h
              · exact Except.noConfusion h
              · next inNode hf =>
                split at h
                · exact Except.noConfusion h
                · next v1 s1 h1 =>
                  obtain ⟨b1, i1⟩ := ih _ _ _ _ hs h1
                  simp only [Except.ok.injEq, Prod.mk.injEq] at h
                  rw [← h.2]
                  have hf0 : findNodeByID s0 inID = Except.ok inNode := by
                    rw [findNodeByID_static inID s0 s hs.1, hf]
                  have hdeps : depIds (deref s0 x) = [inID] := by
                    rw [depIds, if_neg (fun hc => hin (hst.1 ▸ hc)), if_pos (hst.1.trans hout),
                      hst.2.2, hinp]
                    rfl
                  have hnb : ¬ ReachesMissing s0 x := by
                    intro hbad
                    rcases reachesMissing_step hbad with ⟨id, hid, hres⟩ | ⟨y, ⟨id, hid, hfy⟩, hy⟩
                    · rw [hdeps, List.mem_singleton] at hid
                      rw [hid] at hres
                      exact resolves_false hres hf0
                    · rw [hdeps, List.mem_singleton] at hid
                      rw [hid, hf0] at hfy
                      simp only [Except.ok.injEq] at hfy
                      exact b1 (hfy ▸ hy)
                  exact ⟨hnb, setCached_missInv i1 x _ hnb⟩
          · next hout =>
            split at h
            · exact Except.noConfusion h
            · next vals s1 h1 =>
              obtain ⟨b1, i1⟩ := gatherInputs_missing s0 (dfs fuel) ih n.inputs _ _ _ hs h1
              split at h
              · exact Except.noConfusion h
              · simp only [Except.ok.injEq, Prod.mk.injEq] at h
                rw [← h.2]
                have hdeps : depIds (deref s0 x) = n.inputs := by
                  rw [depIds, if_neg (fun hc => hin (hst.1 ▸ hc)),
                    if_neg (fun hc => hout (hst.1 ▸ hc)), hst.2.2]
                have hnb : ¬ ReachesMissing s0 x := by
                  intro hbad
                  rcases reachesMissing_step hbad with ⟨id, hid, hres⟩ | ⟨y, ⟨id, hid, hfy⟩, hy⟩
                  · rw [hdeps] at hid
                    obtain ⟨j, hj, _⟩ := b1 id hid
                    exact resolves_false hres hj
                  · rw [hdeps] at hid
                    obtain ⟨j, hj, hnj⟩ := b1 id hid
                    rw [hj] at hfy
                    simp only [Except.ok.injEq] at hfy
                    exact hnj (hfy ▸ hy)
                exact ⟨hnb, setCached_missInv i1 x _ hnb⟩

theorem evalOutputs_missing (s0 : List Node) (fuel : Nat) (x : Nat)
    (hbad : ReachesMissing s0 x) :
    ∀ outs s, MissInv s0 s → x ∈ outs → ∃ e, (evalOutputs fuel outs s).2 = Except.error e := by
  intro outs
  induction outs with
  | nil => intro s _ hx; exact absurd hx (List.not_mem_nil x)
  | cons p rest ih =>
    intro s hs hx
    unfold evalOutputs
    split
    · next e he => exact ⟨e, rfl⟩
    · next result s1 h1 =>
      obtain ⟨b1, i1⟩ := dfs_missing s0 fuel s p result s1 hs h1
      have hxr : x ∈ rest := by
        rcases List.mem_cons.mp hx with h | h
        · exact absurd (h ▸ hbad) b1
        · exact h
      exact ih s1 i1 hxr

/-! ## The errors an evaluation can end with -/

theorem applyGate_not_outOfFuel (t : NodeType) (vals : List Int) :
    applyGate t vals ≠ Except.error Err.outOfFuel := by
  cases t <;> cases vals <;>
    simp [applyGate, bitwiseAND, bitwiseOR, bitwiseXOR, bitwiseNOT] <;>
    split <;> simp

theorem gatherInputs_error_kinds (s0 : List Node)
    (ev : List Node → Nat → Except Err (Int × List Node))
    (hev : ∀ s j e, StaticL s0 s → j < s.length → ev s j = Except.error e → ErrKind s0 e)
    (hfr : ∀ s j v t, ev s j = Except.ok (v, t) → FrameL s t) (ids : List Int) :
    ∀ s e, StaticL s0 s → gatherInputs ev s ids = Except.error e → ErrKind s0 e := by
  induction ids with
  | nil => intro s e _ h; exact Except.noConfusion h
  | cons inID rest ih =>
    intro s e hs h
    unfold gatherInputs at h
    split at h
    · next e2 hf =>
      simp only [Except.error.injEq] at h
      rw [← h, (findNodeByID_error inID s e2 hf).1]
      exact Or.inr (Or.inr ⟨inID, rfl⟩)
    · next inNode hf =>
      split at h
      · next e2 he =>
        simp only [Except.error.injEq] at h
        rw [← h]
        exact hev _ _ _ hs (findNodeByID_ok inID s inNode hf).1 he
      · next inVal s1 h1 =>
        split at h
        · next e2 he =>
          simp only [Except.error.injEq] at h
          rw [← h]
          exact ih s1 e2 (staticL_trans hs (frameL_static (hfr _ _ _ _ h1))) he
        · exact Except.noConfusion h

theorem dfs_error_kinds (s0 : List Node) :
    ∀ fuel s x e, StaticL s0 s → x < s.length → dfs fuel s x = Except.error e →
      ErrKind s0 e := by
  intro fuel
  induction fuel with
  | zero =>
    intro s x e _ _ h
    simp only [dfs, Except.error.injEq] at h
    exact Or.inl h.symm
  | succ fuel ih =>
    intro s x e hs hx h
    unfold dfs at h
    split at h
    · next hn =>
      rw [deref_of_lt hx] at hn
      exact Option.noConfusion hn
    · next n hn =>
      have hder : deref s x = n := deref_of_getElem? hn
      have hst := hs.2 x
      rw [hder] at hst
      have hmem : deref s0 x ∈ s0 := mem_of_deref_lt (hs.1 ▸ hx)
      split at h
      · exact Except.noConfusion h
      · split at h
        · exact Except.noConfusion h
        · next hin =>
          split at h
          · next hout =>
            split at h
            · next hinp =>
              simp only [Except.error.injEq] at h
              refine Or.inr (Or.inl ⟨deref s0 x, hmem, Or.inl ⟨hst.1.trans hout, ?_⟩, ?_⟩)
              · rw [hst.2.2, hinp]
              · rw [← h, hst.1, hout]
            · next inID tl hinp =>
              split at h
              · next e2 hf =>
                simp only [Except.error.injEq] at h
                rw [← h, (findNodeByID_error inID s e2 hf).1]
                exact Or.inr (Or.inr ⟨inID, rfl⟩)
              · next inNode hf =>
                split at h
                · next e2 he =>
                  simp only [Except.error.injEq] at h
                  rw [← h]
                  exact ih _ _ _ hs (findNodeByID_ok inID s inNode hf).1 he
                · exact Except.noConfusion h
          · next hout =>
            split at h
            · next e2 he =>
              simp only [Except.error.injEq] at h
              rw [← h]
              exact gatherInputs_error_kinds s0 (dfs fuel) ih (dfs_frame fuel) n.inputs s e2
                hs he
            · next vals s1 h1 =>
              have hlen := gatherInputs_length (dfs fuel) n.inputs s vals s1 h1
              by_cases hb : badArity n
              · rw [applyGate_bad n vals hlen (gate_of_not_terminal hin hout) hb] at h
                simp only [Except.error.injEq] at h
                refine Or.inr (Or.inl ⟨deref s0 x, hmem, Or.inr ⟨?_, ?_, ?_⟩, ?_⟩)
                · rw [hst.1]; exact hin
                · rw [hst.1]; exact hout
                · unfold badArity
                  rw [hst.1, hst.2.2]
                  exact hb
                · rw [← h, hst.1]
              · rw [applyGate_good n vals hlen (gate_of_not_terminal hin hout) hb] at h
                exact Except.noConfusion h

theorem evalOutputs_error_kinds (s0 : List Node) (fuel : Nat) (outs : List Nat) :
    ∀ s e, StaticL s0 s → (∀ p ∈ outs, p < s.length) →
      (evalOutputs fuel outs s).2 = Except.error e → ErrKind s0 e := by
  induction outs with
  | nil => intro s e _ _ h; exact Except.noConfusion h
  | cons p rest ih =>
    intro s e hs hlt h
    unfold evalOutputs at h
    split at h
    · next e2 he =>
      simp only [Except.error.injEq] at h
      rw [← h]
      exact dfs_error_kinds s0 fuel s p e2 hs (hlt p (List.mem_cons_self p rest)) he
    · next result s1 h1 =>
      exact ih s1 e (staticL_trans hs (frameL_static (dfs_frame _ _ _ _ _ h1)))
        (fun q hq => by rw [dfs_length h1]; exact hlt q (List.mem_cons_of_mem p hq)) h

/-! ## Without a cycle the recursion ends -/

theorem settles_bound (s0 : List Node) (ids : List Int) :
    (∀ id ∈ ids, ∀ j, findNodeByID s0 id = Except.ok j → Settles s0 j) →
    ∃ F, ∀ id ∈ ids, ∀ j, findNodeByID s0 id = Except.ok j →
      ∀ fuel, F ≤ fuel → ∀ s, StaticL s0 s → dfs fuel s j ≠ Except.error Err.outOfFuel := by
  induction ids with
  | nil => intro _; exact ⟨0, fun id hid => absurd hid (List.not_mem_nil id)⟩
  | cons a rest ih =>
    intro h
    obtain ⟨F2, hF2⟩ := ih (fun id hid => h id (List.mem_cons_of_mem a hid))
    cases hf : findNodeByID s0 a with
    | error e =>
      refine ⟨F2, fun id hid j hj => ?_⟩
      rcases List.mem_cons.mp hid with rfl | hid
      · rw [hf] at hj; exact Except.noConfusion hj
      · exact hF2 id hid j hj
    | ok k =>
      obtain ⟨F1, hF1⟩ := h a (List.mem_cons_self a rest) k hf
      refine ⟨max F1 F2, fun id hid j hj fuel hfuel => ?_⟩
      rcases List.mem_cons.mp hid with rfl | hid
      · rw [hf] at hj
        simp only [Except.ok.injEq] at hj
        rw [← hj]
        exact hF1 fuel (Nat.le_trans (Nat.le_max_left F1 F2) hfuel)
      · exact hF2 id hid j hj fuel (Nat.le_trans (Nat.le_max_right F1 F2) hfuel)

theorem gatherInputs_settles (s0 : List Node)
    (ev : List Node → Nat → Except Err (Int × List Node))
    (hfr : ∀ s j v t, ev s j = Except.ok (v, t) → FrameL s t) (ids : List Int) :
    (∀ id ∈ ids, ∀ j, findNodeByID s0 id = Except.ok j →
      ∀ s, StaticL s0 s → ev s j ≠ Except.error Err.outOfFuel) →
    ∀ s, StaticL s0 s → gatherInputs ev s ids ≠ Except.error Err.outOfFuel := by
  induction ids with
  | nil => intro _ s _ h; exact Except.noConfusion h
  | cons a rest ih =>
    intro hev s hs h
    unfold gatherInputs at h
    split at h
    · next e2 hf =>
      simp only [Except.error.injEq] at h
      rw [h] at hf
      exact Err.noConfusion (findNodeByID_error a s _ hf).1
    · next inNode hf =>
      have hf0 : findNodeByID s0 a = Except.ok inNode := by
        rw [findNodeByID_static a s0 s hs, hf]
      split at h
      · next e2 he =>
        simp only [Except.error.injEq] at h
        rw [h] at he
        exact hev a (List.mem_cons_self a rest) inNode hf0 s hs he
      · next inVal s1 h1 =>
        split at h
        · next e2 he =>
          simp only [Except.error.injEq] at h
          rw [h] at he
          exact ih (fun id hid => hev id (List.mem_cons_of_mem a hid)) s1
            (staticL_trans hs (frameL_static (hfr _ _ _ _ h1))) he
        · exact Except.noConfusion h

theorem dfs_settles (s0 : List Node) (hac : Acyclic s0) :
    ∀ x : Fin s0.length, Settles s0 x.val := by
  intro x
  refine WellFounded.induction (C := fun y : Fin s0.length => Settles s0 y.val)
    (dep_wf s0 hac) x ?_
  intro x ih
  have hdep : ∀ id ∈ depIds (deref s0 x.val), ∀ j, findNodeByID s0 id = Except.ok j →
      Settles s0 j := by
    intro id hid j hj
    have hdj : Dep s0 x.val j := ⟨id, hid, hj⟩
    exact ih ⟨j, (dep_lt_length hdj).2⟩ (Relation.TransGen.single hdj)
  obtain ⟨F, hF⟩ := settles_bound s0 _ hdep
  refine ⟨F + 1, fun fuel hfuel s hs h => ?_⟩
  obtain ⟨k, rfl⟩ : ∃ k, fuel = k + 1 := ⟨fuel - 1, by omega⟩
  have hk : F ≤ k := by omega
  unfold dfs at h
  split at h
  · exact Err.noConfusion (Except.error.inj h)
  · next n hn =>
    have hder : deref s x.val = n := deref_of_getElem? hn
    have hst := hs.2 x.val
    rw [hder] at hst
    split at h
    · exact Except.noConfusion h
    · split at h
      · exact Except.noConfusion h
      · next hin =>
        split at h
        · next hout =>
          split at h
          · exact Err.noConfusion (Except.error.inj h)
          · next inID tl hinp =>
            have hmem : inID ∈ depIds (deref s0 x.val) := by
              rw [depIds, if_neg (fun hc => hin (hst.1 ▸ hc)), if_pos (hst.1.trans hout),
                hst.2.2, hinp]
              simp
            split at h
            · next e2 hf =>
              simp only [Except.error.injEq] at h
              rw [h] at hf
              exact Err.noConfusion (findNodeByID_error inID s _ hf).1
            · next inNode hf =>
              have hf0 : findNodeByID s0 inID = Except.ok inNode := by
                rw [findNodeByID_static inID s0 s hs, hf]
              split at h
              · next e2 he =>
                simp only [Except.error.injEq] at h
                rw [h] at he
                exact hF inID hmem inNode hf0 k hk s hs he
              · exact Except.noConfusion h
        · next hout =>
          have hdeps : depIds (deref s0 x.val) = n.inputs := by
            rw [depIds, if_neg (fun hc => hin (hst.1 ▸ hc)),
              if_neg (fun hc => hout (hst.1 ▸ hc)), hst.2.2]
          rw [hdeps] at hF
          split at h
          · next e2 he =>
            simp only [Except.error.injEq] at h
            rw [h] at he
            exact gatherInputs_settles s0 (dfs k) (dfs_frame k) n.inputs
              (fun id hid j hj s2 hs2 => hF id hid j hj k hk s2 hs2) s hs he
          · next vals s1 h1 =>
            split at h
            · next e2 he =>
              simp only [Except.error.injEq] at h
              rw [h] at he
              exact applyGate_not_outOfFuel _ _ he
            · exact Except.noConfusion h

theorem settles_all (s0 : List Node) (hac : Acyclic s0) :
    ∃ F, ∀ x, x < s0.length → ∀ fuel, F ≤ fuel → ∀ s, StaticL s0 s →
      dfs fuel s x ≠ Except.error Err.outOfFuel := by
  have key : ∀ k, k ≤ s0.length → ∃ F, ∀ x, x < k → ∀ fuel, F ≤ fuel → ∀ s, StaticL s0 s →
      dfs fuel s x ≠ Except.error Err.outOfFuel := by
    intro k
    induction k with
    | zero => intro _; exact ⟨0, fun x hx => absurd hx (Nat.not_lt_zero x)⟩
    | succ k ih =>
      intro hk
      obtain ⟨F1, hF1⟩ := ih (Nat.le_of_succ_le hk)
      obtain ⟨F2, hF2⟩ := dfs_settles s0 hac ⟨k, hk⟩
      refine ⟨max F1 F2, fun x hx fuel hfuel => ?_⟩
      rcases Nat.lt_succ_iff_lt_or_eq.mp hx with hlt | heq
      · exact hF1 x hlt fuel (Nat.le_trans (Nat.le_max_left F1 F2) hfuel)
      · rw [heq]
        exact hF2 fuel (Nat.le_trans (Nat.le_max_right F1 F2) hfuel)
  exact key s0.length (Nat.le_refl _)

theorem evalOutputs_settles (s0 : List Node) (fuel : Nat)
    (hF : ∀ x, x < s0.length → ∀ s, StaticL s0 s →
      dfs fuel s x ≠ Except.error Err.outOfFuel) (outs : List Nat) :
    ∀ s, StaticL s0 s → (∀ p ∈ outs, p < s.length) →
      (evalOutputs fuel outs s).2 ≠ Except.error Err.outOfFuel := by
  induction outs with
  | nil => intro s _ _ h; exact Except.noConfusion h
  | cons p rest ih =>
    intro s hs hlt h
    unfold evalOutputs at h
    split at h
    · next e2 he =>
      simp only [Except.error.injEq] at h
      rw [h] at he
      exact hF p (hs.1 ▸ hlt p (List.mem_cons_self p rest)) s hs he
    · next result s1 h1 =>
      exact ih s1 (staticL_trans hs (frameL_static (dfs_frame _ _ _ _ _ h1)))
        (fun q hq => by rw [dfs_length h1]; exact hlt q (List.mem_cons_of_mem p hq)) h

theorem main_first_row_error (fuel : Nat) (nodes : List Node) (e : Err)
    (hm : (inputNodes nodes).length < 31)
    (he : (evalRow fuel (inputNodes nodes) (outputNodes nodes) 0 nodes).2 = Except.error e) :
    (main fuel nodes).rows = [] ∧
      ((main fuel nodes).pending.map (fun r => r.combination)) = some 0 ∧
      (main fuel nodes).exit = some e := by
  have hpos : 2 ^ (inputNodes nodes).length = (2 ^ (inputNodes nodes).length - 1) + 1 := by
    have : 0 < 2 ^ (inputNodes nodes).length := Nat.pow_pos (by decide)
    omega
  have h := rowsLoop_succ_error (2 ^ (inputNodes nodes).length - 1) he
  rw [← hpos] at h
  rw [main_of_some (numCombinations_of_lt hm), h]
  exact ⟨rfl, rfl, rfl⟩

/-- C8, as the code has it. Take a node array with fewer than 31 INPUT nodes in which an
OUTPUT node `x` leads, through the input ids `dfs` follows (the first id of an OUTPUT node,
every id of a gate), to a node `a` from which `dfs` follows an id `id` that no node has.
Then, whatever the recursion bound, the run does not end normally: no row is printed in
full, the program stops while the first row is being printed, and it stops with the
node-not-found error for an id that stands in the input list of some node and that no node
has, or with the arity error of a node with an arity defect, or with the recursion bound
exhausted. When the array has no cycle the recursion bound is not exhausted once it is
large enough; when moreover no node has an arity defect, the run then ends with the
node-not-found error. -/
theorem missing_reference_stops_first_row (nodes : List Node) (x a : Nat) (id : Int)
    (hm : (inputNodes nodes).length < 31) (hx : x ∈ outputNodes nodes)
    (hreach : Relation.ReflTransGen (Dep nodes) x a) (hid : id ∈ depIds (deref nodes a))
    (hmiss : ∀ n ∈ nodes, n.uniqueID ≠ toUInt32 id) :
    (∀ fuel, (main fuel nodes).rows = [] ∧
      ((main fuel nodes).pending.map (fun r => r.combination)) = some 0 ∧
      ∃ e, (main fuel nodes).exit = some e ∧
        (e = Err.outOfFuel ∨ (∃ n ∈ nodes, arityDefect n ∧ e = Err.arity n.type) ∨
          ∃ id2, e = Err.nodeNotFound id2 ∧ (∃ n ∈ nodes, id2 ∈ n.inputs) ∧
            ∀ n ∈ nodes, n.uniqueID ≠ toUInt32 id2)) ∧
    (Acyclic nodes → ∃ F, ∀ fuel, F ≤ fuel →
      (main fuel nodes).exit ≠ some Err.outOfFuel) ∧
    (Acyclic nodes → (∀ n ∈ nodes, ¬ arityDefect n) → ∃ F, ∀ fuel, F ≤ fuel →
      ∃ id2, (main fuel nodes).exit = some (Err.nodeNotFound id2) ∧
        (∃ n ∈ nodes, id2 ∈ n.inputs) ∧ ∀ n ∈ nodes, n.uniqueID ≠ toUInt32 id2) := by
  have hbad : ReachesMissing nodes x := ⟨a, hreach, id, hid, resolves_of_no_id hmiss⟩
  have hinv : MissInv nodes (prepareRow nodes (inputNodes nodes) 0) :=
    ⟨prepareRow_static nodes _ 0, fun i _ => prepareRow_flag nodes _ 0 i⟩
  have hlt : ∀ p ∈ outputNodes nodes, p < (prepareRow nodes (inputNodes nodes) 0).length :=
    fun p hp => by rw [prepareRow_length]; exact mem_outputNodes_lt hp
  have hall : ∀ fuel, (main fuel nodes).rows = [] ∧
      ((main fuel nodes).pending.map (fun r => r.combination)) = some 0 ∧
      ∃ e, (main fuel nodes).exit = some e ∧
        (e = Err.outOfFuel ∨ (∃ n ∈ nodes, arityDefect n ∧ e = Err.arity n.type) ∨
          ∃ id2, e = Err.nodeNotFound id2 ∧ (∃ n ∈ nodes, id2 ∈ n.inputs) ∧
            ∀ n ∈ nodes, n.uniqueID ≠ toUInt32 id2) := by
    intro fuel
    obtain ⟨e, he⟩ := evalOutputs_missing nodes fuel x hbad (outputNodes nodes) _ hinv hx
    obtain ⟨h1, h2, h3⟩ := main_first_row_error fuel nodes e hm he
    refine ⟨h1, h2, e, h3, ?_⟩
    rcases evalOutputs_error_kinds nodes fuel (outputNodes nodes) _ e hinv.1 hlt he with
      hk | hk | ⟨id2, hk⟩
    · exact Or.inl hk
    · exact Or.inr (Or.inl hk)
    · rw [hk] at he
      exact Or.inr (Or.inr ⟨id2, hk, dangling_mem (dangling_static hinv.1 id2
        (evalOutputs_notFound fuel _ _ id2 he))⟩)
  have hfuel : Acyclic nodes → ∃ F, ∀ fuel, F ≤ fuel →
      (main fuel nodes).exit ≠ some Err.outOfFuel := by
    intro hac
    obtain ⟨F, hF⟩ := settles_all nodes hac
    refine ⟨F, fun fuel hfuel hexit => ?_⟩
    obtain ⟨e, he⟩ := evalOutputs_missing nodes fuel x hbad (outputNodes nodes) _ hinv hx
    obtain ⟨_, _, h3⟩ := main_first_row_error fuel nodes e hm he
    rw [h3] at hexit
    simp only [Option.some.injEq] at hexit
    rw [hexit] at he
    exact evalOutputs_settles nodes fuel (fun y hy s hs => hF y hy fuel hfuel s hs)
      (outputNodes nodes) _ hinv.1 hlt he
  refine ⟨hall, hfuel, fun hac hno => ?_⟩
  obtain ⟨F, hF⟩ := hfuel hac
  refine ⟨F, fun fuel hle => ?_⟩
  obtain ⟨_, _, e, he, hk | ⟨n, hn, hd, _⟩ | ⟨id2, hk, hd⟩⟩ := hall fuel
  · exact absurd (hk ▸ he) (hF fuel hle)
  · exact absurd hd (hno n hn)
  · exact ⟨id2, hk ▸ he, hd⟩

theorem missing_reference_stops_first_row_witness :
    ((inputNodes danglingThroughGate).length < 31 ∧ 2 ∈ outputNodes danglingThroughGate ∧
      Relation.ReflTransGen (Dep danglingThroughGate) 2 1 ∧
      (99 : Int) ∈ depIds (deref danglingThroughGate 1) ∧
      ∀ n ∈ danglingThroughGate, n.uniqueID ≠ toUInt32 99) ∧
    (main 5 danglingThroughGate).rows = [] ∧
    ((main 5 danglingThroughGate).pending.map (fun r => r.combination)) = some 0 ∧
    (main 5 danglingThroughGate).exit = some (Err.nodeNotFound 99) ∧
    ∃ e, (main 5 danglingThroughGate).exit = some e ∧
      (e = Err.outOfFuel ∨
        (∃ n ∈ danglingThroughGate, arityDefect n ∧ e = Err.arity n.type) ∨
        ∃ id2, e = Err.nodeNotFound id2 ∧ (∃ n ∈ danglingThroughGate, id2 ∈ n.inputs) ∧
          ∀ n ∈ danglingThroughGate, n.uniqueID ≠ toUInt32 id2) :=
  ⟨⟨by decide, by decide,
      Relation.ReflTransGen.single (⟨5, by decide, by decide⟩ : Dep danglingThroughGate 2 1),
      by decide, by decide⟩,
    ((missing_reference_stops_first_row danglingThroughGate 2 1 99 (by decide) (by decide)
      (Relation.ReflTransGen.single (⟨5, by decide, by decide⟩ : Dep danglingThroughGate 2 1))
      (by decide) (by decide)).1 5).1,
    ((missing_reference_stops_first_row danglingThroughGate 2 1 99 (by decide) (by decide)
      (Relation.ReflTransGen.single (⟨5, by decide, by decide⟩ : Dep danglingThroughGate 2 1))
      (by decide) (by decide)).1 5).2.1,
    by decide,
    ((missing_reference_stops_first_row danglingThroughGate 2 1 99 (by decide) (by decide)
      (Relation.ReflTransGen.single (⟨5, by decide, by decide⟩ : Dep danglingThroughGate 2 1))
      (by decide) (by decide)).1 5).2.2⟩

theorem cycleBeforeMissing_loops : ∀ fuel s, StaticL cycleBeforeMissing s →
    (deref s 1).hasCachedValue = 0 → (deref s 2).hasCachedValue = 0 →
    (deref s 3).hasCachedValue = 0 →
    dfs fuel s 1 = Except.error Err.outOfFuel ∧ dfs fuel s 2 = Except.error Err.outOfFuel ∧
      dfs fuel s 3 = Except.error Err.outOfFuel := by
  intro fuel
  induction fuel with
  | zero => intro s _ _ _ _; exact ⟨rfl, rfl, rfl⟩
  | succ k ih =>
    intro s hs h1 h2 h3
    obtain ⟨a1, a2, _⟩ := ih s hs h1 h2 h3
    have hlen : s.length = 4 := hs.1.symm
    have t1 : (deref s 1).type = NodeType.AND := (hs.2 1).1.symm
    have t2 : (deref s 2).type = NodeType.NOT := (hs.2 2).1.symm
    have t3 : (deref s 3).type = NodeType.OUTPUT := (hs.2 3).1.symm
    have i1 : (deref s 1).inputs = [3, 99] := (hs.2 1).2.2.symm
    have i2 : (deref s 2).inputs = [2] := (hs.2 2).2.2.symm
    have i3 : (deref s 3).inputs = [2] := (hs.2 3).2.2.symm
    have f3 : findNodeByID s 3 = Except.ok 2 := by
      rw [← findNodeByID_static 3 cycleBeforeMissing s hs]; decide
    have f2 : findNodeByID s 2 = Except.ok 1 := by
      rw [← findNodeByID_static 2 cycleBeforeMissing s hs]; decide
    refine ⟨?_, ?_, ?_⟩
    · rw [dfs, deref_of_lt (by omega : 1 < s.length)]
      simp [h1, t1, i1, gatherInputs, f3, a2]
    · rw [dfs, deref_of_lt (by omega : 2 < s.length)]
      simp [h2, t2, i2, gatherInputs, f2, a1]
    · rw [dfs, deref_of_lt (by omega : 3 < s.length)]
      simp [h3, t3, i3, f2, a1]

theorem cycleBeforeMissing_exit (fuel : Nat) :
    (main fuel cycleBeforeMissing).exit = some Err.outOfFuel := by
  have hst := prepareRow_static cycleBeforeMissing (inputNodes cycleBeforeMissing) 0
  have hfl := prepareRow_flag cycleBeforeMissing (inputNodes cycleBeforeMissing) 0
  have h := (cycleBeforeMissing_loops fuel _ hst (hfl 1) (hfl 2) (hfl 3)).2.2
  have he : (evalRow fuel (inputNodes cycleBeforeMissing) (outputNodes cycleBeforeMissing) 0
      cycleBeforeMissing).2 = Except.error Err.outOfFuel := by
    have ho : outputNodes cycleBeforeMissing = [3] := by decide
    rw [ho]
    simp only [evalRow, evalOutputs, h]
  exact (main_first_row_error fuel cycleBeforeMissing _ (by decide) he).2.2

/-- C8, counterexample. In `danglingUnreached` the AND node lists the id 99, which no node
has, yet the run ends normally with both rows printed: no OUTPUT node depends on the AND
node, so it is never evaluated. In `arityBeforeMissing` the second OUTPUT node reads the id
99, which no node has, but the run stops at the first OUTPUT node with the arity error and
not with a node-not-found error. In `cycleBeforeMissing` the AND gate lists the id 99,
which no node has, but the OUTPUT node reads the AND gate, which reads the NOT gate, which
reads the AND gate again: whatever the recursion bound, the run exhausts it, and no
node-not-found error is reported. -/
theorem unreached_missing_reference_no_error :
    ((99 : Int) ∈ (deref danglingUnreached 1).inputs ∧
      (∀ n ∈ danglingUnreached, n.uniqueID ≠ toUInt32 99) ∧
      (main 5 danglingUnreached).exit = none ∧
      (main 5 danglingUnreached).rows =
        [ { combination := 0, inputBits := [0], outputBits := [0] },
          { combination := 1, inputBits := [1], outputBits := [1] } ]) ∧
    ((99 : Int) ∈ (deref arityBeforeMissing 1).inputs ∧
      (∀ n ∈ arityBeforeMissing, n.uniqueID ≠ toUInt32 99) ∧
      (main 5 arityBeforeMissing).exit = some (Err.arity NodeType.OUTPUT)) ∧
    ((99 : Int) ∈ (deref cycleBeforeMissing 1).inputs ∧
      (∀ n ∈ cycleBeforeMissing, n.uniqueID ≠ toUInt32 99) ∧
      ∀ fuel, (main fuel cycleBeforeMissing).exit = some Err.outOfFuel) :=
  ⟨by decide, by decide, by decide, by decide, cycleBeforeMissing_exit⟩

end LogicSim
